import Mathlib

/-!
Verification of the algostructs library core: the persistent binary-heap
family (`src/dist/data-structures/tree.js`), the sorting suite
(`src/dist/algorithms/sort.js`) and the searching suite
(`src/unnamed/part_001`, the compiled `Searching` class).

The JavaScript code is shallowly embedded: JS arrays become `List`
values read with `getD` (all in-range reads are guarded exactly as in the
source; an out-of-range JS read yields `undefined`, and every comparison
against `undefined` under the default numeric comparator is a `NaN`
comparison, hence false — where such reads are reachable we model them
with an explicit `Option` read whose `none` case makes the test false),
JS numbers restricted to integers become `Int`/`Nat`, thrown exceptions
become `Except`, and loops become recursive functions on the same state.
-/

/-- The default comparator of the library: numeric subtraction `a - b`. -/
def icmp (a b : Int) : Int := a - b

/-- The comparator contract of the spec (total order semantics): `c a b` is
negative exactly when `c b a` is positive (sign antisymmetry), and the induced
relation `c a b ≤ 0` is transitive.  `icmp` and its flip satisfy it. -/
structure LawfulCmp {α : Type} (c : α → α → Int) : Prop where
  neg_iff : ∀ a b, c a b < 0 ↔ 0 < c b a
  trans : ∀ a b d, c a b ≤ 0 → c b d ≤ 0 → c a d ≤ 0

namespace LawfulCmp

variable {α : Type} {c : α → α → Int}

theorem refl (hc : LawfulCmp c) (a : α) : c a a = 0 := by
  have h := hc.neg_iff a a
  omega

theorem flip_pos (hc : LawfulCmp c) {a b : α} (h : 0 < c a b) : c b a < 0 := by
  have := hc.neg_iff b a
  omega

theorem flip_neg (hc : LawfulCmp c) {a b : α} (h : c a b < 0) : 0 < c b a := by
  have := hc.neg_iff a b
  omega

theorem zero_flip (hc : LawfulCmp c) {a b : α} (h : c a b = 0) : c b a = 0 := by
  have h1 := hc.neg_iff a b
  have h2 := hc.neg_iff b a
  omega

theorem le_of_not_lt (hc : LawfulCmp c) {a b : α} (h : ¬ c a b < 0) : c b a ≤ 0 := by
  have := hc.neg_iff a b
  omega

theorem total (hc : LawfulCmp c) (a b : α) : c a b ≤ 0 ∨ c b a ≤ 0 := by
  have := hc.neg_iff a b
  omega

end LawfulCmp

/-- The default numeric comparator is lawful. -/
theorem icmp_lawful : LawfulCmp icmp := by
  constructor
  · intro a b
    unfold icmp
    omega
  · intro a b d h1 h2
    unfold icmp at *
    omega

/-- Any comparator of the form `f a - f b` (key extraction) is lawful;
in particular the MaxHeap comparator `b - a` (keys negated). -/
theorem LawfulCmp.ofKey {α : Type} (f : α → Int) : LawfulCmp (fun a b => f a - f b) := by
  constructor
  · intro a b
    omega
  · intro a b d h1 h2
    omega

/-! ## The searching suite (`Searching` class, src/unnamed/part_001) -/

namespace Searching

/-- The `SearchResult` record returned by every search algorithm:
`element` is `none` when the JS code returns `undefined`. -/
structure SearchResult where
  element : Option Int
  index : Int
  comparisons : Nat
deriving Repr, DecidableEq

/-- A JS array read `arr[i]` at a possibly out-of-range index:
`none` models `undefined`. -/
def readZ (arr : List Int) (i : Int) : Option Int :=
  if 0 ≤ i ∧ i < (arr.length : Int) then some (arr.getD i.toNat 0) else none

/-- `compare(x, target) < 0` where `x` may be `undefined`: a comparison
against `undefined` is a `NaN` comparison and is false. -/
def optLt (c : Int → Int → Int) (o : Option Int) (t : Int) : Bool :=
  match o with
  | some a => decide (c a t < 0)
  | none => false

/-- `compare(x, target) === 0` where `x` may be `undefined` (false for `NaN`). -/
def optEq (c : Int → Int → Int) (o : Option Int) (t : Int) : Bool :=
  match o with
  | some a => decide (c a t = 0)
  | none => false

/-- The adjacent-pair scan `for i in 1..n-1: if compare(arr[i-1], arr[i]) > 0`
used by the sortedness validations (and by `Sorting.isSorted`): true iff no
adjacent inversion.  Written structurally over the same pairs. -/
def adjOK (c : Int → Int → Int) : List Int → Bool
  | [] => true
  | [_] => true
  | a :: b :: t => !decide (0 < c a b) && adjOK c (b :: t)

/-- The `while (left <= right)` loop of `binarySearch`. -/
def binLoop (c : Int → Int → Int) (arr : List Int) (target : Int)
    (left right : Int) (comparisons : Nat) : SearchResult :=
  if h : left ≤ right then
    -- const mid = left + Math.floor((right - left) / 2)  (right - left ≥ 0)
    let mid := left + (right - left) / 2
    match hv : readZ arr mid with
    | some v =>
      let cmp := c v target
      if cmp = 0 then ⟨some v, mid, comparisons + 1⟩
      else if cmp < 0 then binLoop c arr target (mid + 1) right (comparisons + 1)
      else binLoop c arr target left (mid - 1) (comparisons + 1)
    | none =>
      -- undefined probe: NaN === 0 and NaN < 0 are both false, so the
      -- else-branch `right = mid - 1` runs (unreachable from binarySearch).
      binLoop c arr target left (mid - 1) (comparisons + 1)
  else ⟨none, -1, comparisons⟩
termination_by (right + 1 - left).toNat
decreasing_by
  · simp only [mid] at *; omega
  · simp only [mid] at *; omega
  · simp only [mid] at *; omega

/-- `Searching.binarySearch`: validates sortedness (those comparator calls are
not counted), then runs the midpoint loop. -/
def binarySearch (arr : List Int) (target : Int) (c : Int → Int → Int := icmp) :
    Except String SearchResult :=
  if adjOK c arr then Except.ok (binLoop c arr target 0 ((arr.length : Int) - 1) 0)
  else Except.error "Array must be sorted for binary search"

/-- The indexed scan of `linearSearch`. -/
def linLoop (c : Int → Int → Int) (target : Int) :
    List Int → Nat → Nat → SearchResult
  | [], _, comparisons => ⟨none, -1, comparisons⟩
  | a :: rest, i, comparisons =>
    if c a target = 0 then ⟨some a, (i : Int), comparisons + 1⟩
    else linLoop c target rest (i + 1) (comparisons + 1)

/-- `Searching.linearSearch`. -/
def linearSearch (arr : List Int) (target : Int) (c : Int → Int → Int := icmp) :
    SearchResult :=
  linLoop c target arr 0 0

/-- Outcome of `jumpSearch`'s first (block-finding) loop. -/
inductive JumpPhase1 where
  | notFound (comparisons : Nat)
  | block (prev step comparisons : Nat)

/-- The block-finding loop of `jumpSearch`:
`while (compare(arr[Math.min(step, n) - 1], target) < 0)`. -/
def jumpLoop1 (c : Int → Int → Int) (arr : List Int) (target : Int)
    (prev step comparisons : Nat) : JumpPhase1 :=
  let n := arr.length
  if h : optLt c (readZ arr (((min step n : Nat) : Int) - 1)) target then
    let prev' := step
    let step' := step + Nat.sqrt n
    if n ≤ prev' then JumpPhase1.notFound (comparisons + 1)
    else jumpLoop1 c arr target prev' step' (comparisons + 1)
  else JumpPhase1.block prev step comparisons
termination_by arr.length - step
decreasing_by
  rename_i hlt
  have h1 : 1 ≤ min step arr.length := by
    by_contra hn
    rw [readZ, if_neg (by omega)] at h
    exact absurd h (by simp [optLt])
  have h2 : 1 ≤ Nat.sqrt arr.length := Nat.sqrt_pos.mpr (by omega)
  omega

/-- The in-block linear loop of `jumpSearch` followed by the final equality
check; `bound` is the (fixed) `Math.min(step, n)`. -/
def jumpLoop2 (c : Int → Int → Int) (arr : List Int) (target : Int)
    (bound : Nat) (prev comparisons : Nat) : SearchResult :=
  if h : optLt c (readZ arr (prev : Int)) target then
    let prev' := prev + 1
    if prev' = bound then ⟨none, -1, comparisons + 1⟩
    else jumpLoop2 c arr target bound prev' (comparisons + 1)
  else
    -- comparisons++; if (compare(arr[prev], target) === 0) found else not
    if optEq c (readZ arr (prev : Int)) target then
      ⟨readZ arr (prev : Int), (prev : Int), comparisons + 1⟩
    else ⟨none, -1, comparisons + 1⟩
termination_by arr.length - prev
decreasing_by
  have hin : (prev : Int) < (arr.length : Int) := by
    by_contra hn
    simp only [readZ] at h
    rw [if_neg (by omega)] at h
    exact absurd h (by simp [optLt])
  omega

/-- `Searching.jumpSearch`: sortedness validation (uncounted), block jumping,
then in-block scan. -/
def jumpSearch (arr : List Int) (target : Int) (c : Int → Int → Int := icmp) :
    Except String SearchResult :=
  if adjOK c arr then
    let n := arr.length
    let step := Nat.sqrt n
    Except.ok
      (match jumpLoop1 c arr target 0 step 0 with
       | JumpPhase1.notFound comps => ⟨none, -1, comps⟩
       | JumpPhase1.block prev step' comps =>
         jumpLoop2 c arr target (min step' n) prev comps)
  else Except.error "Array must be sorted for jump search"

/-- The interpolation-search loop.  Plain numeric comparisons (this algorithm
takes no comparator).  `fuel` bounds the iteration count; on every input in
the claims' scope the fuel provided by `interpolationSearch` is never
exhausted (the window shrinks at every step), while `none` conservatively
models inputs on which the JS loop would not terminate. -/
def interLoop (arr : List Int) (target : Int) :
    Int → Int → Nat → Nat → Option SearchResult
  | _, _, _, 0 => none
  | low, high, comparisons, fuel + 1 =>
    -- while (low <= high && target >= arr[low] && target <= arr[high])
    if low ≤ high ∧ (∃ a, readZ arr low = some a ∧ a ≤ target)
        ∧ (∃ b, readZ arr high = some b ∧ target ≤ b) then
      if low = high then
        if readZ arr low = some target then
          some ⟨some target, low, comparisons + 1⟩
        else some ⟨none, -1, comparisons + 1⟩
      else
        let a := arr.getD low.toNat 0
        let b := arr.getD high.toNat 0
        if b = a then
          -- pos = low + floor(((high-low)*(target-a)) / 0) = NaN;
          -- arr[NaN] is undefined, both following tests are false, the
          -- else-branch sets high = NaN and the next loop test is false:
          -- the call returns not-found with this iteration counted.
          some ⟨none, -1, comparisons + 1⟩
        else
          let pos := low + Int.fdiv ((high - low) * (target - a)) (b - a)
          match readZ arr pos with
          | none =>
            -- undefined probe: `=== target` and `< target` both false
            interLoop arr target low (pos - 1) (comparisons + 1) fuel
          | some v =>
            if v = target then some ⟨some v, pos, comparisons + 1⟩
            else if v < target then
              interLoop arr target (pos + 1) high (comparisons + 1) fuel
            else interLoop arr target low (pos - 1) (comparisons + 1) fuel
    else some ⟨none, -1, comparisons⟩

/-- `Searching.interpolationSearch`. -/
def interpolationSearch (arr : List Int) (target : Int) : Option SearchResult :=
  interLoop arr target 0 ((arr.length : Int) - 1) 0 (arr.length + 2)

/-- The doubling loop of `exponentialSearch`:
`while (i < n && compare(arr[i], target) <= 0) { comparisons++; i *= 2 }`.
The JS variable `i` starts at 1 and doubles, so it is represented as `2 ^ k`
(a transparent change of variable that makes termination structural). -/
def expLoop (c : Int → Int → Int) (arr : List Int) (target : Int)
    (k comparisons : Nat) : Nat × Nat :=
  if h : 2 ^ k < arr.length ∧ c (arr.getD (2 ^ k) 0) target ≤ 0 then
    expLoop c arr target (k + 1) (comparisons + 1)
  else (2 ^ k, comparisons)
termination_by arr.length - 2 ^ k
decreasing_by
  have : 2 ^ k < 2 ^ (k + 1) := Nat.pow_lt_pow_succ (by omega)
  omega

/-- `arr.slice(a, b)` (JS slice, end exclusive, already-clamped arguments). -/
def sliceJS (arr : List Int) (a b : Nat) : List Int :=
  (arr.drop a).take (b - a)

/-- `Searching.exponentialSearch`: probe index 0, double a bound, then
delegate to `binarySearch` on `arr.slice(i/2, Math.min(i, n))` and offset the
returned index by `i/2`.  (When `i = 1` JS computes the fractional `i/2 = 0.5`,
which `slice` truncates to 0; the found-branch offset `0.5 + index` is
unreachable because a hit at the only sliced element `arr[0]` would contradict
the probe of index 0 just made, so `Nat` division is faithful.) -/
def exponentialSearch (arr : List Int) (target : Int)
    (c : Int → Int → Int := icmp) : Except String SearchResult :=
  if arr.length = 0 then Except.ok ⟨none, -1, 0⟩
  else if c (arr.getD 0 0) target = 0 then Except.ok ⟨some (arr.getD 0 0), 0, 1⟩
  else
    let p := expLoop c arr target 0 1
    match binarySearch (sliceJS arr (p.1 / 2) (min p.1 arr.length)) target c with
    | Except.error e => Except.error e
    | Except.ok r =>
      Except.ok
        { element := r.element
          index := if r.element.isSome then ((p.1 / 2 : Nat) : Int) + r.index else -1
          comparisons := p.2 + r.comparisons }

/-- The `isUniformlyDistributed` heuristic.  JS computes the mean and variance
of consecutive differences in floating point; the model computes them exactly
in `ℚ` (no claim depends on which branch is taken near the threshold). -/
def isUniformlyDistributed (arr : List Int) : Bool :=
  if arr.length < 4 then false
  else
    let diffs : List ℚ := (List.zip (arr.drop 1) arr).map fun p => ((p.1 - p.2 : Int) : ℚ)
    let avgDiff : ℚ := diffs.sum / (diffs.length : ℚ)
    let variance : ℚ := (diffs.map fun d => (d - avgDiff) ^ 2).sum / (diffs.length : ℚ)
    decide (variance < avgDiff / 2)

/-- `Searching.search`, the adaptive dispatcher.  The element type is `Int`,
so the JS `typeof === "number"` guards on target and elements are true.
`none` only ever models a potentially diverging delegated
`interpolationSearch` call (never an error). -/
def search (arr : List Int) (target : Int) (c : Int → Int → Int := icmp) :
    Option (Except String SearchResult) :=
  if arr.length ≤ 10 then some (Except.ok (linearSearch arr target c))
  else if ¬ adjOK c arr then some (Except.ok (linearSearch arr target c))
  else if isUniformlyDistributed arr then
    (interpolationSearch arr target).map Except.ok
  else some (binarySearch arr target c)

end Searching

/-! ## Generic array machinery shared by the heap family and heapSort

The heap class (`tree.js`) and `Sorting.heapSort` each contain a sift-down
routine: `Heap.bubbleDown` (bound = array length), the private
`Heap.heapify` of the iterator (explicit bound) and the `heapify` closure of
`heapSort` (recursive, on the flipped comparison).  All three are the same
loop up to the "this child is strictly better" test, so the loop is written
once, parameterized by that Boolean test, and each source routine is its
instantiation. -/

/-- JS destructuring swap `[arr[i], arr[j]] = [arr[j], arr[i]]`
(both reads happen before both writes). -/
def swapL {α : Type} [Inhabited α] (l : List α) (i j : Nat) : List α :=
  let a := l.getD i default
  let b := l.getD j default
  (l.set i b).set j a

/-- The child selection of a sift-down step: starting from `m = i`, take the
left child if it is strictly better, then the right child if it is strictly
better than the current pick (left preferred on ties). -/
def pickChild {α : Type} [Inhabited α] (better : α → α → Bool)
    (l : List α) (i size : Nat) : Nat :=
  let left := 2 * i + 1
  let right := 2 * i + 2
  let m1 := if left < size ∧ better (l.getD left default) (l.getD i default) then left else i
  if right < size ∧ better (l.getD right default) (l.getD m1 default) then right else m1

theorem pickChild_cases {α : Type} [Inhabited α] (better : α → α → Bool)
    (l : List α) (i size : Nat) :
    pickChild better l i size = i ∨
      (pickChild better l i size = 2 * i + 1 ∨ pickChild better l i size = 2 * i + 2) ∧
        i < pickChild better l i size ∧ pickChild better l i size < size := by
  unfold pickChild
  dsimp only
  by_cases h1 : 2 * i + 1 < size ∧ better (l.getD (2 * i + 1) default) (l.getD i default) = true
  · rw [if_pos h1]
    by_cases h2 : 2 * i + 2 < size ∧
        better (l.getD (2 * i + 2) default) (l.getD (2 * i + 1) default) = true
    · rw [if_pos h2]; right; exact ⟨Or.inr rfl, by omega, h2.1⟩
    · rw [if_neg h2]; right; exact ⟨Or.inl rfl, by omega, h1.1⟩
  · rw [if_neg h1]
    by_cases h2 : 2 * i + 2 < size ∧
        better (l.getD (2 * i + 2) default) (l.getD i default) = true
    · rw [if_pos h2]; right; exact ⟨Or.inr rfl, by omega, h2.1⟩
    · rw [if_neg h2]; left; rfl

/-- The shared sift-down loop: while some in-range child is strictly
`better` than the current node, swap with the best such child and descend. -/
def siftDownG {α : Type} [Inhabited α] (better : α → α → Bool)
    (l : List α) (i size : Nat) : List α :=
  let m := pickChild better l i size
  if m = i then l
  else siftDownG better (swapL l i m) m size
termination_by size - i
decreasing_by
  rename_i hm
  rcases pickChild_cases better l i size with h | ⟨_, h2, h3⟩
  · exact absurd h hm
  · omega

/-- The bottom-up heapify loop `for (i = floor(n/2) - 1; i >= 0; i--)
siftDown(i)` shared by the heap `from` builders and by `heapSort`'s
build phase; the argument counts the remaining iterations, so `k+1` first
sifts index `k` and works down to 0. -/
def buildLoopG {α : Type} [Inhabited α] (better : α → α → Bool)
    (n : Nat) (l : List α) : Nat → List α
  | 0 => l
  | k + 1 => buildLoopG better n (siftDownG better l k n) k

/-- The extraction loop `for (i = n - 1; i > 0; i--) { swap(0, i);
siftDown(0, i) }` shared by the heap iterator and by `heapSort`. -/
def extractLoopG {α : Type} [Inhabited α] (better : α → α → Bool)
    (arr : List α) : Nat → List α
  | 0 => arr
  | i + 1 =>
    extractLoopG better (siftDownG better (swapL arr 0 (i + 1)) 0 (i + 1)) i

/-- `Heap.bubbleUp` (tree.js): while the parent compares strictly greater,
swap upward. -/
def bubbleUp {α : Type} [Inhabited α] (c : α → α → Int)
    (heap : List α) (index : Nat) : List α :=
  if h : index = 0 then heap
  else
    let parentIndex := (index - 1) / 2
    if c (heap.getD parentIndex default) (heap.getD index default) ≤ 0 then heap
    else bubbleUp c (swapL heap parentIndex index) parentIndex
termination_by index
decreasing_by omega

/-! ## The sorting suite (`Sorting` class, src/dist/algorithms/sort.js) -/

namespace Sorting

/-- The do-while scan `do { i++ } while (compare(result[i], pivot) < 0)` of
the Hoare partition.  An out-of-range read stops the scan (the `undefined`
comparison is false under the numeric comparator); under a lawful comparator
the scan provably never leaves the window. -/
def qsScanR {α : Type} [Inhabited α] (c : α → α → Int) (arr : List α)
    (pivot : α) (i : Int) : Int :=
  let i' := i + 1
  if h : 0 ≤ i' ∧ i' < (arr.length : Int) ∧ c (arr.getD i'.toNat default) pivot < 0 then
    qsScanR c arr pivot i'
  else i'
termination_by ((arr.length : Int) - i).toNat
decreasing_by omega

/-- The do-while scan `do { j-- } while (compare(result[j], pivot) > 0)`. -/
def qsScanL {α : Type} [Inhabited α] (c : α → α → Int) (arr : List α)
    (pivot : α) (j : Int) : Int :=
  let j' := j - 1
  if h : 0 ≤ j' ∧ j' < (arr.length : Int) ∧ 0 < c (arr.getD j'.toNat default) pivot then
    qsScanL c arr pivot j'
  else j'
termination_by (j + 1).toNat
decreasing_by omega

theorem qsScanR_ge {α : Type} [Inhabited α] (c : α → α → Int) (arr : List α)
    (pivot : α) (i : Int) : i + 1 ≤ qsScanR c arr pivot i := by
  rw [qsScanR]
  split
  · rename_i h
    have := qsScanR_ge c arr pivot (i + 1)
    omega
  · omega
termination_by ((arr.length : Int) - i).toNat
decreasing_by omega

theorem qsScanL_le {α : Type} [Inhabited α] (c : α → α → Int) (arr : List α)
    (pivot : α) (j : Int) : qsScanL c arr pivot j ≤ j - 1 := by
  rw [qsScanL]
  split
  · rename_i h
    have := qsScanL_le c arr pivot (j - 1)
    omega
  · omega
termination_by (j + 1).toNat
decreasing_by omega

/-- The `while (true)` body of the Hoare partition: advance both scans, stop
returning `j` when they cross, otherwise swap and continue. -/
def partitionLoop {α : Type} [Inhabited α] (c : α → α → Int) (arr : List α)
    (pivot : α) (i j : Int) : Int × List α :=
  let i' := qsScanR c arr pivot i
  let j' := qsScanL c arr pivot j
  if h : i' < j' then partitionLoop c (swapL arr i'.toNat j'.toNat) pivot i' j'
  else (j', arr)
termination_by (j - i).toNat
decreasing_by
  have h1 := qsScanR_ge c arr pivot i
  have h2 := qsScanL_le c arr pivot j
  omega

/-- One Hoare partition of the window `[low, high]`:
pivot is the middle element. -/
def partition {α : Type} [Inhabited α] (c : α → α → Int) (arr : List α)
    (low high : Int) : Int × List α :=
  let pivot := arr.getD (Int.fdiv (low + high) 2).toNat default
  partitionLoop c arr pivot (low - 1) (high + 1)

/-- The recursive `sort(low, high)` of `quickSort`.  The JS recursion
diverges for comparators breaking the comparator contract (the partition
point can fail to split the window), which the fuel's `none` models; for a
lawful comparator the fuel provided by `quickSort` is proved sufficient. -/
def qsortAux {α : Type} [Inhabited α] (c : α → α → Int) :
    Nat → List α → Int → Int → Option (List α)
  | 0, _, _, _ => none
  | fuel + 1, arr, low, high =>
    if low < high then
      match partition c arr low high with
      | (p, arr') =>
        match qsortAux c fuel arr' low p with
        | none => none
        | some arr1 => qsortAux c fuel arr1 (p + 1) high
    else some arr

/-- `Sorting.quickSort`: copy, then Hoare-partition recursion on the copy. -/
def quickSort {α : Type} [Inhabited α] (c : α → α → Int) (arr : List α) :
    Option (List α) :=
  if arr.length ≤ 1 then some arr
  else qsortAux c (arr.length + 1) arr 0 ((arr.length : Int) - 1)

/-- The `merge` closure of `mergeSort`: take from the left run while its head
compares `<= 0` against the right head (stability), then append leftovers. -/
def mergeJS {α : Type} (c : α → α → Int) : List α → List α → List α
  | [], r => r
  | a :: l, [] => a :: l
  | a :: l, b :: r =>
    if c a b ≤ 0 then a :: mergeJS c l (b :: r)
    else b :: mergeJS c (a :: l) r
termination_by l r => l.length + r.length

/-- `Sorting.mergeSort`: split at `floor(n/2)`, recurse, merge. -/
def mergeSort {α : Type} (c : α → α → Int) (arr : List α) : List α :=
  if h : arr.length ≤ 1 then arr
  else
    let mid := arr.length / 2
    mergeJS c (mergeSort c (arr.take mid)) (mergeSort c (arr.drop mid))
termination_by arr.length
decreasing_by
  · simp only [List.length_take]; omega
  · simp only [List.length_drop]; omega

/-- `Sorting.heapSort`: copy, build a root-largest heap with the flipped
strict test `compare(child, parent) > 0`, then repeatedly swap the root to
the shrinking tail.  `heapSort`'s `heapify` is the recursive form of the
shared sift-down loop with that test. -/
def heapSort {α : Type} [Inhabited α] (c : α → α → Int) (arr : List α) :
    List α :=
  let better := fun a b => decide (0 < c a b)
  let built := buildLoopG better arr.length arr (arr.length / 2)
  extractLoopG better built (built.length - 1)

/-- The shifting inner `while` of `insertionSort`
(`while (j >= 0 && compare(result[j], key) > 0)`). -/
def insertInner {α : Type} [Inhabited α] (c : α → α → Int) (result : List α)
    (key : α) (j : Int) : List α :=
  if h : 0 ≤ j ∧ 0 < c (result.getD j.toNat default) key then
    insertInner c (result.set (j + 1).toNat (result.getD j.toNat default)) key (j - 1)
  else result.set (j + 1).toNat key
termination_by (j + 1).toNat
decreasing_by omega

theorem insertInner_length {α : Type} [Inhabited α] (c : α → α → Int)
    (result : List α) (key : α) (j : Int) :
    (insertInner c result key j).length = result.length := by
  rw [insertInner]
  split
  · rw [insertInner_length]
    simp
  · simp
termination_by (j + 1).toNat
decreasing_by omega

/-- The outer `for (i = 1; i < n; i++)` of `insertionSort`. -/
def insertOuter {α : Type} [Inhabited α] (c : α → α → Int) (result : List α)
    (i : Nat) : List α :=
  if h : i < result.length then
    insertOuter c (insertInner c result (result.getD i default) ((i : Int) - 1)) (i + 1)
  else result
termination_by result.length - i
decreasing_by rw [insertInner_length]; omega

/-- `Sorting.insertionSort`. -/
def insertionSort {α : Type} [Inhabited α] (c : α → α → Int) (arr : List α) :
    List α :=
  insertOuter c arr 1

/-- `Sorting.sort`, the adaptive dispatcher: insertion sort for length ≤ 10,
quicksort above. -/
def sort {α : Type} [Inhabited α] (c : α → α → Int) (arr : List α) :
    Option (List α) :=
  if arr.length ≤ 10 then some (insertionSort c arr)
  else quickSort c arr

/-- `Sorting.isSorted`: no adjacent inversion. -/
def isSorted {α : Type} (c : α → α → Int) : List α → Bool
  | [] => true
  | [_] => true
  | a :: b :: t => !decide (0 < c a b) && isSorted c (b :: t)

end Sorting

/-! ## Basic length lemmas for the shared machinery -/

theorem length_swapL {α : Type} [Inhabited α] (l : List α) (i j : Nat) :
    (swapL l i j).length = l.length := by
  simp [swapL]

theorem length_siftDownG {α : Type} [Inhabited α] (better : α → α → Bool)
    (l : List α) (i size : Nat) :
    (siftDownG better l i size).length = l.length := by
  rw [siftDownG]
  split
  · rfl
  · rw [length_siftDownG, length_swapL]
termination_by size - i
decreasing_by
  rename_i hm
  rcases pickChild_cases better l i size with h | ⟨_, h2, h3⟩
  · exact absurd h hm
  · omega

theorem length_buildLoopG {α : Type} [Inhabited α] (better : α → α → Bool)
    (n : Nat) (l : List α) (k : Nat) :
    (buildLoopG better n l k).length = l.length := by
  induction k generalizing l with
  | zero => rfl
  | succ k ih => rw [buildLoopG, ih, length_siftDownG]

theorem length_extractLoopG {α : Type} [Inhabited α] (better : α → α → Bool)
    (arr : List α) (i : Nat) :
    (extractLoopG better arr i).length = arr.length := by
  induction i generalizing arr with
  | zero => rfl
  | succ i ih => rw [extractLoopG, ih, length_siftDownG, length_swapL]

theorem length_bubbleUp {α : Type} [Inhabited α] (c : α → α → Int)
    (heap : List α) (index : Nat) :
    (bubbleUp c heap index).length = heap.length := by
  rw [bubbleUp]
  split
  · rfl
  · dsimp only
    split
    · rfl
    · rw [length_bubbleUp, length_swapL]
termination_by index
decreasing_by omega

/-! ## The heap family (`tree.js`): abstract `Heap` plus variants

The four variants (`MinHeap`, `MaxHeap`, `CustomHeap`, `BinaryHeap`) differ
only in the comparator their overridden `compare`/`clone` pair installs
(`a - b`, `b - a`, a user function, and `a - b` possibly negated), so the
model carries the active comparator as a field; `clone` preserves it,
matching every variant's `clone` override. -/

structure Heap (α : Type) where
  cmp : α → α → Int
  elements : List α

/-- `Heap.bubbleDown` (tree.js): sift down with the strict test
`compare(child, current) < 0`, bounded by `heap.length`. -/
def bubbleDownArr {α : Type} [Inhabited α] (c : α → α → Int)
    (heap : List α) (index : Nat) : List α :=
  siftDownG (fun a b => decide (c a b < 0)) heap index heap.length

/-- The post-removal backing array of `Heap.remove` on a non-empty heap:
`elements[0] = elements[n-1]; pop(); if (length > 0) bubbleDown(0)`. -/
def removeArr {α : Type} [Inhabited α] (c : α → α → Int) : List α → List α
  | [] => []
  | e :: rest =>
    let last := (e :: rest).getD rest.length default
    let arr1 := ((e :: rest).set 0 last).dropLast
    if 0 < arr1.length then bubbleDownArr c arr1 0 else arr1

theorem length_removeArr {α : Type} [Inhabited α] (c : α → α → Int)
    (e : α) (rest : List α) :
    (removeArr c (e :: rest)).length = rest.length := by
  simp only [removeArr]
  split
  · rw [bubbleDownArr, length_siftDownG]
    simp
  · simp

namespace Heap

variable {α : Type}

/-- `size()`. -/
def size (h : Heap α) : Nat := h.elements.length

/-- `isEmpty()`. -/
def isEmpty (h : Heap α) : Bool := decide (h.elements.length = 0)

/-- `peek()`: `elements[0]`, `undefined` when empty. -/
def peek (h : Heap α) : Option α := h.elements.head?

/-- `clone()`: every variant builds a fresh instance of the same class (same
comparator) and pushes a copy of the backing array. -/
def clone (h : Heap α) : Heap α := ⟨h.cmp, h.elements⟩

/-- `add(element)`: clone, push, bubble the last element up.  (The JS
`TypeError` guard rejects only `null`/`undefined`, the absence sentinel,
which the element type does not contain.) -/
def add [Inhabited α] (h : Heap α) (x : α) : Heap α :=
  let newElems := h.elements ++ [x]
  ⟨h.cmp, bubbleUp h.cmp newElems (newElems.length - 1)⟩

/-- `remove()`: on empty, `{element: undefined, heap: clone}`; otherwise
capture the root, move the last element to the root, pop, sift down. -/
def remove [Inhabited α] (h : Heap α) : Option α × Heap α :=
  match h.elements with
  | [] => (none, clone h)
  | e :: rest => (some e, ⟨h.cmp, removeArr h.cmp (e :: rest)⟩)

/-- `clear()`: the source returns `this.clone()`. -/
def clear (h : Heap α) : Heap α := clone h

/-- The heapify loop of the static `from` builders
(`for i = floor(n/2) - 1 downto 0: bubbleDown(i)`); the argument counts the
remaining iterations. -/
def buildLoop [Inhabited α] (c : α → α → Int) (l : List α) : Nat → List α
  | 0 => l
  | k + 1 => buildLoop c (bubbleDownArr c l k) k

/-- The static `from(elements)` shared by all variants (the array-likeness
`TypeError` guard is outside the model: the argument is already a list):
copy the input, then heapify bottom-up. -/
def fromArr [Inhabited α] (c : α → α → Int) (elements : List α) : Heap α :=
  ⟨c, buildLoop c elements (elements.length / 2)⟩

/-- The iterator (`*[Symbol.iterator]`): heapsort a private copy in place
(swap root to the shrinking tail, re-heapify with the private `heapify`,
whose body is the sift-down loop bounded by `i`), then yield the reversed
array. -/
def iterSeq [Inhabited α] (h : Heap α) : List α :=
  (extractLoopG (fun a b => decide (h.cmp a b < 0)) h.elements
    (h.elements.length - 1)).reverse

/-- Draining helper: the sequence obtained by repeatedly calling `remove()`
until empty (this is the claim's reference behaviour, not a source method). -/
def drainArr [Inhabited α] (c : α → α → Int) : List α → List α
  | [] => []
  | e :: rest => e :: drainArr c (removeArr c (e :: rest))
termination_by l => l.length
decreasing_by rw [length_removeArr]; simp only [List.length_cons]; omega

/-- The element sequence of repeated `remove()` until empty. -/
def drain [Inhabited α] (h : Heap α) : List α := drainArr h.cmp h.elements

/-- `drain` is literally "remove, emit the element, recurse on the
returned heap". -/
theorem drain_eq_remove [Inhabited α] (h : Heap α) :
    drain h =
      match remove h with
      | (none, _) => []
      | (some e, h') => e :: drain h' := by
  match hE : h.elements with
  | [] =>
    rw [drain, hE, drainArr]
    simp only [remove, hE]
  | e :: rest =>
    rw [drain, hE, drainArr]
    simp only [remove, hE, drain]

end Heap

/-! ## A store-level model of `add`'s copy-on-write discipline (claim C8)

To state that `h2 = h1.add(x)` leaves the receiver's backing array
untouched, JS arrays are modelled as references into a store (a list of
arrays).  `clone` allocates a fresh array; `push` and `bubbleUp` mutate the
array *they are applied to* in place.  The theorem then says the store cell
of the receiver is unchanged, which is exactly what the source achieves by
calling `bubbleUp(newHeap.elements, ...)` on the clone's array. -/

def storeRead {α : Type} (σ : List (List α)) (r : Nat) : List α := σ.getD r []

def storeWrite {α : Type} (σ : List (List α)) (r : Nat) (a : List α) :
    List (List α) := σ.set r a

/-- `add` on the store: clone (allocate a copy), push in place, bubble up in
place on the clone's array; returns the new store and the clone's reference. -/
def addStore {α : Type} [Inhabited α] (c : α → α → Int) (σ : List (List α))
    (r : Nat) (x : α) : List (List α) × Nat :=
  let r' := σ.length
  let σ1 := σ ++ [storeRead σ r]
  let σ2 := storeWrite σ1 r' (storeRead σ1 r' ++ [x])
  let σ3 := storeWrite σ2 r'
    (bubbleUp c (storeRead σ2 r') ((storeRead σ2 r').length - 1))
  (σ3, r')

/-! ## countingSort (`Sorting.countingSort`, Int-specific) -/

namespace Sorting

/-- The occurrence-counting loop `for (num of arr) count[num]++`. -/
def countOccLoop : List Int → List Nat → List Nat
  | [], cnt => cnt
  | x :: rest, cnt => countOccLoop rest (cnt.set x.toNat (cnt.getD x.toNat 0 + 1))

/-- The cumulative-count loop `for (i = 1; i < count.length; i++)
count[i] += count[i-1]`. -/
def cumLoop (cnt : List Nat) (i : Nat) : List Nat :=
  if h : i < cnt.length then
    cumLoop (cnt.set i (cnt.getD i 0 + cnt.getD (i - 1) 0)) (i + 1)
  else cnt
termination_by cnt.length - i
decreasing_by simp only [List.length_set]; omega

/-- The back-to-front placement loop
`for (i = n-1; i >= 0; i--) { result[count[arr[i]]-1] = arr[i]; count[arr[i]]-- }`,
applied to the reversed input; result cells are `Option` (a JS `new Array(n)`
starts as holes, i.e. `undefined`). -/
def placeLoop : List Int → List Nat → List (Option Int) → List Nat × List (Option Int)
  | [], cnt, res => (cnt, res)
  | x :: rest, cnt, res =>
    placeLoop rest (cnt.set x.toNat (cnt.getD x.toNat 0 - 1))
      (res.set (cnt.getD x.toNat 0 - 1) (some x))

/-- `Sorting.countingSort`: length-≤-1 inputs are returned as-is *before*
the negative scan; then upfront negative scan, counting, cumulative counts,
stable back-to-front placement.  (`Math.max(...arr)` is modelled by a fold
from 0, equal to it on every input that reaches it: the scan has already
rejected negative elements.) -/
def countingSort (arr : List Int) : Except String (List (Option Int)) :=
  if arr.length ≤ 1 then Except.ok (arr.map some)
  else if arr.any (fun n => decide (n < 0)) then
    Except.error "Counting sort only works with non-negative integers"
  else
    let mx := arr.foldl (fun m v => Max.max m v) 0
    let count := countOccLoop arr (List.replicate (mx.toNat + 1) 0)
    let count2 := cumLoop count 1
    Except.ok (placeLoop arr.reverse count2 (List.replicate arr.length none)).2

end Sorting

/-! ## Indexed-read and permutation lemmas for `swapL` -/

theorem getD_set_self {α : Type} [Inhabited α] (l : List α) (i : Nat) (a : α)
    (h : i < l.length) : (l.set i a).getD i default = a := by
  rw [List.getD_eq_getElem?_getD, List.getElem?_set_self h]
  rfl

theorem getD_set_ne {α : Type} [Inhabited α] (l : List α) {i j : Nat} (a : α)
    (h : i ≠ j) : (l.set i a).getD j default = l.getD j default := by
  rw [List.getD_eq_getElem?_getD, List.getElem?_set_ne h,
    ← List.getD_eq_getElem?_getD]

theorem getD_swapL_fst {α : Type} [Inhabited α] (l : List α) {i j : Nat}
    (hi : i < l.length) (hj : j < l.length) :
    (swapL l i j).getD i default = l.getD i default ∨
      (swapL l i j).getD i default = l.getD j default := by
  right
  unfold swapL
  by_cases hij : i = j
  · subst hij
    rw [getD_set_self _ _ _ (by simpa using hi)]
  · rw [getD_set_ne _ _ (by omega), getD_set_self _ _ _ hi]

theorem getD_swapL_at_fst {α : Type} [Inhabited α] (l : List α) {i j : Nat}
    (hi : i < l.length) :
    (swapL l i j).getD i default = l.getD j default := by
  unfold swapL
  by_cases hij : i = j
  · subst hij
    rw [getD_set_self _ _ _ (by simpa using hi)]
  · rw [getD_set_ne _ _ (by omega), getD_set_self _ _ _ hi]

theorem getD_swapL_at_snd {α : Type} [Inhabited α] (l : List α) {i j : Nat}
    (hj : j < l.length) :
    (swapL l i j).getD j default = l.getD i default := by
  unfold swapL
  rw [getD_set_self _ _ _ (by simpa using hj)]

theorem getD_swapL_other {α : Type} [Inhabited α] (l : List α) {i j k : Nat}
    (hik : k ≠ i) (hjk : k ≠ j) :
    (swapL l i j).getD k default = l.getD k default := by
  unfold swapL
  rw [getD_set_ne _ _ (by omega), getD_set_ne _ _ (by omega)]

theorem cons_set_perm {α : Type} [Inhabited α] (t : List α) (a : α) :
    ∀ k, k < t.length → (t.getD k default :: t.set k a).Perm (a :: t) := by
  induction t with
  | nil => intro k hk; simp at hk
  | cons b t' ih =>
    intro k hk
    match k with
    | 0 =>
      simp only [List.getD_cons_zero, List.set_cons_zero]
      exact List.Perm.swap _ _ _
    | k' + 1 =>
      simp only [List.getD_cons_succ, List.set_cons_succ]
      have p1 : (t'.getD k' default :: b :: t'.set k' a).Perm
          (b :: t'.getD k' default :: t'.set k' a) := List.Perm.swap _ _ _
      have p2 : (b :: t'.getD k' default :: t'.set k' a).Perm (b :: a :: t') :=
        List.Perm.cons _ (ih k' (by simpa using hk))
      have p3 : (b :: a :: t').Perm (a :: b :: t') := List.Perm.swap _ _ _
      exact (p1.trans p2).trans p3

theorem swapL_comm {α : Type} [Inhabited α] (l : List α) (i j : Nat) :
    swapL l i j = swapL l j i := by
  by_cases hij : i = j
  · rw [hij]
  · unfold swapL
    exact List.set_comm _ _ _ (by omega)

theorem swapL_perm {α : Type} [Inhabited α] (l : List α) :
    ∀ i j, i < l.length → j < l.length → (swapL l i j).Perm l := by
  induction l with
  | nil => intro i j hi _; simp at hi
  | cons a t ih =>
    intro i j hi hj
    match i, j with
    | 0, 0 =>
      simp [swapL]
    | 0, k + 1 =>
      show ((((a :: t).set 0 (t.getD k default)).set (k + 1) a).Perm _)
      simp only [List.set_cons_zero, List.set_cons_succ]
      exact cons_set_perm t a k (by simpa using hj)
    | m + 1, 0 =>
      rw [swapL_comm]
      show ((((a :: t).set 0 (t.getD m default)).set (m + 1) a).Perm _)
      simp only [List.set_cons_zero, List.set_cons_succ]
      exact cons_set_perm t a m (by simpa using hi)
    | m + 1, k + 1 =>
      show ((((a :: t).set (m + 1) (t.getD k default)).set (k + 1)
        (t.getD m default)).Perm _)
      simp only [List.set_cons_succ]
      exact List.Perm.cons a (ih m k (by simpa using hi) (by simpa using hj))

/-! ## Laws of the strict "better" test and the sift-down engine theory -/

/-- The two properties of a strict comparison test coming from a lawful
comparator that the heap arguments need: asymmetry, and transitivity of the
induced non-strict relation (`le a b := better b a = false`). -/
structure BetterLaws {α : Type} (better : α → α → Bool) : Prop where
  asym : ∀ a b, better a b = true → better b a = false
  ltrans : ∀ a b d, better b a = false → better d b = false → better d a = false

namespace BetterLaws

variable {α : Type} {better : α → α → Bool}

theorem irrefl (hb : BetterLaws better) (a : α) : better a a = false := by
  by_cases h : better a a = true
  · exact hb.asym a a h
  · simpa using h

/-- `a < b ≤ d → a < d` in the strict/non-strict mixed form. -/
theorem lt_of_lt_of_le (hb : BetterLaws better) {a b d : α}
    (h1 : better a b = true) (h2 : better d b = false) : better a d = true := by
  by_cases h : better a d = true
  · exact h
  · have hab : better a b = false := hb.ltrans b d a h2 (by simpa using h)
    rw [hab] at h1
    exact absurd h1 (by simp)

end BetterLaws

/-- The strict-less test used by the heap class. -/
theorem betterLaws_lt {α : Type} {c : α → α → Int} (hc : LawfulCmp c) :
    BetterLaws (fun a b => decide (c a b < 0)) := by
  constructor
  · intro a b h
    simp only [decide_eq_true_eq] at h
    have := hc.flip_neg h
    simp only [decide_eq_false_iff_not]
    omega
  · intro a b d h1 h2
    simp only [decide_eq_false_iff_not, not_lt] at h1 h2 ⊢
    have h1' : c a b ≤ 0 := by have := hc.neg_iff b a; omega
    have h2' : c b d ≤ 0 := by have := hc.neg_iff d b; omega
    have := hc.trans a b d h1' h2'
    have := hc.neg_iff d a
    omega

/-- The flipped strict test used by `heapSort` (`compare(child, parent) > 0`). -/
theorem betterLaws_gt {α : Type} {c : α → α → Int} (hc : LawfulCmp c) :
    BetterLaws (fun a b => decide (0 < c a b)) := by
  constructor
  · intro a b h
    simp only [decide_eq_true_eq] at h
    have := hc.flip_pos h
    simp only [decide_eq_false_iff_not]
    omega
  · intro a b d h1 h2
    simp only [decide_eq_false_iff_not, not_lt] at h1 h2 ⊢
    exact hc.trans d b a h2 h1

/-! ## Heap-shape invariants over the generic engine -/

/-- All parent/child pairs with parent index at least `k` and child index
below `size` satisfy "the child is not strictly better than the parent". -/
def heapPairsFrom {α : Type} [Inhabited α] (better : α → α → Bool)
    (l : List α) (size k : Nat) : Prop :=
  ∀ p j, k ≤ p → (j = 2 * p + 1 ∨ j = 2 * p + 2) → j < size →
    better (l.getD j default) (l.getD p default) = false

theorem pickChild_eq_spec {α : Type} [Inhabited α] (better : α → α → Bool)
    (l : List α) (i size : Nat) (h : pickChild better l i size = i) :
    ∀ j, (j = 2 * i + 1 ∨ j = 2 * i + 2) → j < size →
      better (l.getD j default) (l.getD i default) = false := by
  unfold pickChild at h
  dsimp only at h
  by_cases c1 : 2 * i + 1 < size ∧
      better (l.getD (2 * i + 1) default) (l.getD i default) = true
  · rw [if_pos c1] at h
    by_cases c2 : 2 * i + 2 < size ∧
        better (l.getD (2 * i + 2) default) (l.getD (2 * i + 1) default) = true
    · rw [if_pos c2] at h; omega
    · rw [if_neg c2] at h; omega
  · rw [if_neg c1] at h
    by_cases c2 : 2 * i + 2 < size ∧
        better (l.getD (2 * i + 2) default) (l.getD i default) = true
    · rw [if_pos c2] at h; omega
    · intro j hj hjs
      rcases hj with hj | hj
      · subst hj
        rcases Bool.eq_false_or_eq_true
            (better (l.getD (2 * i + 1) default) (l.getD i default)) with ht | hf
        · exact absurd ⟨hjs, ht⟩ c1
        · exact hf
      · subst hj
        rcases Bool.eq_false_or_eq_true
            (better (l.getD (2 * i + 2) default) (l.getD i default)) with ht | hf
        · exact absurd ⟨hjs, ht⟩ c2
        · exact hf

theorem pickChild_ne_spec {α : Type} [Inhabited α] {better : α → α → Bool}
    (hb : BetterLaws better) (l : List α) (i size : Nat)
    (h : pickChild better l i size ≠ i) :
    better (l.getD (pickChild better l i size) default) (l.getD i default) = true ∧
      ∀ j, (j = 2 * i + 1 ∨ j = 2 * i + 2) → j < size →
        j ≠ pickChild better l i size →
        better (l.getD j default) (l.getD (pickChild better l i size) default) = false := by
  unfold pickChild at *
  dsimp only at *
  by_cases c1 : 2 * i + 1 < size ∧
      better (l.getD (2 * i + 1) default) (l.getD i default) = true
  · rw [if_pos c1] at h ⊢
    by_cases c2 : 2 * i + 2 < size ∧
        better (l.getD (2 * i + 2) default) (l.getD (2 * i + 1) default) = true
    · rw [if_pos c2] at h ⊢
      refine ⟨hb.lt_of_lt_of_le c2.2 (hb.asym _ _ c1.2), ?_⟩
      intro j hj hjs hjm
      have hj1 : j = 2 * i + 1 := by omega
      subst hj1
      exact hb.asym _ _ c2.2
    · rw [if_neg c2] at h ⊢
      refine ⟨c1.2, ?_⟩
      intro j hj hjs hjm
      have hj2 : j = 2 * i + 2 := by omega
      subst hj2
      rcases Bool.eq_false_or_eq_true
          (better (l.getD (2 * i + 2) default) (l.getD (2 * i + 1) default)) with ht | hf
      · exact absurd ⟨hjs, ht⟩ c2
      · exact hf
  · rw [if_neg c1] at h ⊢
    by_cases c2 : 2 * i + 2 < size ∧
        better (l.getD (2 * i + 2) default) (l.getD i default) = true
    · rw [if_pos c2] at h ⊢
      refine ⟨c2.2, ?_⟩
      intro j hj hjs hjm
      have hj1 : j = 2 * i + 1 := by omega
      subst hj1
      have hlf : better (l.getD (2 * i + 1) default) (l.getD i default) = false := by
        rcases Bool.eq_false_or_eq_true
            (better (l.getD (2 * i + 1) default) (l.getD i default)) with ht | hf
        · exact absurd ⟨hjs, ht⟩ c1
        · exact hf
      exact hb.asym _ _ (hb.lt_of_lt_of_le c2.2 hlf)
    · rw [if_neg c2] at h
      omega

/-- The central sift-down lemma.  If every parent/child pair with parent
index at least `k` holds except possibly the pairs whose parent is `i`
(hypothesis `H1`, which still constrains the pair above `i`), and the node
above `i` already dominates `i`'s children (hypothesis `H2`, vacuous at the
roots where sift-down is started), then sifting down at `i` restores every
pair with parent index at least `k`. -/
theorem siftDownG_restore {α : Type} [Inhabited α] {better : α → α → Bool}
    (hb : BetterLaws better) (l : List α) (size k i : Nat)
    (hsz : size ≤ l.length) (hki : k ≤ i)
    (H1 : ∀ p j, k ≤ p → p ≠ i → (j = 2 * p + 1 ∨ j = 2 * p + 2) → j < size →
      better (l.getD j default) (l.getD p default) = false)
    (H2 : ∀ j, i ≠ 0 → k ≤ (i - 1) / 2 → (j = 2 * i + 1 ∨ j = 2 * i + 2) →
      j < size → better (l.getD j default) (l.getD ((i - 1) / 2) default) = false) :
    heapPairsFrom better (siftDownG better l i size) size k := by
  rw [siftDownG]
  by_cases hm : pickChild better l i size = i
  · rw [if_pos hm]
    intro p j hkp hj hjs
    by_cases hpi : p = i
    · subst hpi
      exact pickChild_eq_spec better l p size hm j hj hjs
    · exact H1 p j hkp hpi hj hjs
  · rw [if_neg hm]
    rcases pickChild_cases better l i size with hcontra | ⟨hchild, him, hms⟩
    · exact absurd hcontra hm
    obtain ⟨hfirst, hsib⟩ := pickChild_ne_spec hb l i size hm
    set m := pickChild better l i size with hmdef
    have hil : i < l.length := by omega
    have hml : m < l.length := by omega
    have hswlen : size ≤ (swapL l i m).length := by rw [length_swapL]; exact hsz
    have hgi : (swapL l i m).getD i default = l.getD m default :=
      getD_swapL_at_fst l hil
    have hgm : (swapL l i m).getD m default = l.getD i default :=
      getD_swapL_at_snd l hml
    have hgo : ∀ x, x ≠ i → x ≠ m → (swapL l i m).getD x default = l.getD x default :=
      fun x hxi hxm => getD_swapL_other l hxi hxm
    apply siftDownG_restore hb (swapL l i m) size k m hswlen (by omega)
    · -- H1 for the swapped array at the new index m
      intro p j hkp hpm hj hjs
      by_cases hpi : p = i
      · subst hpi
        by_cases hjm : j = m
        · subst hjm
          rw [hgm, hgi]
          exact hb.asym _ _ hfirst
        · rw [hgi, hgo j (by omega) hjm]
          exact hsib j hj hjs hjm
      · -- p is neither i nor m
        by_cases hji : j = i
        · -- the pair above i: p = (i-1)/2
          subst hji
          have hp : p = (j - 1) / 2 := by omega
          rw [hgi, hgo p hpi hpm]
          have := H2 m (by omega) (by omega) hchild hms
          have hpar : (j - 1) / 2 = p := by omega
          rw [hpar] at this
          exact this
        · by_cases hjm : j = m
          · exfalso
            rcases hj with hj | hj <;> rcases hchild with hc | hc <;> omega
          · rw [hgo j hji hjm, hgo p hpi hpm]
            exact H1 p j hkp hpi hj hjs
    · -- H2 for the swapped array at the new index m: the node above m is i
      intro j hm0 hkm hj hjs
      have hpar : (m - 1) / 2 = i := by omega
      rw [hpar, hgi, hgo j (by omega) (by omega)]
      exact H1 m j (by omega) (by omega) hj hjs
termination_by size - i
decreasing_by
  rcases pickChild_cases better l i size with hcontra | ⟨_, him2, hms2⟩
  · exact absurd hcontra hm
  · omega

/-! ## Permutation, frame and root lemmas for the engine -/

theorem getD_dropLast {α : Type} [Inhabited α] (l : List α) (x : Nat)
    (h : x < l.length - 1) : l.dropLast.getD x default = l.getD x default := by
  rw [List.getD_eq_getElem?_getD, List.getD_eq_getElem?_getD,
    List.getElem?_dropLast, if_pos h]

theorem siftDownG_perm {α : Type} [Inhabited α] (better : α → α → Bool)
    (l : List α) (i size : Nat) (hsz : size ≤ l.length) :
    (siftDownG better l i size).Perm l := by
  rw [siftDownG]
  by_cases hm : pickChild better l i size = i
  · rw [if_pos hm]
  · rw [if_neg hm]
    rcases pickChild_cases better l i size with hcontra | ⟨_, him, hms⟩
    · exact absurd hcontra hm
    have h1 : (siftDownG better (swapL l i (pickChild better l i size))
        (pickChild better l i size) size).Perm (swapL l i (pickChild better l i size)) :=
      siftDownG_perm better _ _ size (by rw [length_swapL]; exact hsz)
    exact h1.trans (swapL_perm l i _ (by omega) (by omega))
termination_by size - i
decreasing_by
  rcases pickChild_cases better l i size with hcontra | ⟨_, him2, hms2⟩
  · exact absurd hcontra hm
  · omega

/-- Sift-down never touches positions at or beyond `size`. -/
theorem siftDownG_getD_frame {α : Type} [Inhabited α] (better : α → α → Bool)
    (l : List α) (i size : Nat) (x : Nat) (hx : size ≤ x) :
    (siftDownG better l i size).getD x default = l.getD x default := by
  rw [siftDownG]
  by_cases hm : pickChild better l i size = i
  · rw [if_pos hm]
  · rw [if_neg hm]
    rcases pickChild_cases better l i size with hcontra | ⟨_, him, hms⟩
    · exact absurd hcontra hm
    rw [siftDownG_getD_frame better _ _ size x hx,
      getD_swapL_other l (by omega) (by omega)]
termination_by size - i
decreasing_by
  rcases pickChild_cases better l i size with hcontra | ⟨_, him2, hms2⟩
  · exact absurd hcontra hm
  · omega

/-- `pickChild` only looks at positions below `size`. -/
theorem pickChild_congr {α : Type} [Inhabited α] (better : α → α → Bool)
    (l l' : List α) (i size : Nat)
    (hread : ∀ x, x < size → l.getD x default = l'.getD x default)
    (hi : i < size) :
    pickChild better l i size = pickChild better l' i size := by
  unfold pickChild
  dsimp only
  have e0 : l.getD i default = l'.getD i default := hread i hi
  by_cases hl : 2 * i + 1 < size
  · have e1 : l.getD (2 * i + 1) default = l'.getD (2 * i + 1) default :=
      hread (2 * i + 1) hl
    rw [e0, e1]
    by_cases hc : 2 * i + 1 < size ∧
        better (l'.getD (2 * i + 1) default) (l'.getD i default) = true
    · rw [if_pos hc]
      rw [e1]
      by_cases hr : 2 * i + 2 < size
      · rw [hread (2 * i + 2) hr]
      · rw [if_neg (fun hcc => hr hcc.1), if_neg (fun hcc => hr hcc.1)]
    · rw [if_neg hc]
      rw [e0]
      by_cases hr : 2 * i + 2 < size
      · rw [hread (2 * i + 2) hr]
      · rw [if_neg (fun hcc => hr hcc.1), if_neg (fun hcc => hr hcc.1)]
  · have einner : ∀ (mm : List α),
        (if 2 * i + 1 < size ∧
            better (mm.getD (2 * i + 1) default) (mm.getD i default) = true
          then 2 * i + 1 else i) = i :=
      fun mm => if_neg (fun hcc => hl hcc.1)
    rw [einner l, einner l']
    rw [e0]
    by_cases hr : 2 * i + 2 < size
    · rw [hread (2 * i + 2) hr]
    · rw [if_neg (fun hcc => hr hcc.1), if_neg (fun hcc => hr hcc.1)]

/-- With `i` outside the sifted range nothing is picked. -/
theorem pickChild_of_ge {α : Type} [Inhabited α] (better : α → α → Bool)
    (l : List α) (i size : Nat) (hi : size ≤ i) :
    pickChild better l i size = i := by
  unfold pickChild
  dsimp only
  rw [if_neg (fun hc => by omega), if_neg (fun hc => by omega)]

/-- Sift-down on a front segment ignores an appended tail. -/
theorem siftDownG_append {α : Type} [Inhabited α] (better : α → α → Bool)
    (X Y : List α) (i size : Nat) (hsz : size ≤ X.length) :
    siftDownG better (X ++ Y) i size = siftDownG better X i size ++ Y := by
  have hgetD : ∀ x, x < size → (X ++ Y).getD x default = X.getD x default :=
    fun x hx => List.getD_append X Y default x (by omega)
  by_cases hi : i < size
  · have hpick : pickChild better (X ++ Y) i size = pickChild better X i size :=
      pickChild_congr better _ _ i size hgetD hi
    rw [siftDownG]
    conv_rhs => rw [siftDownG]
    rw [hpick]
    by_cases hm : pickChild better X i size = i
    · simp only [if_pos hm]
    · simp only [if_neg hm]
      rcases pickChild_cases better X i size with hcontra | ⟨_, him, hms⟩
      · exact absurd hcontra hm
      have hswap : swapL (X ++ Y) i (pickChild better X i size) =
          swapL X i (pickChild better X i size) ++ Y := by
        unfold swapL
        dsimp only
        rw [List.getD_append X Y default i (by omega),
          List.getD_append X Y default _ (show pickChild better X i size < X.length by omega)]
        rw [List.set_append_left _ _ (by omega),
          List.set_append_left _ _ (by simp only [List.length_set]; omega)]
      rw [hswap, siftDownG_append better _ Y _ size (by rw [length_swapL]; exact hsz)]
  · rw [siftDownG]
    conv_rhs => rw [siftDownG]
    rw [pickChild_of_ge better _ i size (by omega)]
    rw [pickChild_of_ge better _ i size (by omega)]
    simp
termination_by size - i
decreasing_by
  rcases pickChild_cases better X i size with hcontra | ⟨_, him2, hms2⟩
  · exact absurd hcontra hm
  · omega

/-- In a heap-shaped prefix the root is dominated by nothing below `size`. -/
theorem heapPairsFrom_root {α : Type} [Inhabited α] {better : α → α → Bool}
    (hb : BetterLaws better) (l : List α) (size : Nat)
    (H : heapPairsFrom better l size 0) :
    ∀ j, j < size → better (l.getD j default) (l.getD 0 default) = false := by
  intro j
  induction j using Nat.strong_induction_on with
  | _ j ih =>
    intro hjs
    match j with
    | 0 => exact hb.irrefl _
    | j + 1 =>
      have hpair := H ((j + 1 - 1) / 2) (j + 1) (by omega) (by omega) hjs
      have hroot := ih ((j + 1 - 1) / 2) (by omega) (by omega)
      exact hb.ltrans _ _ _ hroot hpair

/-! ## The comparator-level heap invariant (the spec's §3/§8 property) -/

/-- The heap ordering invariant as the spec states it: every populated index
with its parent `floor((j-1)/2)` satisfies `compare(parent, child) <= 0`. -/
def heapPairs {α : Type} [Inhabited α] (c : α → α → Int) (l : List α) : Prop :=
  ∀ j, j < l.length → 0 < j →
    c (l.getD ((j - 1) / 2) default) (l.getD j default) ≤ 0

instance {α : Type} [Inhabited α] (c : α → α → Int) (l : List α) :
    Decidable (heapPairs c l) := by
  unfold heapPairs
  infer_instance

/-- The parent/child form of the invariant used in claim C1. -/
theorem heapPairs_iff_child {α : Type} [Inhabited α] (c : α → α → Int)
    (l : List α) :
    heapPairs c l ↔ ∀ p j, (j = 2 * p + 1 ∨ j = 2 * p + 2) → j < l.length →
      c (l.getD p default) (l.getD j default) ≤ 0 := by
  constructor
  · intro H p j hj hjl
    have hp : (j - 1) / 2 = p := by omega
    have := H j hjl (by omega)
    rwa [hp] at this
  · intro H j hjl hj0
    exact H ((j - 1) / 2) j (by omega) hjl

/-- Bridge between the comparator invariant and the Boolean engine form. -/
theorem heapPairs_iff_engine {α : Type} [Inhabited α] {c : α → α → Int}
    (hc : LawfulCmp c) (l : List α) :
    heapPairs c l ↔
      heapPairsFrom (fun a b => decide (c a b < 0)) l l.length 0 := by
  rw [heapPairs_iff_child]
  constructor
  · intro H p j _ hj hjl
    have := H p j hj hjl
    have hni := hc.neg_iff (l.getD j default) (l.getD p default)
    simp only [decide_eq_false_iff_not]
    omega
  · intro H p j hj hjl
    have := H p j (by omega) hj hjl
    simp only [decide_eq_false_iff_not] at this
    have hni := hc.neg_iff (l.getD j default) (l.getD p default)
    omega

theorem bubbleUp_perm {α : Type} [Inhabited α] (c : α → α → Int)
    (l : List α) (i : Nat) (hi : i < l.length) :
    (bubbleUp c l i).Perm l := by
  rw [bubbleUp]
  split
  · exact List.Perm.refl l
  · dsimp only
    split
    · exact List.Perm.refl l
    · rename_i hne hlt
      have h1 : (bubbleUp c (swapL l ((i - 1) / 2) i) ((i - 1) / 2)).Perm
          (swapL l ((i - 1) / 2) i) :=
        bubbleUp_perm c _ _ (by rw [length_swapL]; omega)
      exact h1.trans (swapL_perm l _ _ (by omega) hi)
termination_by i
decreasing_by omega

/-- The bubble-up lemma: if every pair except possibly the one *into* `i`
holds (`H1`) and the node above `i` already dominates `i`'s children (`H2`,
vacuous when `i` has no children, as after `push`), then bubbling up from `i`
establishes the full invariant. -/
theorem bubbleUp_restore {α : Type} [Inhabited α] {c : α → α → Int}
    (hc : LawfulCmp c) (l : List α) (i : Nat) (hi : i < l.length)
    (H1 : ∀ p j, (j = 2 * p + 1 ∨ j = 2 * p + 2) → j < l.length → j ≠ i →
      c (l.getD p default) (l.getD j default) ≤ 0)
    (H2 : ∀ j, (j = 2 * i + 1 ∨ j = 2 * i + 2) → j < l.length → i ≠ 0 →
      c (l.getD ((i - 1) / 2) default) (l.getD j default) ≤ 0) :
    heapPairs c (bubbleUp c l i) := by
  rw [bubbleUp]
  split
  · rename_i h0
    subst h0
    rw [heapPairs_iff_child]
    intro p j hj hjl
    exact H1 p j hj hjl (by omega)
  · rename_i h0
    dsimp only
    split
    · rename_i hstop
      rw [heapPairs_iff_child]
      intro p j hj hjl
      by_cases hji : j = i
      · subst hji
        have hp : p = (j - 1) / 2 := by omega
        subst hp
        exact hstop
      · exact H1 p j hj hjl hji
    · rename_i hgo
      have hup : 0 < c (l.getD ((i - 1) / 2) default) (l.getD i default) := by omega
      have hflip : c (l.getD i default) (l.getD ((i - 1) / 2) default) < 0 :=
        hc.flip_pos hup
      have hpl : (i - 1) / 2 < l.length := by omega
      have hg1 : (swapL l ((i - 1) / 2) i).getD ((i - 1) / 2) default =
          l.getD i default := getD_swapL_at_fst l hpl
      have hg2 : (swapL l ((i - 1) / 2) i).getD i default =
          l.getD ((i - 1) / 2) default := getD_swapL_at_snd l hi
      have hgo' : ∀ x, x ≠ (i - 1) / 2 → x ≠ i →
          (swapL l ((i - 1) / 2) i).getD x default = l.getD x default :=
        fun x h1 h2 => getD_swapL_other l h1 h2
      apply bubbleUp_restore hc (swapL l ((i - 1) / 2) i) ((i - 1) / 2)
        (by rw [length_swapL]; omega)
      · -- H1 for the swapped array at the parent position
        intro q j hj hjl hjp
        rw [length_swapL] at hjl
        by_cases hji : j = i
        · subst hji
          have hq : q = (j - 1) / 2 := by omega
          subst hq
          rw [hg1, hg2]
          omega
        · by_cases hqp : q = (i - 1) / 2
          · subst hqp
            rw [hg1, hgo' j hjp hji]
            have hpj := H1 ((i - 1) / 2) j hj hjl hji
            exact hc.trans _ _ _ (le_of_lt hflip) hpj
          · by_cases hqi : q = i
            · subst hqi
              rw [hg2, hgo' j hjp hji]
              exact H2 j hj hjl h0
            · rw [hgo' q hqp hqi, hgo' j hjp hji]
              exact H1 q j hj hjl hji
      · -- H2 for the swapped array: the node above the parent
        intro j hj hjl hp0
        rw [length_swapL] at hjl
        have hppl : ((i - 1) / 2 - 1) / 2 < (i - 1) / 2 := by omega
        rw [hgo' (((i - 1) / 2 - 1) / 2) (by omega) (by omega)]
        have hpp : c (l.getD (((i - 1) / 2 - 1) / 2) default)
            (l.getD ((i - 1) / 2) default) ≤ 0 :=
          H1 (((i - 1) / 2 - 1) / 2) ((i - 1) / 2) (by omega) (by omega) (by omega)
        by_cases hji : j = i
        · subst hji
          rw [hg2]
          exact hpp
        · rw [hgo' j (by omega) hji]
          have hsib := H1 ((i - 1) / 2) j hj hjl hji
          exact hc.trans _ _ _ hpp hsib
termination_by i
decreasing_by omega

/-- Bottom-up heapify: running the build loop from `k` down to 0 on an array
whose pairs already hold from `k` up yields the invariant everywhere. -/
theorem buildLoopG_restore {α : Type} [Inhabited α] {better : α → α → Bool}
    (hb : BetterLaws better) (n : Nat) (l : List α) (k : Nat)
    (hn : n ≤ l.length) (H : heapPairsFrom better l n k) :
    heapPairsFrom better (buildLoopG better n l k) n 0 := by
  induction k generalizing l with
  | zero => exact H
  | succ k ih =>
    rw [buildLoopG]
    apply ih
    · rw [length_siftDownG]; exact hn
    · apply siftDownG_restore hb l n k k hn (le_refl k)
      · intro p j hkp hpk hj hjs
        exact H p j (by omega) hj hjs
      · intro j hk0 hkpar hj hjs
        omega

/-- Indices from `floor(n/2)` on have no children below `n`. -/
theorem heapPairsFrom_half {α : Type} [Inhabited α] (better : α → α → Bool)
    (l : List α) (n : Nat) : heapPairsFrom better l n (n / 2) := by
  intro p j hkp hj hjs
  exfalso
  rcases hj with hj | hj <;> omega

/-- The tree.js build loop is the generic one with the strict-less test. -/
theorem buildLoop_eq_buildLoopG {α : Type} [Inhabited α] (c : α → α → Int)
    (l : List α) (k : Nat) :
    Heap.buildLoop c l k =
      buildLoopG (fun a b => decide (c a b < 0)) l.length l k := by
  induction k generalizing l with
  | zero => rfl
  | succ k ih =>
    rw [Heap.buildLoop, buildLoopG, ih,
      show (bubbleDownArr c l k).length = l.length from length_siftDownG _ _ _ _]
    rfl

/-! ## Invariant preservation of the three heap operations -/

theorem heapPairs_add {α : Type} [Inhabited α] {c : α → α → Int}
    (hc : LawfulCmp c) (l : List α) (x : α) (H : heapPairs c l) :
    heapPairs c (bubbleUp c (l ++ [x]) ((l ++ [x]).length - 1)) := by
  have hlen : (l ++ [x]).length = l.length + 1 := by simp
  rw [hlen]
  apply bubbleUp_restore hc (l ++ [x]) l.length (by simp)
  · intro p j hj hjl hji
    rw [hlen] at hjl
    have hjl' : j < l.length := by omega
    have hpl : p < l.length := by omega
    rw [List.getD_append _ _ _ _ hpl, List.getD_append _ _ _ _ hjl']
    exact (heapPairs_iff_child c l).mp H p j hj hjl'
  · intro j hj hjl hi0
    rw [hlen] at hjl
    omega

theorem heapPairs_removeArr {α : Type} [Inhabited α] {c : α → α → Int}
    (hc : LawfulCmp c) (l : List α) (H : heapPairs c l) :
    heapPairs c (removeArr c l) := by
  match l with
  | [] =>
    intro j hj
    simp [removeArr] at hj
  | e :: rest =>
    rw [removeArr]
    set last := (e :: rest).getD rest.length default with hlast
    set arr1 := ((e :: rest).set 0 last).dropLast with harr1
    have hlen1 : arr1.length = rest.length := by
      rw [harr1]; simp
    have hread : ∀ x, 1 ≤ x → x < rest.length →
        arr1.getD x default = (e :: rest).getD x default := by
      intro x h1 h2
      rw [harr1, getD_dropLast _ _ (by simp; omega), getD_set_ne _ _ (by omega)]
    split
    · rename_i hpos
      rw [bubbleDownArr]
      rw [heapPairs_iff_engine hc]
      rw [length_siftDownG]
      apply siftDownG_restore (betterLaws_lt hc) arr1 arr1.length 0 0
        (le_refl _) (le_refl 0)
      · intro p j hkp hp0 hj hjs
        rw [hlen1] at hjs
        have hp1 : 1 ≤ p := by omega
        have hj1 : 1 ≤ j := by omega
        rw [hread p hp1 (by omega), hread j hj1 hjs]
        have := (heapPairs_iff_child c (e :: rest)).mp H p j hj (by simp; omega)
        simp only [decide_eq_false_iff_not]
        have hni := hc.neg_iff ((e :: rest).getD j default)
          ((e :: rest).getD p default)
        omega
      · intro j h0 _
        omega
    · rename_i hzero
      intro j hj
      omega

theorem heapPairs_fromArr {α : Type} [Inhabited α] {c : α → α → Int}
    (hc : LawfulCmp c) (l : List α) :
    heapPairs c (Heap.fromArr c l).elements := by
  show heapPairs c (Heap.buildLoop c l (l.length / 2))
  rw [buildLoop_eq_buildLoopG, heapPairs_iff_engine hc, length_buildLoopG]
  exact buildLoopG_restore (betterLaws_lt hc) l.length l (l.length / 2)
    (le_refl _) (heapPairsFrom_half _ l l.length)

/-- **C1** (confirmed): after every `add`, `remove` and `from` on any heap
variant, the backing array satisfies the heap ordering: for every index `p`
with a child at `2p+1` or `2p+2` in range, `compare(parent, child) <= 0`
under the heap's active comparator (assumed to satisfy the spec's comparator
contract; the variants' built-in comparators do). -/
theorem c1_heap_invariant {α : Type} [Inhabited α] :
    (∀ (h : Heap α) (x : α), LawfulCmp h.cmp → heapPairs h.cmp h.elements →
      ∀ p j, (j = 2 * p + 1 ∨ j = 2 * p + 2) → j < (h.add x).elements.length →
        (h.add x).cmp ((h.add x).elements.getD p default)
          ((h.add x).elements.getD j default) ≤ 0)
    ∧ (∀ h : Heap α, LawfulCmp h.cmp → heapPairs h.cmp h.elements →
      ∀ p j, (j = 2 * p + 1 ∨ j = 2 * p + 2) → j < (h.remove).2.elements.length →
        (h.remove).2.cmp ((h.remove).2.elements.getD p default)
          ((h.remove).2.elements.getD j default) ≤ 0)
    ∧ (∀ (c : α → α → Int), LawfulCmp c → ∀ l : List α,
      ∀ p j, (j = 2 * p + 1 ∨ j = 2 * p + 2) → j < (Heap.fromArr c l).elements.length →
        (Heap.fromArr c l).cmp ((Heap.fromArr c l).elements.getD p default)
          ((Heap.fromArr c l).elements.getD j default) ≤ 0) := by
  refine ⟨?_, ?_, ?_⟩
  · intro h x hc H
    exact (heapPairs_iff_child _ _).mp (heapPairs_add hc h.elements x H)
  · intro h hc H
    match hE : h.elements with
    | [] =>
      have : h.remove = (none, Heap.clone h) := by
        rw [Heap.remove, hE]
      rw [this]
      intro p j hj hjl
      exact (heapPairs_iff_child _ _).mp (show heapPairs h.cmp h.elements from H)
        p j hj (by rw [Heap.clone] at hjl; exact hjl)
    | e :: rest =>
      have : h.remove = (some e, ⟨h.cmp, removeArr h.cmp (e :: rest)⟩) := by
        rw [Heap.remove, hE]
      rw [this]
      intro p j hj hjl
      exact (heapPairs_iff_child _ _).mp
        (heapPairs_removeArr hc (e :: rest) (hE ▸ H)) p j hj hjl
  · intro c hc l
    exact (heapPairs_iff_child _ _).mp (heapPairs_fromArr hc l)

/-- Witness for C1 at a concrete heap: the five-element example heap of the
spec with the MinHeap comparator. -/
theorem c1_heap_invariant_witness :
    LawfulCmp (Heap.mk icmp [1, 3, 7, 5, 4] : Heap Int).cmp
    ∧ heapPairs (Heap.mk icmp [1, 3, 7, 5, 4] : Heap Int).cmp
        (Heap.mk icmp [1, 3, 7, 5, 4] : Heap Int).elements
    ∧ (∀ p j, (j = 2 * p + 1 ∨ j = 2 * p + 2) →
        j < ((Heap.mk icmp [1, 3, 7, 5, 4] : Heap Int).add 2).elements.length →
        ((Heap.mk icmp [1, 3, 7, 5, 4]).add 2).cmp
          (((Heap.mk icmp [1, 3, 7, 5, 4]).add 2).elements.getD p default)
          (((Heap.mk icmp [1, 3, 7, 5, 4]).add 2).elements.getD j default) ≤ 0) := by
  refine ⟨icmp_lawful, by decide, ?_⟩
  exact c1_heap_invariant.1 (Heap.mk icmp [1, 3, 7, 5, 4]) 2 icmp_lawful (by decide)

/-! ## Size behaviour of add/remove (claim C9) and clear (claim C4) -/

/-- **C9** (confirmed): `add` increases the size by exactly 1; `remove` on a
non-empty heap decreases it by exactly 1; `remove` on an empty heap is not an
error: it returns `undefined` as the element together with a clone (an empty
heap of the same comparator), leaving the size at 0. -/
theorem c9_add_remove_sizes {α : Type} [Inhabited α] :
    (∀ (h : Heap α) (x : α), (h.add x).size = h.size + 1)
    ∧ (∀ h : Heap α, h.elements ≠ [] → (h.remove).2.size = h.size - 1)
    ∧ (∀ h : Heap α, h.elements = [] →
        h.remove = (none, Heap.clone h) ∧ (h.remove).2.size = 0
          ∧ (h.remove).2.cmp = h.cmp) := by
  refine ⟨?_, ?_, ?_⟩
  · intro h x
    show (bubbleUp h.cmp (h.elements ++ [x]) _).length = h.elements.length + 1
    rw [length_bubbleUp]
    simp
  · intro h hne
    match hE : h.elements with
    | [] => exact absurd hE hne
    | e :: rest =>
      have : h.remove = (some e, ⟨h.cmp, removeArr h.cmp (e :: rest)⟩) := by
        rw [Heap.remove, hE]
      rw [this]
      show (removeArr h.cmp (e :: rest)).length = h.elements.length - 1
      rw [length_removeArr, hE]
      simp
  · intro h hE
    have : h.remove = (none, Heap.clone h) := by
      rw [Heap.remove, hE]
    refine ⟨this, ?_, ?_⟩
    · rw [this]
      show (Heap.clone h).elements.length = 0
      rw [Heap.clone, hE]
      rfl
    · rw [this]
      rfl

/-- Witness for C9 at concrete heaps. -/
theorem c9_add_remove_sizes_witness :
    ((Heap.mk icmp [1, 3, 2] : Heap Int).add 0).size = 4
    ∧ (Heap.mk icmp [1, 3, 2] : Heap Int).elements ≠ []
    ∧ ((Heap.mk icmp [1, 3, 2] : Heap Int).remove).2.size = 2
    ∧ (Heap.mk icmp [] : Heap Int).elements = []
    ∧ ((Heap.mk icmp [] : Heap Int).remove).2.size = 0 := by
  refine ⟨?_, by decide, ?_, rfl, ?_⟩
  · exact (c9_add_remove_sizes.1 (Heap.mk icmp [1, 3, 2]) 0).trans rfl
  · exact (c9_add_remove_sizes.2.1 (Heap.mk icmp [1, 3, 2]) (by decide)).trans rfl
  · exact ((c9_add_remove_sizes.2.2 (Heap.mk icmp [])) rfl).2.1

/-- **C4** (code bug): `clear()` is documented — in the source's own doc
comment and in the spec — as returning a new *empty* heap, but the body is
`return this.clone()`, which copies every element: on the three-element heap
below the result has size 3, not 0 (the comparator is preserved, as claimed). -/
theorem c4_clear_returns_clone_not_empty :
    (Heap.clear (Heap.mk icmp [1, 2, 3] : Heap Int)).size = 3
    ∧ (Heap.clear (Heap.mk icmp [1, 2, 3] : Heap Int)).cmp = icmp
    ∧ (Heap.clear (Heap.mk icmp [1, 2, 3] : Heap Int)).elements = [1, 2, 3] :=
  ⟨rfl, rfl, rfl⟩

/-! ## Claim C8: `add` leaves the receiver untouched (store model) -/

theorem getD_set_ne_d {α : Type} (l : List α) {i j : Nat} (a d : α)
    (h : i ≠ j) : (l.set i a).getD j d = l.getD j d := by
  rw [List.getD_eq_getElem?_getD, List.getElem?_set_ne h,
    ← List.getD_eq_getElem?_getD]

/-- **C8** (confirmed): for every heap `h1` (a live reference `r` into the
array store) and element `x`, `h2 = h1.add(x)` neither changes `h1`'s backing
array, nor therefore its `size()` or its iteration sequence `[...h1]`:
`clone` allocates a fresh array and `push`/`bubbleUp` mutate only that fresh
array.  (The JS `TypeError` on the absence sentinel is outside the element
type, so every `x` here is a non-absent element.) -/
theorem c8_add_receiver_unchanged {α : Type} [Inhabited α] (c : α → α → Int)
    (σ : List (List α)) (r : Nat) (x : α) (hr : r < σ.length) :
    storeRead (addStore c σ r x).1 r = storeRead σ r
    ∧ (storeRead (addStore c σ r x).1 r).length = (storeRead σ r).length
    ∧ Heap.iterSeq ⟨c, storeRead (addStore c σ r x).1 r⟩ =
        Heap.iterSeq ⟨c, storeRead σ r⟩ := by
  have key : storeRead (addStore c σ r x).1 r = storeRead σ r := by
    show ((((σ ++ [storeRead σ r]).set σ.length _).set σ.length _).getD r []) =
      σ.getD r []
    rw [getD_set_ne_d _ _ _ (by omega), getD_set_ne_d _ _ _ (by omega),
      List.getD_append _ _ _ _ hr]
  exact ⟨key, by rw [key], by rw [key]⟩

/-- Witness for C8 at a concrete store. -/
theorem c8_add_receiver_unchanged_witness :
    (0 : Nat) < ([[5, 3]] : List (List Int)).length
    ∧ storeRead (addStore icmp [[5, 3]] 0 1).1 0 = storeRead [[5, 3]] 0 :=
  ⟨by decide, (c8_add_receiver_unchanged icmp [[5, 3]] 0 1 (by decide)).1⟩

/-! ## List surgery helpers for the extraction loop -/

theorem take_set_of_le {α : Type} (l : List α) (m k : Nat) (a : α) (h : k ≤ m) :
    (l.set m a).take k = l.take k := by
  apply List.ext_getElem?
  intro n
  rw [List.getElem?_take, List.getElem?_take]
  split
  · rw [List.getElem?_set_ne (by omega)]
  · rfl

theorem drop_eq_getD_cons {α : Type} [Inhabited α] (l : List α) (k : Nat)
    (hk : k < l.length) : l.drop k = l.getD k default :: l.drop (k + 1) := by
  apply List.ext_getElem?
  intro n
  rw [List.getElem?_drop]
  match n with
  | 0 =>
    rw [List.getElem?_cons_zero, Nat.add_zero, List.getD_eq_getElem l default hk]
    exact List.getElem?_eq_getElem hk
  | n + 1 =>
    rw [List.getElem?_cons_succ, List.getElem?_drop]
    congr 1
    omega

theorem getD_take_eq {α : Type} [Inhabited α] (l : List α) (j k : Nat)
    (hjk : j < k) : (l.take k).getD j default = l.getD j default := by
  rw [List.getD_eq_getElem?_getD, List.getD_eq_getElem?_getD,
    List.getElem?_take, if_pos hjk]

theorem getD_mem_take {α : Type} [Inhabited α] (l : List α) (j k : Nat)
    (hjk : j < k) (hjl : j < l.length) : l.getD j default ∈ l.take k := by
  have hlen : j < (l.take k).length := by simp; omega
  rw [← getD_take_eq l j k hjk, List.getD_eq_getElem _ default hlen]
  exact List.getElem_mem hlen

theorem mem_take_getD {α : Type} [Inhabited α] (l : List α) (k : Nat) (x : α)
    (hx : x ∈ l.take k) : ∃ t, t < k ∧ t < l.length ∧ x = l.getD t default := by
  rcases List.mem_iff_getElem.mp hx with ⟨t, ht, hval⟩
  have htk : t < k := by simp at ht; omega
  have htl : t < l.length := by simp at ht; omega
  refine ⟨t, htk, htl, ?_⟩
  rw [← hval, ← getD_take_eq l t k htk,
    List.getD_eq_getElem (l.take k) default (by simp; omega)]

theorem swapL_append {α : Type} [Inhabited α] (X Y : List α) (i j : Nat)
    (hi : i < X.length) (hj : j < X.length) :
    swapL (X ++ Y) i j = swapL X i j ++ Y := by
  unfold swapL
  dsimp only
  rw [List.getD_append _ _ _ _ hi, List.getD_append _ _ _ _ hj,
    List.set_append_left _ _ hi,
    List.set_append_left _ _ (by simp only [List.length_set]; omega)]

theorem extractLoopG_append {α : Type} [Inhabited α] (better : α → α → Bool) :
    ∀ (m : Nat) (X Y : List α), m + 1 ≤ X.length →
      extractLoopG better (X ++ Y) m = extractLoopG better X m ++ Y := by
  intro m
  induction m with
  | zero => intro X Y _; rfl
  | succ m ih =>
    intro X Y hm
    rw [extractLoopG, extractLoopG,
      swapL_append X Y 0 (m + 1) (by omega) (by omega),
      siftDownG_append better _ Y 0 (m + 1) (by rw [length_swapL]; omega),
      ih _ Y (by rw [length_siftDownG, length_swapL]; omega)]

/-- The generic extraction loop: starting from a heap-shaped prefix of
length `m+1` whose tail (from `m+1` on) is already descending and dominated
by the prefix, it produces a descending permutation.  "Descending" is with
respect to the non-strict relation induced by `better`; instantiated with
the min-test this gives the array the iterator heap-sorts (before its final
reversal), with the max-test it gives `heapSort`'s ascending output. -/
theorem extractLoopG_sorted {α : Type} [Inhabited α] {better : α → α → Bool}
    (hb : BetterLaws better) :
    ∀ (m : Nat) (arr : List α), m < arr.length →
    heapPairsFrom better arr (m + 1) 0 →
    List.Pairwise (fun x y => better x y = false) (arr.drop (m + 1)) →
    (∀ x ∈ arr.take (m + 1), ∀ y ∈ arr.drop (m + 1), better x y = false) →
    List.Pairwise (fun x y => better x y = false) (extractLoopG better arr m)
    ∧ (extractLoopG better arr m).Perm arr := by
  intro m
  induction m with
  | zero =>
    intro arr hlen hheap hsorted hcross
    rw [extractLoopG]
    constructor
    · match arr, hlen with
      | a :: t, _ =>
        rw [List.pairwise_cons]
        exact ⟨fun y hy => hcross a (by simp) y (by simpa using hy),
          by simpa using hsorted⟩
    · exact List.Perm.refl arr
  | succ m ih =>
    intro arr hlen hheap hsorted hcross
    rw [extractLoopG]
    set sw := swapL arr 0 (m + 1) with hsw
    have hswlen : sw.length = arr.length := length_swapL _ _ _
    have hm2 : m + 2 ≤ arr.length := hlen
    -- decomposition of the sifted array
    have hX : (sw.take (m + 1)).length = m + 1 := by simp [hswlen]; omega
    have harr' : siftDownG better sw 0 (m + 1) =
        siftDownG better (sw.take (m + 1)) 0 (m + 1) ++ sw.drop (m + 1) := by
      conv_lhs => rw [← List.take_append_drop (m + 1) sw]
      exact siftDownG_append better _ _ 0 (m + 1) (by omega)
    have hswdrop : sw.drop (m + 1) = arr.getD 0 default :: arr.drop (m + 2) := by
      rw [hsw]
      show ((arr.set 0 (arr.getD (m + 1) default)).set (m + 1)
        (arr.getD 0 default)).drop (m + 1) = _
      apply List.ext_getElem?
      intro n
      rw [List.getElem?_drop]
      match n with
      | 0 =>
        rw [List.getElem?_cons_zero, Nat.add_zero, List.getElem?_set,
          if_pos rfl, if_pos (by simp; omega)]
      | n + 1 =>
        rw [List.getElem?_cons_succ, List.getElem?_set_ne (by omega),
          List.getElem?_set_ne (by omega), List.getElem?_drop]
        congr 1
        omega
    have hdrop : (siftDownG better sw 0 (m + 1)).drop (m + 1) = sw.drop (m + 1) := by
      rw [harr', List.drop_append_of_le_length
        (by rw [length_siftDownG, List.length_take]; omega)]
      rw [show (siftDownG better (sw.take (m + 1)) 0 (m + 1)).drop (m + 1) = []
        from List.drop_eq_nil_of_le (by rw [length_siftDownG]; omega)]
      rfl
    have htake : (siftDownG better sw 0 (m + 1)).take (m + 1) =
        siftDownG better (sw.take (m + 1)) 0 (m + 1) := by
      rw [harr', List.take_append_of_le_length (by rw [length_siftDownG]; omega)]
      exact List.take_of_length_le (by rw [length_siftDownG]; omega)
    -- the element at a prefix position of sw is an element of arr below m+2
    have hswval : ∀ x ∈ sw.take (m + 1), ∃ j, j < m + 2 ∧ j < arr.length ∧
        x = arr.getD j default := by
      intro x hx
      rcases mem_take_getD sw (m + 1) x hx with ⟨t, htm, htl, hval⟩
      match t with
      | 0 =>
        refine ⟨m + 1, by omega, by omega, ?_⟩
        rw [hval, hsw, getD_swapL_at_fst arr (by omega)]
      | t + 1 =>
        refine ⟨t + 1, by omega, by omega, ?_⟩
        rw [hval, hsw, getD_swapL_other arr (by omega) (by omega)]
    have hroot := heapPairsFrom_root hb arr (m + 2) hheap
    -- invariants for the recursive call
    have hres := ih (siftDownG better sw 0 (m + 1))
      (by rw [length_siftDownG, hswlen]; omega)
      (by -- heap-shaped prefix
        apply siftDownG_restore hb sw (m + 1) 0 0 (by omega) (le_refl 0)
        · intro p j _ hp0 hj hjs
          rw [hsw, getD_swapL_other arr (by omega) (by omega),
            getD_swapL_other arr (by omega) (by omega)]
          exact hheap p j (by omega) hj (by omega)
        · intro j h0 _
          omega)
      (by -- descending tail
        rw [hdrop, hswdrop, List.pairwise_cons]
        refine ⟨fun y hy => ?_, hsorted⟩
        exact hcross (arr.getD 0 default)
          (getD_mem_take arr 0 (m + 2) (by omega) (by omega)) y hy)
      (by -- prefix dominates tail
        intro x hx y hy
        rw [htake] at hx
        have hx' : x ∈ sw.take (m + 1) :=
          (siftDownG_perm better _ 0 (m + 1) (by rw [List.length_take]; omega)).mem_iff.mp hx
        rcases hswval x hx' with ⟨j, hj2, hjl, hval⟩
        rw [hdrop, hswdrop] at hy
        rcases List.mem_cons.mp hy with hy0 | hy2
        · rw [hval, hy0]
          exact hroot j hj2
        · exact hcross x (hval ▸ getD_mem_take arr j (m + 2) hj2 hjl) y hy2)
    refine ⟨hres.1, ?_⟩
    refine hres.2.trans ?_
    refine (siftDownG_perm better sw 0 (m + 1) (by omega)).trans ?_
    exact swapL_perm arr 0 (m + 1) (by omega) (by omega)

/-! ## Drain (repeated remove) and the iterator -/

theorem removeArr_perm {α : Type} [Inhabited α] (c : α → α → Int)
    (e : α) (rest : List α) : (removeArr c (e :: rest)).Perm rest := by
  rw [removeArr]
  match rest with
  | [] => simp
  | r :: rs =>
    set last := (e :: r :: rs).getD (r :: rs).length default with hlast
    have hlast' : last = (r :: rs).getLast (by simp) := by
      rw [hlast, show (r :: rs).length = rs.length + 1 from by simp,
        List.getD_cons_succ, List.getLast_eq_getElem,
        List.getD_eq_getElem _ default (by simp)]
      congr 1 <;> simp
    set arr1 := ((e :: r :: rs).set 0 last).dropLast with harr1
    have harr1' : arr1 = last :: (r :: rs).dropLast := by
      rw [harr1]
      show ((last :: r :: rs).dropLast) = _
      rw [List.dropLast_cons_of_ne_nil (by simp)]
    have hperm1 : arr1.Perm (r :: rs) := by
      rw [harr1', hlast']
      have hsplit := List.dropLast_append_getLast (show r :: rs ≠ [] by simp)
      calc ((r :: rs).getLast (by simp) :: (r :: rs).dropLast).Perm
            ((r :: rs).dropLast ++ [(r :: rs).getLast (by simp)]) :=
            (List.perm_middle.trans (by simp)).symm
        _ = r :: rs := hsplit
    split
    · exact (siftDownG_perm _ _ _ _ (le_refl _)).trans hperm1
    · exact hperm1

theorem drainArr_perm {α : Type} [Inhabited α] (c : α → α → Int) :
    ∀ l : List α, (Heap.drainArr c l).Perm l := by
  intro l
  match l with
  | [] => rw [Heap.drainArr]
  | e :: rest =>
    rw [Heap.drainArr]
    exact List.Perm.cons e
      ((drainArr_perm c (removeArr c (e :: rest))).trans (removeArr_perm c e rest))
termination_by l => l.length
decreasing_by rw [length_removeArr]; simp only [List.length_cons]; omega

theorem drainArr_sorted {α : Type} [Inhabited α] {c : α → α → Int}
    (hc : LawfulCmp c) : ∀ l : List α, heapPairs c l →
    List.Pairwise (fun x y => c x y ≤ 0) (Heap.drainArr c l) := by
  intro l
  match l with
  | [] => intro _; rw [Heap.drainArr]; exact List.Pairwise.nil
  | e :: rest =>
    intro H
    rw [Heap.drainArr]
    rw [List.pairwise_cons]
    constructor
    · intro y hy
      have hy' : y ∈ removeArr c (e :: rest) :=
        (drainArr_perm c _).mem_iff.mp hy
      have hy'' : y ∈ e :: rest := by
        have := (removeArr_perm c e rest).mem_iff.mp hy'
        exact List.mem_cons_of_mem e this
      rcases List.mem_iff_getElem.mp hy'' with ⟨j, hj, hval⟩
      have hroot := heapPairsFrom_root (betterLaws_lt hc) (e :: rest)
        (e :: rest).length ((heapPairs_iff_engine hc _).mp H) j hj
      simp only [decide_eq_false_iff_not] at hroot
      have h0 : (e :: rest).getD 0 default = e := rfl
      have hjv : (e :: rest).getD j default = y := by
        rw [List.getD_eq_getElem _ default hj, hval]
      rw [h0, hjv] at hroot
      have := hc.neg_iff y e
      omega
    · exact drainArr_sorted hc (removeArr c (e :: rest))
        (heapPairs_removeArr hc (e :: rest) H)
termination_by l => l.length
decreasing_by rw [length_removeArr]; simp only [List.length_cons]; omega

/-- The iterator's in-place heapsort-and-reverse produces exactly the
repeated-`remove` drain sequence (no heap-shape assumption needed: both
procedures perform the same swap-and-sift steps). -/
theorem iterSeq_eq_drainArr {α : Type} [Inhabited α] (c : α → α → Int) :
    ∀ l : List α,
      (extractLoopG (fun a b => decide (c a b < 0)) l (l.length - 1)).reverse =
        Heap.drainArr c l := by
  intro l
  match l with
  | [] => rw [Heap.drainArr]; rfl
  | [x] =>
    rw [Heap.drainArr]
    show ([x].reverse = x :: Heap.drainArr c (removeArr c [x]))
    rw [show removeArr c [x] = [] by rw [removeArr]; simp, Heap.drainArr]
    rfl
  | e :: r :: rs =>
    have hlen2 : (e :: r :: rs).length = rs.length + 2 := by simp
    rw [show (e :: r :: rs).length - 1 = rs.length + 1 from by simp]
    rw [extractLoopG]
    set sw := swapL (e :: r :: rs) 0 (rs.length + 1) with hsw
    have hswlen : sw.length = rs.length + 2 := by
      rw [hsw, length_swapL]; simp
    have htklen : (sw.take (rs.length + 1)).length = rs.length + 1 := by
      simp [hswlen]
    have harr' : siftDownG (fun a b => decide (c a b < 0)) sw 0 (rs.length + 1) =
        siftDownG (fun a b => decide (c a b < 0)) (sw.take (rs.length + 1)) 0
          (rs.length + 1) ++ sw.drop (rs.length + 1) := by
      conv_lhs => rw [← List.take_append_drop (rs.length + 1) sw]
      exact siftDownG_append _ _ _ 0 (rs.length + 1) (by omega)
    have hswtake : sw.take (rs.length + 1) =
        ((e :: r :: rs).set 0
          ((e :: r :: rs).getD (rs.length + 1) default)).dropLast := by
      rw [hsw]
      show (((e :: r :: rs).set 0 ((e :: r :: rs).getD (rs.length + 1) default)).set
        (rs.length + 1) ((e :: r :: rs).getD 0 default)).take (rs.length + 1) = _
      rw [take_set_of_le _ _ _ _ (le_refl _), List.dropLast_eq_take,
        show ((e :: r :: rs).set 0
          ((e :: r :: rs).getD (rs.length + 1) default)).length - 1 = rs.length + 1
          from by simp]
    have hswdrop : sw.drop (rs.length + 1) = [(e :: r :: rs).getD 0 default] := by
      rw [hsw]
      show (((e :: r :: rs).set 0 ((e :: r :: rs).getD (rs.length + 1) default)).set
        (rs.length + 1) ((e :: r :: rs).getD 0 default)).drop (rs.length + 1) = _
      apply List.ext_getElem?
      intro k
      rw [List.getElem?_drop]
      match k with
      | 0 =>
        rw [List.getElem?_cons_zero, Nat.add_zero, List.getElem?_set]
        rw [if_pos rfl, if_pos (by simp)]
      | k + 1 =>
        rw [List.getElem?_set_ne (by omega), List.getElem?_set_ne (by omega)]
        rw [show (((e :: r :: rs).getD 0 default : α) :: ([] : List α))[k + 1]? = none
          from rfl]
        exact List.getElem?_eq_none (by simp <;> omega)
    have hB : removeArr c (e :: r :: rs) =
        siftDownG (fun a b => decide (c a b < 0)) (sw.take (rs.length + 1)) 0
          (rs.length + 1) := by
      rw [removeArr]
      rw [show (r :: rs).length = rs.length + 1 from by simp]
      rw [← hswtake]
      rw [if_pos (by rw [htklen]; omega)]
      rw [bubbleDownArr, htklen]
    have hkey : siftDownG (fun a b => decide (c a b < 0)) sw 0 (rs.length + 1) =
        removeArr c (e :: r :: rs) ++ [(e :: r :: rs).getD 0 default] := by
      rw [harr', hB, hswdrop]
    rw [hkey]
    have hBlen : (removeArr c (e :: r :: rs)).length = rs.length + 1 := by
      rw [length_removeArr]
      simp
    rw [extractLoopG_append _ rs.length _ _ (by omega)]
    rw [List.reverse_append]
    have hIH := iterSeq_eq_drainArr c (removeArr c (e :: r :: rs))
    rw [hBlen] at hIH
    rw [show rs.length + 1 - 1 = rs.length from rfl] at hIH
    show ((e :: r :: rs).getD 0 default) ::
      (extractLoopG (fun a b => decide (c a b < 0))
        (removeArr c (e :: r :: rs)) rs.length).reverse = Heap.drainArr c (e :: r :: rs)
    rw [hIH, Heap.drainArr]
    rfl
termination_by l => l.length
decreasing_by
  rw [length_removeArr]
  simp only [List.length_cons]
  omega

/-- **C6** (confirmed): iterating a heap yields a finite sequence that is
exactly the repeated-`remove` drain, contains the same multiset of elements
as the heap, and is ascending under the heap's comparator.  Iteration reads
only a private copy of the backing array (the model is a pure function of
`h.elements`; claim C8's store model covers non-mutation). -/
theorem c6_heap_iteration {α : Type} [Inhabited α] (h : Heap α)
    (hc : LawfulCmp h.cmp) (H : heapPairs h.cmp h.elements) :
    h.iterSeq = h.drain
    ∧ h.iterSeq.Perm h.elements
    ∧ List.Pairwise (fun x y => h.cmp x y ≤ 0) h.iterSeq := by
  have heq : h.iterSeq = h.drain := iterSeq_eq_drainArr h.cmp h.elements
  refine ⟨heq, ?_, ?_⟩
  · rw [heq]
    exact drainArr_perm h.cmp h.elements
  · rw [heq]
    exact drainArr_sorted hc h.elements H

/-- Witness for C6: the spec's concrete example.  `MinHeap.from([5,3,7,1,4])`
has backing array `[1,3,7,5,4]` (checked below against `from`), and iterating
yields `[1,3,4,5,7]`. -/
theorem c6_heap_iteration_witness :
    LawfulCmp (Heap.mk icmp [1, 3, 7, 5, 4] : Heap Int).cmp
    ∧ heapPairs icmp [1, 3, 7, 5, 4]
    ∧ (Heap.mk icmp [1, 3, 7, 5, 4] : Heap Int).iterSeq =
        (Heap.mk icmp [1, 3, 7, 5, 4] : Heap Int).drain
    ∧ (Heap.mk icmp [1, 3, 7, 5, 4] : Heap Int).iterSeq = [1, 3, 4, 5, 7] := by
  refine ⟨icmp_lawful, by decide,
    (c6_heap_iteration (Heap.mk icmp [1, 3, 7, 5, 4]) icmp_lawful (by decide)).1, ?_⟩
  simp [Heap.iterSeq, extractLoopG, siftDownG, pickChild, swapL, icmp]

/-- The spec example's `from` builds exactly the backing array used in the
C6 witness. -/
theorem fromArr_example :
    (Heap.fromArr icmp [5, 3, 7, 1, 4]).elements = [1, 3, 7, 5, 4] := by
  show Heap.buildLoop icmp [5, 3, 7, 1, 4] 2 = _
  simp [Heap.buildLoop, bubbleDownArr, siftDownG, pickChild, swapL, icmp]

/-! ## heapSort correctness (towards claim C2) -/

/-- The build loop only permutes the array. -/
theorem buildLoopG_perm {α : Type} [Inhabited α] (better : α → α → Bool)
    (n : Nat) : ∀ (k : Nat) (l : List α), n ≤ l.length →
    (buildLoopG better n l k).Perm l := by
  intro k
  induction k with
  | zero => intro l _; exact List.Perm.refl l
  | succ k ih =>
    intro l hn
    rw [buildLoopG]
    exact (ih _ (by rw [length_siftDownG]; exact hn)).trans
      (siftDownG_perm better l k n hn)

/-- `Sorting.isSorted` is adjacent non-inversion. -/
theorem isSorted_iff_chain {α : Type} (c : α → α → Int) (l : List α) :
    Sorting.isSorted c l = true ↔ l.Chain' (fun a b => c a b ≤ 0) := by
  match l with
  | [] => simp [Sorting.isSorted]
  | [x] => simp [Sorting.isSorted]
  | a :: b :: t =>
    rw [Sorting.isSorted, List.chain'_cons, Bool.and_eq_true,
      ← isSorted_iff_chain c (b :: t)]
    constructor
    · intro ⟨h1, h2⟩
      refine ⟨?_, h2⟩
      simpa using h1
    · intro ⟨h1, h2⟩
      refine ⟨?_, h2⟩
      simpa using h1

theorem heapSort_correct {α : Type} [Inhabited α] {c : α → α → Int}
    (hc : LawfulCmp c) (arr : List α) :
    Sorting.isSorted c (Sorting.heapSort c arr) = true
    ∧ (Sorting.heapSort c arr).Perm arr := by
  have hun : Sorting.heapSort c arr =
      extractLoopG (fun a b => decide (0 < c a b))
        (buildLoopG (fun a b => decide (0 < c a b)) arr.length arr (arr.length / 2))
        ((buildLoopG (fun a b => decide (0 < c a b)) arr.length arr
          (arr.length / 2)).length - 1) := rfl
  rw [hun]
  set bet : α → α → Bool := fun a b => decide (0 < c a b) with hbet
  set built := buildLoopG bet arr.length arr (arr.length / 2) with hbuilt
  have hblen : built.length = arr.length := length_buildLoopG _ _ _ _
  have hbperm : built.Perm arr :=
    buildLoopG_perm bet arr.length (arr.length / 2) arr (le_refl _)
  rcases Nat.eq_zero_or_pos arr.length with hz | hp
  · have hbnil : built = [] := List.length_eq_zero.mp (by omega)
    have hanil : arr = [] := List.length_eq_zero.mp hz
    rw [hbnil, hanil]
    exact ⟨rfl, List.Perm.refl _⟩
  · have e : built.length - 1 + 1 = arr.length := by omega
    have hheap : heapPairsFrom bet built arr.length 0 :=
      buildLoopG_restore (betterLaws_gt hc) arr.length arr (arr.length / 2)
        (le_refl _) (heapPairsFrom_half bet arr arr.length)
    have hmain := extractLoopG_sorted (betterLaws_gt hc) (built.length - 1) built
      (by omega)
      (by rw [e]; exact hheap)
      (by rw [e, ← hblen, List.drop_length]; exact List.Pairwise.nil)
      (by
        intro x hx y hy
        rw [e, ← hblen, List.drop_length] at hy
        exact absurd hy (List.not_mem_nil y))
    refine ⟨?_, hmain.2.trans hbperm⟩
    rw [isSorted_iff_chain]
    apply List.Pairwise.chain'
    refine hmain.1.imp ?_
    intro a b h
    simp only [decide_eq_false_iff_not, not_lt] at h
    exact h

/-! ## insertionSort correctness (towards claim C2) -/

/-- The slot where `insertionSort`'s inner shifting loop finally writes the
key: scanning down from `j`, the final value of `j + 1`. -/
def ipos {α : Type} [Inhabited α] (c : α → α → Int) (key : α)
    (result : List α) (j : Int) : Nat :=
  if h : 0 ≤ j ∧ 0 < c (result.getD j.toNat default) key then
    ipos c key result (j - 1)
  else (j + 1).toNat
termination_by (j + 1).toNat
decreasing_by omega

theorem ipos_le {α : Type} [Inhabited α] (c : α → α → Int) (key : α)
    (j : Int) (result : List α) : ipos c key result j ≤ (j + 1).toNat := by
  rw [ipos]
  split
  · rename_i h
    have := ipos_le c key (j - 1) result
    omega
  · omega
termination_by (j + 1).toNat
decreasing_by omega

theorem ipos_congr {α : Type} [Inhabited α] (c : α → α → Int) (key : α)
    (j : Int) (l l' : List α)
    (hread : ∀ q : Nat, (q : Int) ≤ j → l'.getD q default = l.getD q default) :
    ipos c key l' j = ipos c key l j := by
  conv_lhs => rw [ipos]
  conv_rhs => rw [ipos]
  by_cases h : 0 ≤ j ∧ 0 < c (l.getD j.toNat default) key
  · have hq : l'.getD j.toNat default = l.getD j.toNat default :=
      hread j.toNat (by omega)
    rw [dif_pos (by rw [hq]; exact h), dif_pos h]
    exact ipos_congr c key (j - 1) l l' (fun q hq2 => hread q (by omega))
  · have h' : ¬(0 ≤ j ∧ 0 < c (l'.getD j.toNat default) key) := by
      intro hcon
      have hq := hread j.toNat (by omega)
      exact h ⟨hcon.1, by rw [← hq]; exact hcon.2⟩
    rw [dif_neg h', dif_neg h]
termination_by (j + 1).toNat
decreasing_by omega

theorem ipos_stop {α : Type} [Inhabited α] (c : α → α → Int) (key : α)
    (j : Int) (result : List α) (h0 : 0 < ipos c key result j) :
    c (result.getD (ipos c key result j - 1) default) key ≤ 0 := by
  rw [ipos] at h0 ⊢
  by_cases h : 0 ≤ j ∧ 0 < c (result.getD j.toNat default) key
  · rw [dif_pos h] at h0 ⊢
    exact ipos_stop c key (j - 1) result h0
  · rw [dif_neg h] at h0 ⊢
    have hj : 0 ≤ j := by omega
    have e : (j + 1).toNat - 1 = j.toNat := by omega
    rw [e]
    by_cases hc2 : 0 < c (result.getD j.toNat default) key
    · exact absurd ⟨hj, hc2⟩ h
    · omega
termination_by (j + 1).toNat
decreasing_by omega

theorem ipos_scanned {α : Type} [Inhabited α] (c : α → α → Int) (key : α)
    (j : Int) (result : List α) (q : Nat)
    (h1 : ipos c key result j ≤ q) (h2 : (q : Int) ≤ j) :
    0 < c (result.getD q default) key := by
  rw [ipos] at h1
  by_cases h : 0 ≤ j ∧ 0 < c (result.getD j.toNat default) key
  · rw [dif_pos h] at h1
    by_cases hq : (q : Int) ≤ j - 1
    · exact ipos_scanned c key (j - 1) result q h1 hq
    · have e : q = j.toNat := by omega
      rw [e]
      exact h.2
  · rw [dif_neg h] at h1
    omega
termination_by (j + 1).toNat
decreasing_by omega

theorem drop_set_of_lt' {α : Type} (l : List α) (m k : Nat) (a : α)
    (h : m < k) : (l.set m a).drop k = l.drop k := by
  apply List.ext_getElem?
  intro n
  rw [List.getElem?_drop, List.getElem?_drop, List.getElem?_set_ne (by omega)]

theorem take_succ_getD {α : Type} [Inhabited α] (l : List α) (k : Nat)
    (h : k < l.length) :
    l.take (k + 1) = l.take k ++ [l.getD k default] := by
  rw [List.take_succ, List.getElem?_eq_getElem h, List.getD_eq_getElem l default h]
  rfl

/-- Closed form of the inner shifting loop: the key lands at `ipos`, the
strictly-greater block shifts right by one, everything past the original
key slot is untouched. -/
theorem insertInner_closed {α : Type} [Inhabited α] (c : α → α → Int)
    (j : Int) (result : List α) (key : α)
    (hlen : (j + 1).toNat < result.length) :
    Sorting.insertInner c result key j =
      result.take (ipos c key result j) ++ key ::
        ((result.take (j + 1).toNat).drop (ipos c key result j)
          ++ result.drop ((j + 1).toNat + 1)) := by
  rw [Sorting.insertInner, ipos]
  by_cases h : 0 ≤ j ∧ 0 < c (result.getD j.toNat default) key
  · rw [dif_pos h, dif_pos h]
    have e1 : (j + 1).toNat = j.toNat + 1 := by omega
    have hlen' : (j - 1 + 1).toNat <
        (result.set (j + 1).toNat (result.getD j.toNat default)).length := by
      rw [List.length_set]; omega
    rw [insertInner_closed c (j - 1)
      (result.set (j + 1).toNat (result.getD j.toNat default)) key hlen']
    have hip : ipos c key
        (result.set (j + 1).toNat (result.getD j.toNat default)) (j - 1)
        = ipos c key result (j - 1) := by
      apply ipos_congr
      intro q hq
      apply getD_set_ne
      omega
    have hle : ipos c key result (j - 1) ≤ j.toNat := by
      have := ipos_le c key (j - 1) result
      omega
    have e2 : (j - 1 + 1).toNat = j.toNat := by omega
    rw [hip, e2, e1]
    rw [take_set_of_le result (j.toNat + 1) (ipos c key result (j - 1))
      (result.getD j.toNat default) (by omega)]
    rw [take_set_of_le result (j.toNat + 1) j.toNat
      (result.getD j.toNat default) (by omega)]
    rw [drop_eq_getD_cons
      (result.set (j.toNat + 1) (result.getD j.toNat default)) (j.toNat + 1)
      (by rw [List.length_set]; omega)]
    rw [getD_set_self result (j.toNat + 1) (result.getD j.toNat default)
      (by omega)]
    rw [drop_set_of_lt' result (j.toNat + 1) (j.toNat + 1 + 1)
      (result.getD j.toNat default) (by omega)]
    rw [take_succ_getD result j.toNat (by omega)]
    rw [List.drop_append_eq_append_drop]
    have e3 : ipos c key result (j - 1) - (result.take j.toNat).length = 0 := by
      rw [List.length_take]; omega
    rw [e3]
    simp [List.append_assoc]
  · rw [dif_neg h, dif_neg h]
    have hm : (result.take (j + 1).toNat).drop (j + 1).toNat = [] :=
      List.drop_eq_nil_of_le (by rw [List.length_take]; omega)
    rw [hm, List.nil_append, List.set_eq_take_cons_drop key hlen]
termination_by (j + 1).toNat
decreasing_by omega

/-- Outer loop of `insertionSort`: a sorted prefix of length `i` grows to
the whole array, permuting it. -/
theorem insertOuter_correct {α : Type} [Inhabited α] {c : α → α → Int}
    (hc : LawfulCmp c) (i : Nat) (result : List α) (hi : 0 < i)
    (hch : (result.take i).Chain' (fun a b => c a b ≤ 0)) :
    (Sorting.insertOuter c result i).Perm result
    ∧ (Sorting.insertOuter c result i).Chain' (fun a b => c a b ≤ 0) := by
  rw [Sorting.insertOuter]
  by_cases h : i < result.length
  · rw [dif_pos h]
    have e0 : ((i : Int) - 1 + 1).toNat = i := by omega
    have hcl := insertInner_closed c ((i : Int) - 1) result
      (result.getD i default) (by omega)
    rw [e0] at hcl
    set key := result.getD i default with hkey
    set p := ipos c key result ((i : Int) - 1) with hp
    have hple : p ≤ i := by
      have := ipos_le c key ((i : Int) - 1) result
      omega
    have hdropi : result.drop i = key :: result.drop (i + 1) :=
      drop_eq_getD_cons result i h
    have htki : (result.take i).take p = result.take p := by
      rw [List.take_take, min_eq_left hple]
    have hsplit : result = result.take p ++ ((result.take i).drop p
        ++ (key :: result.drop (i + 1))) := by
      conv_lhs => rw [← List.take_append_drop i result,
        ← List.take_append_drop p (result.take i)]
      rw [htki, hdropi, List.append_assoc]
    have hperm : (Sorting.insertInner c result key ((i : Int) - 1)).Perm result := by
      rw [hcl]
      conv_rhs => rw [hsplit]
      exact List.Perm.append_left _ List.perm_middle.symm
    have hXlen : ((result.take i).drop p).length = i - p := by
      simp only [List.length_drop, List.length_take]
      omega
    have htake : (Sorting.insertInner c result key ((i : Int) - 1)).take (i + 1)
        = result.take p ++ key :: (result.take i).drop p := by
      rw [hcl, List.take_append_eq_append_take]
      have h1 : (result.take p).length = p := by
        rw [List.length_take]; omega
      rw [List.take_of_length_le (show (result.take p).length ≤ i + 1 by
        rw [h1]; omega)]
      rw [h1]
      have h2 : i + 1 - p = (i - p) + 1 := by omega
      rw [h2, List.take_succ_cons, List.take_left' hXlen]
    have hchain' : ((Sorting.insertInner c result key ((i : Int) - 1)).take
        (i + 1)).Chain' (fun a b => c a b ≤ 0) := by
      rw [htake, List.chain'_append]
      refine ⟨by rw [← htki]; exact hch.take p, ?_, ?_⟩
      · rw [List.chain'_cons']
        refine ⟨?_, hch.drop p⟩
        intro y hy
        rw [List.head?_drop, Option.mem_def] at hy
        have hpi : p < i := by
          by_contra hcon
          push_neg at hcon
          rw [List.getElem?_eq_none (by rw [List.length_take]; omega)] at hy
          exact Option.noConfusion hy
        have hyv : y = result.getD p default := by
          rw [List.getElem?_take, if_pos hpi,
            List.getElem?_eq_getElem (show p < result.length by omega)] at hy
          rw [List.getD_eq_getElem result default (show p < result.length by omega)]
          exact (Option.some.inj hy).symm
        have hpos : 0 < c y key := by
          rw [hyv]
          exact ipos_scanned c key ((i : Int) - 1) result p hp.ge (by omega)
        have := hc.neg_iff key y
        omega
      · intro x hx y hy
        rw [List.head?_cons, Option.mem_some_iff] at hy
        subst hy
        rw [List.getLast?_eq_getElem?, Option.mem_def] at hx
        have hlp : (result.take p).length = p := by
          rw [List.length_take]; omega
        rw [hlp] at hx
        have hp0 : 0 < p := by
          rcases Nat.eq_zero_or_pos p with h0 | h0
          · rw [h0] at hx
            simp at hx
          · exact h0
        have hxv : x = result.getD (p - 1) default := by
          rw [List.getElem?_take, if_pos (by omega),
            List.getElem?_eq_getElem (show p - 1 < result.length by omega)] at hx
          rw [List.getD_eq_getElem result default
            (show p - 1 < result.length by omega)]
          exact (Option.some.inj hx).symm
        have hstop := ipos_stop c key ((i : Int) - 1) result (by omega)
        rw [hxv, hp]
        exact hstop
    have hrec := insertOuter_correct hc (i + 1)
      (Sorting.insertInner c result key ((i : Int) - 1)) (by omega) hchain'
    exact ⟨hrec.1.trans hperm, hrec.2⟩
  · rw [dif_neg h]
    refine ⟨List.Perm.refl _, ?_⟩
    rw [← List.take_of_length_le (show result.length ≤ i by omega)]
    exact hch
termination_by result.length - i
decreasing_by rw [Sorting.insertInner_length]; omega

theorem insertionSort_correct {α : Type} [Inhabited α] {c : α → α → Int}
    (hc : LawfulCmp c) (arr : List α) :
    Sorting.isSorted c (Sorting.insertionSort c arr) = true
    ∧ (Sorting.insertionSort c arr).Perm arr := by
  have hch : (arr.take 1).Chain' (fun a b => c a b ≤ 0) := by
    match arr with
    | [] => simp
    | a :: t => simp
  have h := insertOuter_correct hc 1 arr (by omega) hch
  exact ⟨(isSorted_iff_chain c _).mpr h.2, h.1⟩

/-! ## mergeSort correctness (towards claim C2) -/

theorem mergeJS_perm {α : Type} (c : α → α → Int) :
    ∀ (l r : List α), (Sorting.mergeJS c l r).Perm (l ++ r)
  | [], r => by simp [Sorting.mergeJS]
  | a :: l, [] => by simp [Sorting.mergeJS]
  | a :: l, b :: r => by
    rw [Sorting.mergeJS]
    split
    · exact (mergeJS_perm c l (b :: r)).cons a
    · exact ((mergeJS_perm c (a :: l) r).cons b).trans List.perm_middle.symm
termination_by l r => l.length + r.length

theorem chain_to_pairwise {α : Type} {c : α → α → Int} (hc : LawfulCmp c)
    (l : List α) (h : l.Chain' (fun a b => c a b ≤ 0)) :
    l.Pairwise (fun a b => c a b ≤ 0) :=
  (@List.chain'_iff_pairwise α (fun a b => c a b ≤ 0)
    ⟨fun a b d h1 h2 => hc.trans a b d h1 h2⟩ l).mp h

theorem mergeJS_pairwise {α : Type} {c : α → α → Int} (hc : LawfulCmp c) :
    ∀ (l r : List α), l.Pairwise (fun a b => c a b ≤ 0) →
    r.Pairwise (fun a b => c a b ≤ 0) →
    (Sorting.mergeJS c l r).Pairwise (fun a b => c a b ≤ 0)
  | [], r => fun _ hr => by rw [Sorting.mergeJS]; exact hr
  | a :: l, [] => fun hl _ => by rw [Sorting.mergeJS]; exact hl
  | a :: l, b :: r => fun hl hr => by
    rw [Sorting.mergeJS]
    rcases List.pairwise_cons.mp hl with ⟨hal, hl'⟩
    rcases List.pairwise_cons.mp hr with ⟨hbr, hr'⟩
    split
    · rename_i hab
      rw [List.pairwise_cons]
      refine ⟨?_, mergeJS_pairwise hc l (b :: r) hl' hr⟩
      intro y hy
      have hy' : y ∈ l ++ b :: r := (mergeJS_perm c l (b :: r)).mem_iff.mp hy
      rcases List.mem_append.mp hy' with hyl | hybr
      · exact hal y hyl
      · rcases List.mem_cons.mp hybr with hyb | hyr
        · rw [hyb]; exact hab
        · exact hc.trans a b y hab (hbr y hyr)
    · rename_i hab
      push_neg at hab
      have hba : c b a ≤ 0 := by
        have := hc.neg_iff b a
        omega
      rw [List.pairwise_cons]
      refine ⟨?_, mergeJS_pairwise hc (a :: l) r hl hr'⟩
      intro y hy
      have hy' : y ∈ (a :: l) ++ r := (mergeJS_perm c (a :: l) r).mem_iff.mp hy
      rcases List.mem_append.mp hy' with hyal | hyr
      · rcases List.mem_cons.mp hyal with hya | hyl
        · rw [hya]; exact hba
        · exact hc.trans b a y hba (hal y hyl)
      · exact hbr y hyr
termination_by l r => l.length + r.length

theorem mergeSort_eq {α : Type} (c : α → α → Int) (arr : List α)
    (h : ¬ arr.length ≤ 1) :
    Sorting.mergeSort c arr =
      Sorting.mergeJS c (Sorting.mergeSort c (arr.take (arr.length / 2)))
        (Sorting.mergeSort c (arr.drop (arr.length / 2))) := by
  rw [Sorting.mergeSort, dif_neg h]

theorem mergeSort_correct {α : Type} {c : α → α → Int}
    (hc : LawfulCmp c) (arr : List α) :
    Sorting.isSorted c (Sorting.mergeSort c arr) = true
    ∧ (Sorting.mergeSort c arr).Perm arr := by
  by_cases h : arr.length ≤ 1
  · rw [Sorting.mergeSort, dif_pos h]
    match arr, h with
    | [], _ => exact ⟨rfl, List.Perm.refl _⟩
    | [x], _ => exact ⟨rfl, List.Perm.refl _⟩
  · rw [mergeSort_eq c arr h]
    have hlt : arr.length / 2 < arr.length := by omega
    have hlen1 : (arr.take (arr.length / 2)).length < arr.length := by
      rw [List.length_take]; omega
    have hlen2 : (arr.drop (arr.length / 2)).length < arr.length := by
      rw [List.length_drop]; omega
    have h1 := mergeSort_correct hc (arr.take (arr.length / 2))
    have h2 := mergeSort_correct hc (arr.drop (arr.length / 2))
    constructor
    · rw [isSorted_iff_chain]
      apply List.Pairwise.chain'
      exact mergeJS_pairwise hc _ _
        (chain_to_pairwise hc _ ((isSorted_iff_chain c _).mp h1.1))
        (chain_to_pairwise hc _ ((isSorted_iff_chain c _).mp h2.1))
    · refine (mergeJS_perm c _ _).trans ?_
      have := (h1.2.append h2.2).trans
        (List.Perm.of_eq (List.take_append_drop (arr.length / 2) arr))
      exact this
termination_by arr.length
decreasing_by
  · exact hlen1
  · exact hlen2

/-! ## quickSort correctness (towards claim C2): scan lemmas -/

namespace Sorting

theorem qsScanR_stop {α : Type} [Inhabited α] (c : α → α → Int) (arr : List α)
    (pivot : α) (i : Int) :
    0 ≤ qsScanR c arr pivot i → qsScanR c arr pivot i < (arr.length : Int) →
    ¬ c (arr.getD (qsScanR c arr pivot i).toNat default) pivot < 0 := by
  rw [qsScanR]
  split
  · exact qsScanR_stop c arr pivot (i + 1)
  · rename_i h
    intro h0 h1 hlt
    exact h ⟨h0, h1, hlt⟩
termination_by ((arr.length : Int) - i).toNat
decreasing_by omega

theorem qsScanR_scanned {α : Type} [Inhabited α] (c : α → α → Int)
    (arr : List α) (pivot : α) (i q : Int) :
    i + 1 ≤ q → q < qsScanR c arr pivot i →
    0 ≤ q ∧ q < (arr.length : Int) ∧ c (arr.getD q.toNat default) pivot < 0 := by
  rw [qsScanR]
  split
  · rename_i h
    intro h1 h2
    by_cases hq : q = i + 1
    · subst hq
      exact ⟨h.1, h.2.1, h.2.2⟩
    · exact qsScanR_scanned c arr pivot (i + 1) q (by omega) h2
  · intro h1 h2
    omega
termination_by ((arr.length : Int) - i).toNat
decreasing_by omega

theorem qsScanR_bounded {α : Type} [Inhabited α] (c : α → α → Int)
    (arr : List α) (pivot : α) (i m : Int)
    (hm : ¬ c (arr.getD m.toNat default) pivot < 0) :
    i + 1 ≤ m → qsScanR c arr pivot i ≤ m := by
  rw [qsScanR]
  split
  · rename_i h
    intro h1
    by_cases hq : m = i + 1
    · subst hq
      exact absurd h.2.2 hm
    · exact qsScanR_bounded c arr pivot (i + 1) m hm (by omega)
  · intro h1
    omega
termination_by ((arr.length : Int) - i).toNat
decreasing_by omega

theorem qsScanL_stop {α : Type} [Inhabited α] (c : α → α → Int) (arr : List α)
    (pivot : α) (j : Int) :
    0 ≤ qsScanL c arr pivot j → qsScanL c arr pivot j < (arr.length : Int) →
    ¬ 0 < c (arr.getD (qsScanL c arr pivot j).toNat default) pivot := by
  rw [qsScanL]
  split
  · exact qsScanL_stop c arr pivot (j - 1)
  · rename_i h
    intro h0 h1 hlt
    exact h ⟨h0, h1, hlt⟩
termination_by (j + 1).toNat
decreasing_by omega

theorem qsScanL_scanned {α : Type} [Inhabited α] (c : α → α → Int)
    (arr : List α) (pivot : α) (j q : Int) :
    q ≤ j - 1 → qsScanL c arr pivot j < q →
    0 ≤ q ∧ q < (arr.length : Int) ∧ 0 < c (arr.getD q.toNat default) pivot := by
  rw [qsScanL]
  split
  · rename_i h
    intro h1 h2
    by_cases hq : q = j - 1
    · subst hq
      exact ⟨h.1, h.2.1, h.2.2⟩
    · exact qsScanL_scanned c arr pivot (j - 1) q (by omega) h2
  · intro h1 h2
    omega
termination_by (j + 1).toNat
decreasing_by omega

theorem qsScanL_bounded {α : Type} [Inhabited α] (c : α → α → Int)
    (arr : List α) (pivot : α) (j m : Int)
    (hm : ¬ 0 < c (arr.getD m.toNat default) pivot) :
    m ≤ j - 1 → m ≤ qsScanL c arr pivot j := by
  rw [qsScanL]
  split
  · rename_i h
    intro h1
    by_cases hq : m = j - 1
    · subst hq
      exact absurd h.2.2 hm
    · exact qsScanL_bounded c arr pivot (j - 1) m hm (by omega)
  · intro h1
    omega
termination_by (j + 1).toNat
decreasing_by omega

end Sorting

/-- Hoare partition loop invariant: with in-window witnesses for both scans
(so neither scan can leave the window), the loop returns a split point
`low ≤ p < high` and an array that is a permutation of the input, unchanged
outside `[low, high]`, with everything at `[low, p]` not above the pivot and
everything at `(p, high]` not below it. -/
theorem partitionLoop_spec {α : Type} [Inhabited α] (c : α → α → Int)
    (arr : List α) (pivot : α) (low high i j : Int)
    (hlow : 0 ≤ low)
    (hhigh : high < (arr.length : Int))
    (hi1 : low - 1 ≤ i)
    (hj1 : j ≤ high + 1)
    (hwitR : ∃ m, i + 1 ≤ m ∧ m ≤ high ∧
      ¬ c (arr.getD m.toNat default) pivot < 0)
    (hwitL : ∃ m, low ≤ m ∧ m ≤ j - 1 ∧
      ¬ 0 < c (arr.getD m.toNat default) pivot)
    (hD : (∃ m, i + 1 ≤ m ∧ m < high ∧
      ¬ c (arr.getD m.toNat default) pivot < 0) ∨ j ≤ high)
    (hleftOK : ∀ q : Int, low ≤ q → q ≤ i →
      ¬ 0 < c (arr.getD q.toNat default) pivot)
    (hrightOK : ∀ q : Int, j ≤ q → q ≤ high →
      ¬ c (arr.getD q.toNat default) pivot < 0) :
    ∃ p arr', Sorting.partitionLoop c arr pivot i j = (p, arr')
      ∧ low ≤ p ∧ p < high
      ∧ arr'.length = arr.length
      ∧ arr'.Perm arr
      ∧ (∀ q : Nat, ((q : Int) < low ∨ high < (q : Int)) →
          arr'.getD q default = arr.getD q default)
      ∧ (∀ q : Int, low ≤ q → q ≤ p →
          ¬ 0 < c (arr'.getD q.toNat default) pivot)
      ∧ (∀ q : Int, p < q → q ≤ high →
          ¬ c (arr'.getD q.toNat default) pivot < 0) := by
  rw [Sorting.partitionLoop]
  obtain ⟨mR, hmR1, hmR2, hmR3⟩ := hwitR
  obtain ⟨mL, hmL1, hmL2, hmL3⟩ := hwitL
  have hge := Sorting.qsScanR_ge c arr pivot i
  have hle := Sorting.qsScanL_le c arr pivot j
  have hiub : Sorting.qsScanR c arr pivot i ≤ mR :=
    Sorting.qsScanR_bounded c arr pivot i mR hmR3 hmR1
  have hjlb : mL ≤ Sorting.qsScanL c arr pivot j :=
    Sorting.qsScanL_bounded c arr pivot j mL hmL3 hmL2
  have hi'0 : 0 ≤ Sorting.qsScanR c arr pivot i := by omega
  have hi'len : Sorting.qsScanR c arr pivot i < (arr.length : Int) := by omega
  have hj'0 : 0 ≤ Sorting.qsScanL c arr pivot j := by omega
  have hj'len : Sorting.qsScanL c arr pivot j < (arr.length : Int) := by omega
  have hstopR := Sorting.qsScanR_stop c arr pivot i hi'0 hi'len
  have hstopL := Sorting.qsScanL_stop c arr pivot j hj'0 hj'len
  set i' := Sorting.qsScanR c arr pivot i with hi'def
  set j' := Sorting.qsScanL c arr pivot j with hj'def
  split
  · rename_i hlt
    have hi'ltlen : i'.toNat < arr.length := by omega
    have hj'ltlen : j'.toNat < arr.length := by omega
    have hri : (swapL arr i'.toNat j'.toNat).getD i'.toNat default
        = arr.getD j'.toNat default := getD_swapL_at_fst arr hi'ltlen
    have hrj : (swapL arr i'.toNat j'.toNat).getD j'.toNat default
        = arr.getD i'.toNat default := getD_swapL_at_snd arr hj'ltlen
    have hro : ∀ q : Int, 0 ≤ q → q ≠ i' → q ≠ j' →
        (swapL arr i'.toNat j'.toNat).getD q.toNat default
          = arr.getD q.toNat default := by
      intro q hq0 hq1 hq2
      exact getD_swapL_other arr (by omega) (by omega)
    have hrec := partitionLoop_spec c (swapL arr i'.toNat j'.toNat) pivot
      low high i' j'
      hlow
      (by rw [length_swapL]; exact hhigh)
      (by omega)
      (by omega)
      ⟨j', by omega, by omega, by rw [hrj]; exact hstopR⟩
      ⟨i', by omega, by omega, by rw [hri]; exact hstopL⟩
      (Or.inr (by omega))
      (by
        intro q hq1 hq2
        by_cases hqi : q = i'
        · subst hqi
          rw [hri]
          exact hstopL
        · rw [hro q (by omega) hqi (by omega)]
          by_cases hqle : q ≤ i
          · exact hleftOK q hq1 hqle
          · have := Sorting.qsScanR_scanned c arr pivot i q (by omega)
              (by omega)
            omega)
      (by
        intro q hq1 hq2
        by_cases hqj : q = j'
        · subst hqj
          rw [hrj]
          exact hstopR
        · rw [hro q (by omega) (by omega) hqj]
          by_cases hqle : q ≤ j - 1
          · have := Sorting.qsScanL_scanned c arr pivot j q hqle (by omega)
            omega
          · exact hrightOK q (by omega) hq2)
    obtain ⟨p, arr', heq, hp1, hp2, hlen', hperm', hframe', hL', hR'⟩ := hrec
    refine ⟨p, arr', heq, hp1, hp2, ?_, ?_, ?_, hL', hR'⟩
    · rw [hlen', length_swapL]
    · exact hperm'.trans (swapL_perm arr i'.toNat j'.toNat hi'ltlen hj'ltlen)
    · intro q hq
      rw [hframe' q hq]
      exact getD_swapL_other arr (by omega) (by omega)
  · rename_i hnlt
    refine ⟨j', arr, rfl, by omega, ?_, rfl, List.Perm.refl _,
      fun q _ => rfl, ?_, ?_⟩
    · rcases hD with ⟨m, hm1, hm2, hm3⟩ | hjh
      · have : i' ≤ m := Sorting.qsScanR_bounded c arr pivot i m hm3 hm1
        omega
      · omega
    · intro q hq1 hq2
      by_cases hqj : q = j'
      · subst hqj
        exact hstopL
      · by_cases hqle : q ≤ i
        · exact hleftOK q hq1 hqle
        · have := Sorting.qsScanR_scanned c arr pivot i q (by omega) (by omega)
          omega
    · intro q hq1 hq2
      by_cases hqle : q ≤ j - 1
      · have := Sorting.qsScanL_scanned c arr pivot j q hqle (by omega)
        omega
      · exact hrightOK q (by omega) hq2
termination_by (j - i).toNat
decreasing_by omega

/-- One Hoare partition under the precondition `0 ≤ low < high < length`. -/
theorem partition_spec {α : Type} [Inhabited α] {c : α → α → Int}
    (hc : LawfulCmp c) (arr : List α) (low high : Int)
    (hlow : 0 ≤ low) (hlh : low < high) (hhigh : high < (arr.length : Int)) :
    ∃ p arr', Sorting.partition c arr low high = (p, arr')
      ∧ low ≤ p ∧ p < high
      ∧ arr'.length = arr.length
      ∧ arr'.Perm arr
      ∧ (∀ q : Nat, ((q : Int) < low ∨ high < (q : Int)) →
          arr'.getD q default = arr.getD q default)
      ∧ (∀ q : Int, low ≤ q → q ≤ p →
          ¬ 0 < c (arr'.getD q.toNat default)
            (arr.getD (((low + high) / 2).toNat) default))
      ∧ (∀ q : Int, p < q → q ≤ high →
          ¬ c (arr'.getD q.toNat default)
            (arr.getD (((low + high) / 2).toNat) default) < 0) := by
  have hmid : Int.fdiv (low + high) 2 = (low + high) / 2 :=
    Int.fdiv_eq_ediv _ (by omega)
  rw [Sorting.partition, hmid]
  have hrefl := hc.refl (arr.getD (((low + high) / 2).toNat) default)
  exact partitionLoop_spec c arr _ low high (low - 1) (high + 1)
    hlow hhigh (by omega) (by omega)
    ⟨(low + high) / 2, by omega, by omega, by omega⟩
    ⟨(low + high) / 2, by omega, by omega, by omega⟩
    (Or.inl ⟨(low + high) / 2, by omega, by omega, by omega⟩)
    (fun q h1 h2 => by omega)
    (fun q h1 h2 => by omega)

/-! ### Slice helpers -/

theorem slice_split {α : Type} (l : List α) (lo m hi : Nat)
    (h1 : lo ≤ m + 1) (h2 : m + 1 ≤ hi + 1) (h3 : m + 1 ≤ l.length) :
    (l.take (hi + 1)).drop lo =
      (l.take (m + 1)).drop lo ++ (l.take (hi + 1)).drop (m + 1) := by
  conv_lhs => rw [← List.take_append_drop (m + 1) (l.take (hi + 1))]
  rw [List.drop_append_eq_append_drop, List.take_take, min_eq_left h2]
  have hlen : (l.take (m + 1)).length = m + 1 := by
    rw [List.length_take]; omega
  rw [hlen, Nat.sub_eq_zero_of_le h1, List.drop_zero]

theorem slice_congr {α : Type} [Inhabited α] (l l' : List α) (lo hi : Nat)
    (hlen : l'.length = l.length)
    (h : ∀ q : Nat, lo ≤ q → q < hi → l'.getD q default = l.getD q default) :
    (l'.take hi).drop lo = (l.take hi).drop lo := by
  apply List.ext_getElem?
  intro n
  rw [List.getElem?_drop, List.getElem?_drop, List.getElem?_take,
    List.getElem?_take]
  by_cases hcond : lo + n < hi
  · rw [if_pos hcond, if_pos hcond]
    by_cases hb : lo + n < l.length
    · rw [List.getElem?_eq_getElem hb,
        List.getElem?_eq_getElem (show lo + n < l'.length by omega)]
      have hq := h (lo + n) (by omega) (by omega)
      rw [List.getD_eq_getElem l' default (by omega),
        List.getD_eq_getElem l default hb] at hq
      rw [hq]
    · rw [List.getElem?_eq_none (by omega), List.getElem?_eq_none (by omega)]
  · rw [if_neg hcond, if_neg hcond]

theorem mem_slice {α : Type} [Inhabited α] (l : List α) (lo hi : Nat) (x : α)
    (hx : x ∈ (l.take hi).drop lo) :
    ∃ q : Nat, lo ≤ q ∧ q < hi ∧ q < l.length ∧ x = l.getD q default := by
  rcases List.mem_iff_getElem.mp hx with ⟨t, ht, hval⟩
  have h1 : ((l.take hi).drop lo)[t]? = some x := by
    rw [List.getElem?_eq_getElem ht, hval]
  rw [List.getElem?_drop, List.getElem?_take] at h1
  have hlt : lo + t < hi := by
    by_contra hcon
    rw [if_neg hcon] at h1
    exact Option.noConfusion h1
  rw [if_pos hlt] at h1
  have hlenb : lo + t < l.length := by
    by_contra hcon
    rw [List.getElem?_eq_none (by omega)] at h1
    exact Option.noConfusion h1
  refine ⟨lo + t, by omega, hlt, hlenb, ?_⟩
  rw [List.getElem?_eq_getElem hlenb] at h1
  rw [List.getD_eq_getElem l default hlenb]
  exact (Option.some.inj h1).symm

theorem slice_perm_of_frame {α : Type} [Inhabited α] (l l' : List α)
    (lo hi : Nat) (hlen : l'.length = l.length) (hperm : l'.Perm l)
    (hlo : lo ≤ hi)
    (hfr : ∀ q : Nat, q < lo ∨ hi ≤ q → l'.getD q default = l.getD q default) :
    ((l'.take hi).drop lo).Perm ((l.take hi).drop lo) := by
  have htk : l'.take lo = l.take lo := by
    apply List.ext_getElem?
    intro n
    rw [List.getElem?_take, List.getElem?_take]
    by_cases hn : n < lo
    · rw [if_pos hn, if_pos hn]
      by_cases hb : n < l.length
      · rw [List.getElem?_eq_getElem hb,
          List.getElem?_eq_getElem (show n < l'.length by omega)]
        have hq := hfr n (Or.inl hn)
        rw [List.getD_eq_getElem l' default (by omega),
          List.getD_eq_getElem l default hb] at hq
        rw [hq]
      · rw [List.getElem?_eq_none (by omega), List.getElem?_eq_none (by omega)]
    · rw [if_neg hn, if_neg hn]
  have hdr : l'.drop hi = l.drop hi := by
    apply List.ext_getElem?
    intro n
    rw [List.getElem?_drop, List.getElem?_drop]
    by_cases hb : hi + n < l.length
    · rw [List.getElem?_eq_getElem hb,
        List.getElem?_eq_getElem (show hi + n < l'.length by omega)]
      have hq := hfr (hi + n) (Or.inr (by omega))
      rw [List.getD_eq_getElem l' default (by omega),
        List.getD_eq_getElem l default hb] at hq
      rw [hq]
    · rw [List.getElem?_eq_none (by omega), List.getElem?_eq_none (by omega)]
  have hdecomp : ∀ t : List α,
      t = t.take lo ++ ((t.take hi).drop lo ++ t.drop hi) := by
    intro t
    conv_lhs => rw [← List.take_append_drop hi t,
      ← List.take_append_drop lo (t.take hi)]
    rw [List.take_take, min_eq_left hlo, List.append_assoc]
  have hp : (l'.take lo ++ ((l'.take hi).drop lo ++ l'.drop hi)).Perm
      (l.take lo ++ ((l.take hi).drop lo ++ l.drop hi)) := by
    rw [← hdecomp l', ← hdecomp l]
    exact hperm
  rw [htk, hdr] at hp
  have hp2 := (List.perm_append_left_iff (l.take lo)).mp hp
  exact (List.perm_append_right_iff (l.drop hi)).mp hp2

theorem chain'_of_short {α : Type} (R : α → α → Prop) (l : List α)
    (h : l.length ≤ 1) : l.Chain' R := by
  match l, h with
  | [], _ => exact List.chain'_nil
  | [x], _ => exact List.chain'_singleton x

/-- The recursive `sort(low, high)` of `quickSort` under a lawful comparator:
with fuel exceeding the window size it succeeds, permutes the array, leaves
everything outside `[low, high]` unchanged, and sorts the window. -/
theorem qsortAux_spec {α : Type} [Inhabited α] {c : α → α → Int}
    (hc : LawfulCmp c) :
    ∀ (fuel : Nat) (arr : List α) (low high : Int),
    0 ≤ low → low ≤ high → high < (arr.length : Int) →
    high - low + 2 ≤ (fuel : Int) →
    ∃ out, Sorting.qsortAux c fuel arr low high = some out
      ∧ out.length = arr.length
      ∧ (∀ q : Nat, ((q : Int) < low ∨ high < (q : Int)) →
          out.getD q default = arr.getD q default)
      ∧ out.Perm arr
      ∧ ((out.take (high.toNat + 1)).drop low.toNat).Chain'
          (fun a b => c a b ≤ 0) := by
  intro fuel
  induction fuel with
  | zero =>
    intro arr low high h1 h2 h3 h4
    exfalso
    omega
  | succ fuel ih =>
    intro arr low high h1 h2 h3 h4
    by_cases hlh : low < high
    · obtain ⟨p, arr1, hpeq, hp1, hp2, hlen1, hperm1, hframe1, hL1, hR1⟩ :=
        partition_spec hc arr low high h1 hlh h3
      obtain ⟨out1, heq1, hlen2, hframe2, hperm2, hchain1⟩ :=
        ih arr1 low p h1 hp1 (by omega) (by omega)
      have hlen2' : out1.length = arr.length := hlen2.trans hlen1
      obtain ⟨out2, heq2, hlen3, hframe3, hperm3, hchain2⟩ :=
        ih out1 (p + 1) high (by omega) (by omega) (by omega) (by omega)
      have hlen3' : out2.length = arr.length := hlen3.trans hlen2'
      have hstep : Sorting.qsortAux c (fuel + 1) arr low high
          = Sorting.qsortAux c fuel out1 (p + 1) high := by
        rw [Sorting.qsortAux, if_pos hlh, hpeq]
        dsimp only
        rw [heq1]
      refine ⟨out2, by rw [hstep]; exact heq2, hlen3', ?_, ?_, ?_⟩
      · intro q hq
        rw [hframe3 q (by omega), hframe2 q (by omega), hframe1 q hq]
      · exact hperm3.trans (hperm2.trans hperm1)
      · have ep1 : (p + 1).toNat = p.toNat + 1 := by omega
        rw [ep1] at hchain2
        have hsplitS := slice_split out2 low.toNat p.toNat high.toNat
          (by omega) (by omega) (by omega)
        have hSL : (out2.take (p.toNat + 1)).drop low.toNat
            = (out1.take (p.toNat + 1)).drop low.toNat :=
          slice_congr out1 out2 low.toNat (p.toNat + 1) hlen3
            (fun q hq1 hq2 => hframe3 q (Or.inl (by omega)))
        rw [hsplitS, List.chain'_append]
        refine ⟨by rw [hSL]; exact hchain1, hchain2, ?_⟩
        intro x hx y hy
        have hxmem : x ∈ (out2.take (p.toNat + 1)).drop low.toNat :=
          List.mem_of_mem_getLast? hx
        rw [hSL] at hxmem
        have hpermL : ((out1.take (p.toNat + 1)).drop low.toNat).Perm
            ((arr1.take (p.toNat + 1)).drop low.toNat) :=
          slice_perm_of_frame arr1 out1 low.toNat (p.toNat + 1) hlen2 hperm2
            (by omega) (fun q hq => hframe2 q (by omega))
        have hxmem1 : x ∈ (arr1.take (p.toNat + 1)).drop low.toNat :=
          hpermL.subset hxmem
        obtain ⟨qx, hqx1, hqx2, hqx3, hqx4⟩ :=
          mem_slice arr1 low.toNat (p.toNat + 1) x hxmem1
        have hxpiv : c x (arr.getD (((low + high) / 2).toNat) default) ≤ 0 := by
          have h5 := hL1 (qx : Int) (by omega) (by omega)
          rw [Int.toNat_ofNat] at h5
          rw [← hqx4] at h5
          omega
        have hymem : y ∈ (out2.take (high.toNat + 1)).drop (p.toNat + 1) :=
          List.mem_of_mem_head? hy
        have hpermR : ((out2.take (high.toNat + 1)).drop (p.toNat + 1)).Perm
            ((out1.take (high.toNat + 1)).drop (p.toNat + 1)) :=
          slice_perm_of_frame out1 out2 (p.toNat + 1) (high.toNat + 1) hlen3
            hperm3 (by omega) (fun q hq => hframe3 q (by omega))
        have hSR1 : (out1.take (high.toNat + 1)).drop (p.toNat + 1)
            = (arr1.take (high.toNat + 1)).drop (p.toNat + 1) :=
          slice_congr arr1 out1 (p.toNat + 1) (high.toNat + 1) hlen2
            (fun q hq1 hq2 => hframe2 q (Or.inr (by omega)))
        have hymem1 : y ∈ (arr1.take (high.toNat + 1)).drop (p.toNat + 1) := by
          have hm := hpermR.subset hymem
          rw [hSR1] at hm
          exact hm
        obtain ⟨qy, hqy1, hqy2, hqy3, hqy4⟩ :=
          mem_slice arr1 (p.toNat + 1) (high.toNat + 1) y hymem1
        have hypiv : c (arr.getD (((low + high) / 2).toNat) default) y ≤ 0 := by
          have h5 := hR1 (qy : Int) (by omega) (by omega)
          rw [Int.toNat_ofNat] at h5
          rw [← hqy4] at h5
          exact hc.le_of_not_lt h5
        exact hc.trans x _ y hxpiv hypiv
    · have heq : low = high := by omega
      rw [Sorting.qsortAux, if_neg hlh]
      refine ⟨arr, rfl, rfl, fun q _ => rfl, List.Perm.refl _, ?_⟩
      apply chain'_of_short
      rw [List.length_drop, List.length_take]
      omega

theorem quickSort_correct {α : Type} [Inhabited α] {c : α → α → Int}
    (hc : LawfulCmp c) (arr : List α) :
    ∃ out, Sorting.quickSort c arr = some out
      ∧ Sorting.isSorted c out = true ∧ out.Perm arr := by
  rw [Sorting.quickSort]
  by_cases h : arr.length ≤ 1
  · rw [if_pos h]
    refine ⟨arr, rfl, ?_, List.Perm.refl _⟩
    match arr, h with
    | [], _ => rfl
    | [x], _ => rfl
  · rw [if_neg h]
    obtain ⟨out, heq, hlen, hframe, hperm, hchain⟩ :=
      qsortAux_spec hc (arr.length + 1) arr 0 ((arr.length : Int) - 1)
        (by omega) (by omega) (by omega) (by omega)
    refine ⟨out, heq, ?_, hperm⟩
    rw [isSorted_iff_chain]
    have e1 : ((arr.length : Int) - 1).toNat + 1 = arr.length := by omega
    have e2 : (0 : Int).toNat = 0 := rfl
    rw [e1, e2, List.drop_zero, List.take_of_length_le (by omega)] at hchain
    exact hchain

theorem sort_correct {α : Type} [Inhabited α] {c : α → α → Int}
    (hc : LawfulCmp c) (arr : List α) :
    ∃ out, Sorting.sort c arr = some out
      ∧ Sorting.isSorted c out = true ∧ out.Perm arr := by
  rw [Sorting.sort]
  by_cases h : arr.length ≤ 10
  · rw [if_pos h]
    exact ⟨Sorting.insertionSort c arr, rfl,
      (insertionSort_correct hc arr).1, (insertionSort_correct hc arr).2⟩
  · rw [if_neg h]
    exact quickSort_correct hc arr

/-- Claim C2: for every finite input and every comparator satisfying the
comparator contract, each sorting function — quickSort, mergeSort, heapSort,
insertionSort, and the dispatcher sort — returns an output satisfying
`isSorted` under that comparator which is a permutation of the input.
quickSort and sort are stated through the fuel model, which the proof shows
always succeeds under a lawful comparator. -/
theorem c2_sorting_functions_sorted_perm {α : Type} [Inhabited α]
    {c : α → α → Int} (hc : LawfulCmp c) (arr : List α) :
    (Sorting.isSorted c (Sorting.heapSort c arr) = true
      ∧ (Sorting.heapSort c arr).Perm arr)
    ∧ (Sorting.isSorted c (Sorting.mergeSort c arr) = true
      ∧ (Sorting.mergeSort c arr).Perm arr)
    ∧ (Sorting.isSorted c (Sorting.insertionSort c arr) = true
      ∧ (Sorting.insertionSort c arr).Perm arr)
    ∧ (∃ out, Sorting.quickSort c arr = some out
      ∧ Sorting.isSorted c out = true ∧ out.Perm arr)
    ∧ (∃ out, Sorting.sort c arr = some out
      ∧ Sorting.isSorted c out = true ∧ out.Perm arr) :=
  ⟨heapSort_correct hc arr, mergeSort_correct hc arr,
    insertionSort_correct hc arr, quickSort_correct hc arr,
    sort_correct hc arr⟩

/-- C2 witness: the claim instantiated at the default numeric comparator and
the concrete input `[3, 1, 2]`. -/
theorem c2_sorting_functions_sorted_perm_witness :
    (Sorting.isSorted icmp (Sorting.heapSort icmp [3, 1, 2]) = true
      ∧ (Sorting.heapSort icmp [3, 1, 2]).Perm [3, 1, 2])
    ∧ (Sorting.isSorted icmp (Sorting.mergeSort icmp [3, 1, 2]) = true
      ∧ (Sorting.mergeSort icmp [3, 1, 2]).Perm [3, 1, 2])
    ∧ (Sorting.isSorted icmp (Sorting.insertionSort icmp [3, 1, 2]) = true
      ∧ (Sorting.insertionSort icmp [3, 1, 2]).Perm [3, 1, 2])
    ∧ (∃ out, Sorting.quickSort icmp [3, 1, 2] = some out
      ∧ Sorting.isSorted icmp out = true ∧ out.Perm [3, 1, 2])
    ∧ (∃ out, Sorting.sort icmp [3, 1, 2] = some out
      ∧ Sorting.isSorted icmp out = true ∧ out.Perm [3, 1, 2]) :=
  c2_sorting_functions_sorted_perm icmp_lawful [3, 1, 2]

/-! ## countingSort correctness (towards claim C5) -/

/-- Partial sums of a bucket function: `bsum f m = f 0 + ... + f (m-1)`. -/
def bsum (f : Nat → Nat) : Nat → Nat
  | 0 => 0
  | v + 1 => bsum f v + f v

theorem bsum_congr (f g : Nat → Nat) (m : Nat) (h : ∀ u, u < m → f u = g u) :
    bsum f m = bsum g m := by
  induction m with
  | zero => rfl
  | succ m ih =>
    rw [bsum, bsum, ih (fun u hu => h u (by omega)), h m (by omega)]

theorem bsum_mono (f : Nat → Nat) {m m' : Nat} (h : m ≤ m') :
    bsum f m ≤ bsum f m' := by
  induction m' with
  | zero =>
    have he : m = 0 := by omega
    subst he
    exact Nat.le_refl _
  | succ m' ih =>
    by_cases he : m = m' + 1
    · subst he
      exact Nat.le_refl _
    · have := ih (by omega)
      rw [bsum]
      omega

theorem bsum_add (f g : Nat → Nat) (m : Nat) :
    bsum (fun u => f u + g u) m = bsum f m + bsum g m := by
  induction m with
  | zero => rfl
  | succ m ih => rw [bsum, bsum, bsum, ih]; omega

theorem bsum_indicator (w A m : Nat) :
    bsum (fun v => if v = w then A else 0) m = if w < m then A else 0 := by
  induction m with
  | zero => rfl
  | succ m ih =>
    rw [bsum, ih]
    by_cases h1 : w < m
    · rw [if_pos h1, if_neg (show ¬ m = w by omega),
        if_pos (show w < m + 1 by omega)]
      omega
    · by_cases h2 : w = m
      · rw [if_neg h1, if_pos (show m = w by omega),
        if_pos (show w < m + 1 by omega)]
        omega
      · rw [if_neg h1, if_neg (show ¬ m = w by omega),
        if_neg (show ¬ w < m + 1 by omega)]

theorem bsum_shift (f : Nat → Nat) (m : Nat) :
    bsum f (m + 1) = f 0 + bsum (fun u => f (u + 1)) m := by
  induction m with
  | zero => rw [bsum, bsum, bsum]; omega
  | succ m ih => rw [bsum, ih, bsum]; omega

/-- Occurrences of bucket `v` in a list of integers. -/
def occB (l : List Int) (v : Nat) : Nat :=
  l.countP (fun x => decide (x.toNat = v))

theorem occB_nil (v : Nat) : occB [] v = 0 := rfl

theorem occB_cons (x : Int) (l : List Int) (v : Nat) :
    occB (x :: l) v = occB l v + (if x.toNat = v then 1 else 0) := by
  rw [occB, occB, List.countP_cons]
  by_cases h : x.toNat = v
  · rw [if_pos h, if_pos (by simpa using h)]
  · rw [if_neg h, if_neg (by simpa using h)]

theorem getD_set_self_d {α : Type} (l : List α) (i : Nat) (a d : α)
    (h : i < l.length) : (l.set i a).getD i d = a := by
  rw [List.getD_eq_getElem?_getD, List.getElem?_set_self h]
  rfl

theorem countOccLoop_length : ∀ (l : List Int) (cnt : List Nat),
    (Sorting.countOccLoop l cnt).length = cnt.length
  | [], cnt => rfl
  | x :: rest, cnt => by
    rw [Sorting.countOccLoop, countOccLoop_length rest _, List.length_set]

theorem countOccLoop_getD : ∀ (l : List Int) (cnt : List Nat) (v : Nat),
    (∀ x ∈ l, x.toNat < cnt.length) →
    (Sorting.countOccLoop l cnt).getD v 0 = cnt.getD v 0 + occB l v
  | [], cnt, v => fun _ => by
    rw [Sorting.countOccLoop, occB_nil]
    omega
  | x :: rest, cnt, v => fun hb => by
    rw [Sorting.countOccLoop,
      countOccLoop_getD rest _ v
        (fun y hy => by rw [List.length_set]; exact hb y (by simp [hy])),
      occB_cons]
    by_cases h : x.toNat = v
    · rw [if_pos h, ← h, getD_set_self_d cnt x.toNat _ 0 (hb x (by simp))]
      omega
    · rw [if_neg h, getD_set_ne_d cnt _ 0 h]
      omega

/-- Sum of the counter cells over the index interval `[k, v]`. -/
def sumRange (cnt : List Nat) (k v : Nat) : Nat :=
  bsum (fun u => cnt.getD (k + u) 0) (v + 1 - k)

theorem sumRange_self (cnt : List Nat) (k : Nat) :
    sumRange cnt k k = cnt.getD k 0 := by
  have e : k + 1 - k = 1 := by omega
  rw [sumRange, e, bsum, bsum, Nat.add_zero]
  omega

theorem sumRange_head (cnt : List Nat) (k v : Nat) (h : k ≤ v) :
    sumRange cnt k v = cnt.getD k 0 + sumRange cnt (k + 1) v := by
  have e1 : v + 1 - k = (v - k) + 1 := by omega
  have e2 : v + 1 - (k + 1) = v - k := by omega
  rw [sumRange, sumRange, e1, e2, bsum_shift, Nat.add_zero]
  congr 1
  apply bsum_congr
  intro u hu
  congr 1
  omega

theorem sumRange_set_outside (cnt : List Nat) (i k v : Nat) (a : Nat)
    (h : i < k ∨ v < i) :
    sumRange (cnt.set i a) k v = sumRange cnt k v := by
  rw [sumRange, sumRange]
  apply bsum_congr
  intro u hu
  exact getD_set_ne_d cnt a 0 (by omega)

theorem cumLoop_length (cnt : List Nat) (i : Nat) :
    (Sorting.cumLoop cnt i).length = cnt.length := by
  rw [Sorting.cumLoop]
  split
  · rw [cumLoop_length, List.length_set]
  · rfl
termination_by cnt.length - i
decreasing_by simp only [List.length_set]; omega

theorem cumLoop_getD (cnt : List Nat) (i : Nat) (hi : 1 ≤ i) (v : Nat)
    (hv : v < cnt.length) :
    (Sorting.cumLoop cnt i).getD v 0 =
      if v < i then cnt.getD v 0 else sumRange cnt (i - 1) v := by
  rw [Sorting.cumLoop]
  split
  · rename_i h
    rw [cumLoop_getD _ (i + 1) (by omega) v (by rw [List.length_set]; exact hv)]
    by_cases hvi : v < i
    · rw [if_pos (by omega : v < i + 1), if_pos hvi,
        getD_set_ne_d cnt _ 0 (by omega)]
    · by_cases hveq : v = i
      · subst hveq
        rw [if_pos (by omega : v < v + 1), if_neg hvi,
          getD_set_self_d cnt v _ 0 h,
          sumRange_head cnt (v - 1) v (by omega)]
        have e : v - 1 + 1 = v := by omega
        rw [e, sumRange_self]
        omega
      · rw [if_neg (by omega : ¬ v < i + 1), if_neg hvi,
          Nat.add_sub_cancel,
          sumRange_head _ i v (by omega),
          sumRange_set_outside cnt i (i + 1) v _ (by omega),
          getD_set_self_d cnt i _ 0 h,
          sumRange_head cnt (i - 1) v (by omega)]
        have e : i - 1 + 1 = i := by omega
        rw [e, sumRange_head cnt i v (by omega)]
        omega
  · rename_i h
    rw [if_pos (by omega)]
termination_by cnt.length - i
decreasing_by simp only [List.length_set]; omega

theorem placeLoop_length2 : ∀ (todo : List Int) (cnt : List Nat)
    (res : List (Option Int)),
    (Sorting.placeLoop todo cnt res).2.length = res.length
  | [], _, _ => rfl
  | x :: rest, cnt, res => by
    rw [Sorting.placeLoop, placeLoop_length2 rest _ _, List.length_set]

/-- The placement loop invariant: with counters sitting at
`bsum f v + (occurrences of v still to place)`, and every block's already
placed tail filled in, the final array has every position of block `v`
holding `some v`. -/
theorem placeLoop_invariant (f : Nat → Nat) (L : Nat) :
    ∀ (todo : List Int) (cnt : List Nat) (res : List (Option Int)),
    cnt.length = L →
    res.length = bsum f L →
    (∀ x ∈ todo, 0 ≤ x ∧ x.toNat < L) →
    (∀ v, v < L → cnt.getD v 0 = bsum f v + occB todo v) →
    (∀ v, v < L → occB todo v ≤ f v) →
    (∀ v, v < L → ∀ p, cnt.getD v 0 ≤ p → p < bsum f (v + 1) →
      res.getD p none = some ((v : Int))) →
    ∀ v, v < L → ∀ p, bsum f v ≤ p → p < bsum f (v + 1) →
      (Sorting.placeLoop todo cnt res).2.getD p none = some ((v : Int)) := by
  intro todo
  induction todo with
  | nil =>
    intro cnt res hcl hrl hxs hcnt hbound hblock v hv p hp1 hp2
    rw [Sorting.placeLoop]
    exact hblock v hv p (by rw [hcnt v hv, occB_nil]; omega) hp2
  | cons x rest ih =>
    intro cnt res hcl hrl hxs hcnt hbound hblock v hv p hp1 hp2
    rw [Sorting.placeLoop]
    have hx := hxs x (by simp)
    have hcv := hcnt x.toNat hx.2
    have hocc : occB (x :: rest) x.toNat = occB rest x.toNat + 1 := by
      rw [occB_cons, if_pos rfl]
    have hbw := hbound x.toNat hx.2
    have hmono : bsum f (x.toNat + 1) ≤ bsum f L := bsum_mono f (by omega)
    have hS : bsum f (x.toNat + 1) = bsum f x.toNat + f x.toNat := rfl
    refine ih (cnt.set x.toNat (cnt.getD x.toNat 0 - 1))
      (res.set (cnt.getD x.toNat 0 - 1) (some x))
      (by rw [List.length_set]; exact hcl)
      (by rw [List.length_set]; exact hrl)
      (fun y hy => hxs y (by simp [hy]))
      ?_ ?_ ?_ v hv p hp1 hp2
    · intro u hu
      by_cases huw : u = x.toNat
      · subst huw
        rw [getD_set_self_d cnt x.toNat _ 0 (by omega)]
        omega
      · rw [getD_set_ne_d cnt _ 0 (fun he => huw he.symm),
          hcnt u hu, occB_cons, if_neg (fun he => huw he.symm)]
        omega
    · intro u hu
      have hb2 := hbound u hu
      rw [occB_cons] at hb2
      omega
    · intro u hu q hq1 hq2
      by_cases huw : u = x.toNat
      · subst huw
        rw [getD_set_self_d cnt x.toNat _ 0 (by omega)] at hq1
        by_cases hqP : q = cnt.getD x.toNat 0 - 1
        · subst hqP
          rw [getD_set_self_d res _ (some x) none (by omega),
            Int.toNat_of_nonneg hx.1]
        · rw [getD_set_ne_d res (some x) none (fun he => hqP he.symm)]
          exact hblock x.toNat hu q (by omega) hq2
      · rw [getD_set_ne_d cnt _ 0 (fun he => huw he.symm)] at hq1
        have hcu := hcnt u hu
        have hPne : cnt.getD x.toNat 0 - 1 ≠ q := by
          have hmono2 : bsum f (x.toNat + 1) ≤ bsum f u
              ∨ bsum f (u + 1) ≤ bsum f x.toNat := by
            by_cases hlt : x.toNat < u
            · exact Or.inl (bsum_mono f (by omega))
            · exact Or.inr (bsum_mono f (by omega))
          omega
        rw [getD_set_ne_d res (some x) none hPne]
        exact hblock u hu q hq1 hq2

/-- The ascending bucket expansion `[0,…,0, 1,…,1, …]` with `f v` copies of
`v`, for buckets `0 ≤ v < L`. -/
def bucketsList (f : Nat → Nat) (L : Nat) : List Int :=
  ((List.range L).map (fun v => List.replicate (f v) ((v : Int)))).flatten

theorem bucketsList_succ (f : Nat → Nat) (K : Nat) :
    bucketsList f (K + 1)
      = bucketsList f K ++ List.replicate (f K) ((K : Int)) := by
  rw [bucketsList, bucketsList, List.range_succ, List.map_append,
    List.flatten_append]
  simp

theorem bucketsList_length (f : Nat → Nat) :
    ∀ L, (bucketsList f L).length = bsum f L
  | 0 => rfl
  | K + 1 => by
    rw [bucketsList_succ, List.length_append, bucketsList_length f K,
      List.length_replicate, bsum]

theorem bucketsList_getD (f : Nat → Nat) :
    ∀ (L v p : Nat) (d : Int), v < L → bsum f v ≤ p → p < bsum f (v + 1) →
    (bucketsList f L).getD p d = (v : Int)
  | 0, v, p, d => fun hv _ _ => absurd hv (by omega)
  | K + 1, v, p, d => fun hv h1 h2 => by
    rw [bucketsList_succ]
    by_cases hvK : v < K
    · rw [List.getD_append _ _ d p
        (by rw [bucketsList_length]
            exact lt_of_lt_of_le h2 (bsum_mono f (by omega)))]
      exact bucketsList_getD f K v p d hvK h1 h2
    · have hveq : v = K := by omega
      subst hveq
      rw [List.getD_append_right _ _ d p (by rw [bucketsList_length]; exact h1)]
      rw [bucketsList_length]
      rw [List.getD_eq_getElem?_getD, List.getElem?_replicate,
        if_pos (by
          have e : bsum f (v + 1) = bsum f v + f v := rfl
          omega)]
      rfl

theorem bsum_block_find (f : Nat → Nat) :
    ∀ (L p : Nat), p < bsum f L →
      ∃ v, v < L ∧ bsum f v ≤ p ∧ p < bsum f (v + 1)
  | 0, p => fun hp => absurd hp (by rw [bsum]; omega)
  | K + 1, p => fun hp => by
    by_cases hpK : p < bsum f K
    · obtain ⟨v, hv1, hv2, hv3⟩ := bsum_block_find f K p hpK
      exact ⟨v, by omega, hv2, hv3⟩
    · exact ⟨K, by omega, by omega, hp⟩

theorem mem_bucketsList (f : Nat → Nat) :
    ∀ (L : Nat) (x : Int), x ∈ bucketsList f L → ∃ v, v < L ∧ x = (v : Int)
  | 0, x => fun hx => absurd hx (by rw [bucketsList]; simp)
  | K + 1, x => fun hx => by
    rw [bucketsList_succ, List.mem_append] at hx
    rcases hx with hx | hx
    · obtain ⟨v, hv1, hv2⟩ := mem_bucketsList f K x hx
      exact ⟨v, by omega, hv2⟩
    · exact ⟨K, by omega, List.eq_of_mem_replicate hx⟩

theorem bucketsList_pairwise (f : Nat → Nat) :
    ∀ L, (bucketsList f L).Pairwise (fun a b : Int => a ≤ b)
  | 0 => List.Pairwise.nil
  | K + 1 => by
    rw [bucketsList_succ, List.pairwise_append]
    refine ⟨bucketsList_pairwise f K, ?_, ?_⟩
    · rw [List.pairwise_replicate]
      right
      exact le_refl _
    · intro x hx y hy
      obtain ⟨v, hv1, hv2⟩ := mem_bucketsList f K x hx
      have hy2 := List.eq_of_mem_replicate hy
      subst hv2
      subst hy2
      exact_mod_cast Nat.le_of_lt hv1

theorem bucketsList_congr (f g : Nat → Nat) :
    ∀ L, (∀ v, v < L → f v = g v) → bucketsList f L = bucketsList g L
  | 0, _ => rfl
  | K + 1, h => by
    rw [bucketsList_succ, bucketsList_succ,
      bucketsList_congr f g K (fun v hv => h v (by omega)), h K (by omega)]

theorem bsum_zero_fn : ∀ m, bsum (fun _ => 0) m = 0
  | 0 => rfl
  | m + 1 => by rw [bsum, bsum_zero_fn m]

theorem bsum_occB : ∀ (l : List Int) (L : Nat), (∀ x ∈ l, x.toNat < L) →
    bsum (fun v => occB l v) L = l.length
  | [], L => fun _ => by
    rw [bsum_congr _ (fun _ => 0) L (fun u _ => occB_nil u), bsum_zero_fn]
    rfl
  | x :: rest, L => fun hb => by
    rw [bsum_congr _
        (fun v => occB rest v + (if v = x.toNat then 1 else 0)) L
        (fun u _ => by
          show occB (x :: rest) u = occB rest u + (if u = x.toNat then 1 else 0)
          rw [occB_cons]
          by_cases h : x.toNat = u
          · rw [if_pos h, if_pos h.symm]
          · rw [if_neg h, if_neg (fun he => h he.symm)]),
      bsum_add, bsum_indicator, if_pos (hb x (by simp)),
      bsum_occB rest L (fun y hy => hb y (by simp [hy]))]
    simp

theorem perm_buckets : ∀ (L : Nat) (l : List Int),
    (∀ x ∈ l, 0 ≤ x ∧ x.toNat < L) → l.Perm (bucketsList (occB l) L)
  | 0, l => fun hb => by
    have hnil : l = [] := by
      rw [List.eq_nil_iff_forall_not_mem]
      intro a ha
      have := hb a ha
      omega
    subst hnil
    exact List.Perm.refl _
  | K + 1, l => fun hb => by
    have hsplit := List.filter_append_perm
      (fun x : Int => !decide (x.toNat = K)) l
    set l1 := l.filter (fun x : Int => !decide (x.toNat = K)) with hl1
    have hl2 : l.filter (fun x : Int => !!decide (x.toNat = K))
        = l.filter (fun x : Int => decide (x.toNat = K)) := by
      apply List.filter_congr
      intro x _
      rw [Bool.not_not]
    rw [hl2] at hsplit
    set l2 := l.filter (fun x : Int => decide (x.toNat = K)) with hl2d
    have hb1 : ∀ x ∈ l1, 0 ≤ x ∧ x.toNat < K := by
      intro x hx
      rw [hl1, List.mem_filter] at hx
      have h1 := hb x hx.1
      have h2 := hx.2
      simp only [Bool.not_eq_true', decide_eq_false_iff_not] at h2
      omega
    have hih := perm_buckets K l1 hb1
    have hocc1 : ∀ v, v < K → occB l1 v = occB l v := by
      intro v hv
      rw [hl1, occB, List.countP_filter]
      apply List.countP_congr
      intro x _
      constructor
      · intro hx
        simp only [Bool.and_eq_true, decide_eq_true_eq] at hx
        simp only [decide_eq_true_eq]
        exact hx.1
      · intro hx
        simp only [decide_eq_true_eq] at hx
        simp only [Bool.and_eq_true, decide_eq_true_eq, Bool.not_eq_true',
          decide_eq_false_iff_not]
        exact ⟨hx, by omega⟩
    have hrepl : l2 = List.replicate (occB l K) ((K : Int)) := by
      rw [List.eq_replicate_iff]
      constructor
      · rw [hl2d, occB, List.countP_eq_length_filter]
      · intro b hbm
        rw [hl2d, List.mem_filter] at hbm
        have h1 := (hb b hbm.1).1
        have h2 := hbm.2
        simp only [decide_eq_true_eq] at h2
        omega
    refine hsplit.symm.trans ?_
    rw [hrepl]
    refine (List.Perm.append_right _ ?_).trans
      (List.Perm.of_eq (bucketsList_succ (occB l) K).symm)
    exact hih.trans (List.Perm.of_eq (bucketsList_congr _ _ K hocc1))

theorem foldl_max_init : ∀ (l : List Int) (a : Int),
    a ≤ l.foldl (fun m v => Max.max m v) a
  | [], a => le_refl a
  | b :: t, a => le_trans (le_max_left a b) (foldl_max_init t (Max.max a b))

theorem foldl_max_mem : ∀ (l : List Int) (a x : Int), x ∈ l →
    x ≤ l.foldl (fun m v => Max.max m v) a
  | [], _, x => fun hx => absurd hx (List.not_mem_nil x)
  | b :: t, a, x => fun hx => by
    rcases List.mem_cons.mp hx with hxb | hxt
    · subst hxb
      exact le_trans (le_max_right a x) (foldl_max_init t (Max.max a x))
    · exact foldl_max_mem t (Max.max a b) x hxt

theorem replicate_getD_zero (L v : Nat) :
    (List.replicate L (0 : Nat)).getD v 0 = 0 := by
  rw [List.getD_eq_getElem?_getD, List.getElem?_replicate]
  by_cases h : v < L
  · rw [if_pos h]
    rfl
  · rw [if_neg h]
    rfl

theorem countingSort_eq_main (arr : List Int)
    (h1 : ¬ arr.length ≤ 1)
    (h2 : ¬ (arr.any (fun n => decide (n < 0)) = true)) :
    Sorting.countingSort arr = Except.ok
      (Sorting.placeLoop arr.reverse
        (Sorting.cumLoop
          (Sorting.countOccLoop arr
            (List.replicate
              ((arr.foldl (fun m v => Max.max m v) 0).toNat + 1) 0)) 1)
        (List.replicate arr.length none)).2 := by
  rw [Sorting.countingSort, if_neg h1, if_neg h2]

/-- countingSort on non-negative input: succeeds with (the `some`-image of)
a sorted permutation of the input. -/
theorem countingSort_ok (arr : List Int) (hnn : ∀ x ∈ arr, 0 ≤ x) :
    ∃ sorted : List Int,
      Sorting.countingSort arr = Except.ok (sorted.map some)
      ∧ Sorting.isSorted icmp sorted = true ∧ sorted.Perm arr := by
  by_cases hlen : arr.length ≤ 1
  · refine ⟨arr, ?_, ?_, List.Perm.refl arr⟩
    · rw [Sorting.countingSort, if_pos hlen]
    · match arr, hlen with
      | [], _ => rfl
      | [x], _ => rfl
  · have h2 : ¬ (arr.any (fun n => decide (n < 0)) = true) := by
      rw [List.any_eq_true]
      rintro ⟨x, hx, hd⟩
      rw [decide_eq_true_eq] at hd
      have := hnn x hx
      omega
    set f := occB arr with hf
    set L := (arr.foldl (fun m v => Max.max m v) 0).toNat + 1 with hL
    have hbound : ∀ x ∈ arr, x.toNat < L := by
      intro x hx
      have h3 := foldl_max_mem arr 0 x hx
      omega
    have hbound2 : ∀ x ∈ arr, 0 ≤ x ∧ x.toNat < L :=
      fun x hx => ⟨hnn x hx, hbound x hx⟩
    set count := Sorting.countOccLoop arr (List.replicate L 0) with hcount
    have hclen : count.length = L := by
      rw [hcount, countOccLoop_length, List.length_replicate]
    have hcget : ∀ v, v < L → count.getD v 0 = f v := by
      intro v hv
      rw [hcount, countOccLoop_getD arr _ v
        (by rw [List.length_replicate]; exact hbound), replicate_getD_zero,
        hf]
      omega
    set count2 := Sorting.cumLoop count 1 with hcount2
    have hc2get : ∀ v, v < L → count2.getD v 0 = bsum f (v + 1) := by
      intro v hv
      rw [hcount2, cumLoop_getD count 1 (le_refl 1) v (by omega)]
      by_cases hv0 : v < 1
      · have hv0' : v = 0 := by omega
        subst hv0'
        rw [if_pos (by omega), hcget 0 hv]
        show f 0 = bsum f 0 + f 0
        rw [bsum]
        omega
      · rw [if_neg hv0]
        show sumRange count 0 v = bsum f (v + 1)
        rw [sumRange, Nat.sub_zero]
        apply bsum_congr
        intro u hu
        rw [Nat.zero_add]
        exact hcget u (by omega)
    have hc2len : count2.length = L := by
      rw [hcount2, cumLoop_length, hclen]
    have htotal : bsum f L = arr.length := bsum_occB arr L hbound
    have hres0 : (List.replicate arr.length (none : Option Int)).length
        = bsum f L := by
      rw [List.length_replicate, htotal]
    have hinv := placeLoop_invariant f L arr.reverse count2
      (List.replicate arr.length none) hc2len hres0
      (fun x hx => hbound2 x (List.mem_reverse.mp hx))
      (by
        intro v hv
        rw [hc2get v hv, occB, List.countP_reverse]
        show bsum f (v + 1) = bsum f v + f v
        rfl)
      (by
        intro v hv
        rw [occB, List.countP_reverse]
        exact le_refl _)
      (by
        intro v hv p hp1 hp2
        rw [hc2get v hv] at hp1
        omega)
    set resF := (Sorting.placeLoop arr.reverse count2
      (List.replicate arr.length none)).2 with hresF
    have hresFlen : resF.length = arr.length := by
      rw [hresF, placeLoop_length2, List.length_replicate]
    refine ⟨bucketsList f L, ?_, ?_, ?_⟩
    · rw [countingSort_eq_main arr hlen h2]
      congr 1
      rw [← hresF]
      apply List.ext_getElem
      · rw [hresFlen, List.length_map, bucketsList_length, htotal]
      · intro i hi1 hi2
        obtain ⟨v, hv1, hv2, hv3⟩ := bsum_block_find f L i
          (by rw [hresFlen] at hi1; omega)
        have hleft : resF[i] = some ((v : Int)) := by
          rw [← List.getD_eq_getElem resF none (by omega)]
          exact hinv v hv1 i hv2 hv3
        have hright : (bucketsList f L).map some = List.map some
            (bucketsList f L) := rfl
        rw [hleft, List.getElem_map]
        congr 1
        rw [← List.getD_eq_getElem (bucketsList f L) 0
          (by rw [bucketsList_length]; omega)]
        exact (bucketsList_getD f L v i 0 hv1 hv2 hv3).symm
    · rw [isSorted_iff_chain]
      apply List.Pairwise.chain'
      refine (bucketsList_pairwise f L).imp ?_
      intro a b hab
      show a - b ≤ 0
      omega
    · exact (perm_buckets L arr hbound2).symm

/-- Claim C5, counterexample: `countingSort([-1])` contains a negative
element yet does **not** raise — the length-≤-1 early return `[...arr]` runs
before the negative scan, so the singleton is returned as-is. -/
theorem c5_counterexample_negative_singleton :
    ((-1 : Int) < 0)
    ∧ Sorting.countingSort [(-1 : Int)] = Except.ok [some (-1)] :=
  ⟨by decide, rfl⟩

/-- Claim C5, amended: the domain-error is raised exactly for inputs of
length at least 2 containing a negative element (the upfront scan runs only
after the length-≤-1 early return), and every array of non-negative
integers yields, without error, the `some`-image of a sorted permutation of
the input. -/
theorem c5_countingsort_amended :
    (∀ arr : List Int, 2 ≤ arr.length → (∃ x ∈ arr, x < 0) →
      Sorting.countingSort arr =
        Except.error "Counting sort only works with non-negative integers")
    ∧ (∀ arr : List Int, (∀ x ∈ arr, 0 ≤ x) →
      ∃ sorted : List Int,
        Sorting.countingSort arr = Except.ok (sorted.map some)
        ∧ Sorting.isSorted icmp sorted = true ∧ sorted.Perm arr) := by
  constructor
  · intro arr hlen hneg
    rw [Sorting.countingSort, if_neg (by omega), if_pos ?_]
    rw [List.any_eq_true]
    obtain ⟨x, hx, hxlt⟩ := hneg
    exact ⟨x, hx, by rw [decide_eq_true_eq]; exact hxlt⟩
  · exact countingSort_ok

/-- C5 witness: the spec's own example `[5,2,-1,8,1]` raises, and the
non-negative input `[3,1,2]` sorts without error. -/
theorem c5_countingsort_amended_witness :
    Sorting.countingSort [5, 2, -1, 8, 1] =
      Except.error "Counting sort only works with non-negative integers"
    ∧ ∃ sorted : List Int,
      Sorting.countingSort [3, 1, 2] = Except.ok (sorted.map some)
      ∧ Sorting.isSorted icmp sorted = true ∧ sorted.Perm [3, 1, 2] :=
  ⟨c5_countingsort_amended.1 [5, 2, -1, 8, 1] (by decide)
      ⟨-1, by decide, by decide⟩,
    c5_countingsort_amended.2 [3, 1, 2] (by decide)⟩

/-! ## Search-algorithm correctness (towards claim C3) -/

theorem adjOK_eq_isSorted (c : Int → Int → Int) :
    ∀ l : List Int, Searching.adjOK c l = Sorting.isSorted c l
  | [] => rfl
  | [_] => rfl
  | a :: b :: t => by
    rw [Searching.adjOK, Sorting.isSorted, adjOK_eq_isSorted c (b :: t)]

theorem adjOK_getD_mono (arr : List Int)
    (hs : Searching.adjOK icmp arr = true) :
    ∀ {i j : Nat}, i ≤ j → j < arr.length → arr.getD i 0 ≤ arr.getD j 0 := by
  intro i j hij hj
  have hp : arr.Pairwise (fun a b => icmp a b ≤ 0) := by
    apply chain_to_pairwise icmp_lawful
    rw [← isSorted_iff_chain, ← adjOK_eq_isSorted]
    exact hs
  rcases Nat.lt_or_ge i j with hlt | hge
  · have := (List.pairwise_iff_getElem.mp hp) i j (by omega) hj hlt
    rw [List.getD_eq_getElem arr 0 (by omega), List.getD_eq_getElem arr 0 hj]
    simp only [icmp] at this
    omega
  · have he : i = j := by omega
    rw [he]

theorem getD_mem_self (arr : List Int) (i : Nat) (hi : i < arr.length) :
    arr.getD i 0 ∈ arr := by
  rw [List.getD_eq_getElem arr 0 hi]
  exact List.getElem_mem hi

theorem mem_getD_index (arr : List Int) (x : Int) (hx : x ∈ arr) :
    ∃ q : Nat, q < arr.length ∧ arr.getD q 0 = x := by
  rcases List.mem_iff_getElem.mp hx with ⟨q, hq, hval⟩
  exact ⟨q, hq, by rw [List.getD_eq_getElem arr 0 hq]; exact hval⟩

/-- Property of a successful search: the reported index holds the target. -/
def FoundOK (arr : List Int) (target : Int) (r : Searching.SearchResult) :
    Prop :=
  ∃ i : Nat, r.index = (i : Int) ∧ i < arr.length
    ∧ arr.getD i 0 = target ∧ r.element = some target

/-- Property of an unsuccessful search: index `-1`, absent element. -/
def AbsentOK (r : Searching.SearchResult) : Prop :=
  r.index = -1 ∧ r.element = none

/-- The midpoint loop on a sorted array, with every occurrence of the target
inside the current window, finds the target or correctly reports absence. -/
theorem binLoop_correct (arr : List Int) (target : Int)
    (hs : Searching.adjOK icmp arr = true) :
    ∀ (left right : Int) (comps : Nat),
    0 ≤ left → right < (arr.length : Int) →
    (∀ q : Nat, q < arr.length → arr.getD q 0 = target →
      left ≤ (q : Int) ∧ (q : Int) ≤ right) →
    (target ∈ arr →
      FoundOK arr target (Searching.binLoop icmp arr target left right comps))
    ∧ (target ∉ arr →
      AbsentOK (Searching.binLoop icmp arr target left right comps)) := by
  intro left right comps hl hr hwin
  rw [Searching.binLoop]
  split
  · rename_i hle
    have hmid1 : left ≤ left + (right - left) / 2 := by omega
    have hmid2 : left + (right - left) / 2 ≤ right := by omega
    have hread : Searching.readZ arr (left + (right - left) / 2)
        = some (arr.getD (left + (right - left) / 2).toNat 0) := by
      rw [Searching.readZ, if_pos (by omega)]
    dsimp only
    split
    rotate_right
    · rename_i hv
      rw [hread] at hv
      exact Option.noConfusion hv
    rename_i v hv
    rw [hread] at hv
    have hv' : v = arr.getD (left + (right - left) / 2).toNat 0 :=
      (Option.some.inj hv).symm
    subst hv'
    by_cases heq : icmp (arr.getD (left + (right - left) / 2).toNat 0) target = 0
    · rw [if_pos heq]
      have hvt : arr.getD (left + (right - left) / 2).toNat 0 = target := by
        simp only [icmp] at heq
        omega
      constructor
      · intro _
        refine ⟨(left + (right - left) / 2).toNat, ?_, by omega, hvt, ?_⟩
        · show left + (right - left) / 2
            = (((left + (right - left) / 2).toNat : Nat) : Int)
          omega
        · show some (arr.getD (left + (right - left) / 2).toNat 0)
            = some target
          rw [hvt]
      · intro habs
        exact absurd (hvt ▸ getD_mem_self arr _ (by omega)) habs
    · rw [if_neg heq]
      by_cases hlt : icmp (arr.getD (left + (right - left) / 2).toNat 0) target < 0
      · rw [if_pos hlt]
        apply binLoop_correct arr target hs (left + (right - left) / 2 + 1)
          right (comps + 1) (by omega) hr
        intro q hq hval
        have h1 := (hwin q hq hval).1
        have h2 := (hwin q hq hval).2
        refine ⟨?_, h2⟩
        by_contra hcon
        push_neg at hcon
        have hqm : q ≤ (left + (right - left) / 2).toNat := by omega
        have := adjOK_getD_mono arr hs hqm (by omega)
        simp only [icmp] at hlt
        omega
      · rw [if_neg hlt]
        apply binLoop_correct arr target hs left
          (left + (right - left) / 2 - 1) (comps + 1) hl (by omega)
        intro q hq hval
        have h1 := (hwin q hq hval).1
        have h2 := (hwin q hq hval).2
        refine ⟨h1, ?_⟩
        by_contra hcon
        push_neg at hcon
        have hqm : (left + (right - left) / 2).toNat ≤ q := by omega
        have := adjOK_getD_mono arr hs hqm hq
        simp only [icmp] at heq hlt
        omega
  · rename_i hle
    constructor
    · intro hmem
      exfalso
      obtain ⟨q, hq, hval⟩ := mem_getD_index arr target hmem
      have := hwin q hq hval
      omega
    · intro _
      exact ⟨rfl, rfl⟩
termination_by left right _ => (right + 1 - left).toNat
decreasing_by
  · omega
  · omega

theorem binarySearch_correct (arr : List Int) (target : Int)
    (hs : Searching.adjOK icmp arr = true) :
    ∃ r, Searching.binarySearch arr target icmp = Except.ok r
      ∧ (target ∈ arr → FoundOK arr target r)
      ∧ (target ∉ arr → AbsentOK r) := by
  rw [Searching.binarySearch, if_pos hs]
  exact ⟨_, rfl, binLoop_correct arr target hs 0 ((arr.length : Int) - 1) 0
    (by omega) (by omega) (fun q hq _ => by omega)⟩

/-- Block-finding loop of `jumpSearch`: `notFound` means every element is
below the target; `block` hands over a window whose right edge dominates
the target. -/
theorem jumpLoop1_spec (arr : List Int) (target : Int)
    (hs : Searching.adjOK icmp arr = true) (hn : 0 < arr.length) :
    ∀ (prev step comps : Nat),
    step = prev + Nat.sqrt arr.length →
    prev < arr.length →
    (prev = 0 ∨ (0 < prev ∧ arr.getD (prev - 1) 0 < target)) →
    (∀ res, Searching.jumpLoop1 icmp arr target prev step comps
        = Searching.JumpPhase1.notFound res → ∀ x ∈ arr, x < target)
    ∧ (∀ prev' step' comps',
        Searching.jumpLoop1 icmp arr target prev step comps
          = Searching.JumpPhase1.block prev' step' comps' →
        step' = prev' + Nat.sqrt arr.length
        ∧ prev' < arr.length
        ∧ (prev' = 0 ∨ (0 < prev' ∧ arr.getD (prev' - 1) 0 < target))
        ∧ target ≤ arr.getD (min step' arr.length - 1) 0) := by
  intro prev step comps hstep hprev hdisj
  have hsq : 1 ≤ Nat.sqrt arr.length := Nat.sqrt_pos.mpr hn
  have hst1 : 1 ≤ step := by omega
  have hminb : 1 ≤ min step arr.length := by omega
  have hread : Searching.readZ arr (((min step arr.length : Nat) : Int) - 1)
      = some (arr.getD (min step arr.length - 1) 0) := by
    rw [Searching.readZ, if_pos (by omega)]
    congr 1
    congr 1
    omega
  rw [Searching.jumpLoop1]
  dsimp only
  split
  · rename_i h
    rw [hread] at h
    have hvlt : arr.getD (min step arr.length - 1) 0 < target := by
      simp only [Searching.optLt, decide_eq_true_eq, icmp] at h
      omega
    split
    · rename_i hge
      constructor
      · intro res _ x hx
        obtain ⟨q, hq, hval⟩ := mem_getD_index arr x hx
        have hmin : min step arr.length = arr.length := by omega
        have := adjOK_getD_mono arr hs
          (show q ≤ arr.length - 1 by omega) (by omega)
        rw [hmin] at hvlt
        omega
      · intro prev' step' comps' heq
        exact Searching.JumpPhase1.noConfusion heq
    · rename_i hge
      apply jumpLoop1_spec arr target hs hn step (step + Nat.sqrt arr.length)
        (comps + 1) rfl (by omega)
      right
      refine ⟨by omega, ?_⟩
      have hmin : min step arr.length = step := by omega
      rw [hmin] at hvlt
      exact hvlt
  · rename_i h
    constructor
    · intro res heq
      exact Searching.JumpPhase1.noConfusion heq
    · intro prev' step' comps' heq
      injection heq with e1 e2 e3
      subst e1
      subst e2
      refine ⟨hstep, hprev, hdisj, ?_⟩
      rw [hread] at h
      simp only [Searching.optLt, decide_eq_true_eq, icmp] at h
      omega
termination_by prev step _ => arr.length - step
decreasing_by omega

/-- In-block scan of `jumpSearch`. -/
theorem jumpLoop2_spec (arr : List Int) (target : Int)
    (hs : Searching.adjOK icmp arr = true) (bound : Nat)
    (hb1 : 1 ≤ bound) (hbn : bound ≤ arr.length)
    (htop : target ≤ arr.getD (bound - 1) 0) :
    ∀ (prev comps : Nat), prev < bound →
    (∀ q : Nat, q < prev → arr.getD q 0 < target) →
    (target ∈ arr →
      FoundOK arr target (Searching.jumpLoop2 icmp arr target bound prev comps))
    ∧ (target ∉ arr →
      AbsentOK (Searching.jumpLoop2 icmp arr target bound prev comps)) := by
  intro prev comps hprev hlow
  have hread : Searching.readZ arr ((prev : Nat) : Int)
      = some (arr.getD prev 0) := by
    rw [Searching.readZ, if_pos (by omega), Int.toNat_ofNat]
  rw [Searching.jumpLoop2]
  dsimp only
  split
  · rename_i h
    rw [hread] at h
    have hvlt : arr.getD prev 0 < target := by
      simp only [Searching.optLt, decide_eq_true_eq, icmp] at h
      omega
    split
    · rename_i hexit
      constructor
      · intro hmem
        exfalso
        have he : bound - 1 = prev := by omega
        rw [he] at htop
        omega
      · intro _
        exact ⟨rfl, rfl⟩
    · rename_i hexit
      apply jumpLoop2_spec arr target hs bound hb1 hbn htop (prev + 1)
        (comps + 1) (by omega)
      intro q hq
      rcases Nat.lt_or_ge q prev with hlt | hge
      · exact hlow q hlt
      · have he : q = prev := by omega
        rw [he]
        exact hvlt
  · rename_i h
    rw [hread] at h
    have hvge : target ≤ arr.getD prev 0 := by
      simp only [Searching.optLt, decide_eq_true_eq, icmp] at h
      omega
    split
    · rename_i heq
      rw [hread] at heq
      have hveq : arr.getD prev 0 = target := by
        simp only [Searching.optEq, decide_eq_true_eq, icmp] at heq
        omega
      constructor
      · intro _
        refine ⟨prev, rfl, by omega, hveq, ?_⟩
        show Searching.readZ arr ((prev : Nat) : Int) = some target
        rw [hread, hveq]
      · intro habs
        exact absurd (hveq ▸ getD_mem_self arr prev (by omega)) habs
    · rename_i heq
      rw [hread] at heq
      have hvne : arr.getD prev 0 ≠ target := by
        simp only [Searching.optEq, decide_eq_true_eq, icmp] at heq
        omega
      constructor
      · intro hmem
        exfalso
        obtain ⟨q, hq, hval⟩ := mem_getD_index arr target hmem
        rcases Nat.lt_trichotomy q prev with hlt | he | hgt
        · have := hlow q hlt
          omega
        · rw [he] at hval
          exact hvne hval
        · have := adjOK_getD_mono arr hs (show prev ≤ q by omega) hq
          omega
      · intro _
        exact ⟨rfl, rfl⟩
termination_by prev _ => arr.length - prev
decreasing_by omega

theorem jumpSearch_correct (arr : List Int) (target : Int)
    (hs : Searching.adjOK icmp arr = true) :
    ∃ r, Searching.jumpSearch arr target icmp = Except.ok r
      ∧ (target ∈ arr → FoundOK arr target r)
      ∧ (target ∉ arr → AbsentOK r) := by
  rw [Searching.jumpSearch, if_pos hs]
  dsimp only
  rcases Nat.eq_zero_or_pos arr.length with hz | hn
  · have hnil : arr = [] := List.length_eq_zero.mp hz
    subst hnil
    refine ⟨⟨none, -1, 1⟩, ?_, fun h => absurd h (List.not_mem_nil target),
      fun _ => ⟨rfl, rfl⟩⟩
    rw [show Searching.jumpLoop1 icmp [] target 0 (Nat.sqrt [].length) 0
        = Searching.JumpPhase1.block 0 (Nat.sqrt [].length) 0 by
      rw [Searching.jumpLoop1]
      rw [dif_neg (by
        rw [Searching.readZ, if_neg (by simp)]
        simp [Searching.optLt])]]
    dsimp only
    rw [show Searching.jumpLoop2 icmp [] target
        (min (Nat.sqrt [].length) [].length) 0 0 = ⟨none, -1, 1⟩ by
      rw [Searching.jumpLoop2]
      rw [dif_neg (by
        rw [Searching.readZ, if_neg (by simp)]
        simp [Searching.optLt])]
      rw [if_neg (by
        rw [Searching.readZ, if_neg (by simp)]
        simp [Searching.optEq])]]
  · cases hJ : Searching.jumpLoop1 icmp arr target 0 (Nat.sqrt arr.length) 0 with
    | notFound comps =>
      dsimp only
      have hall := (jumpLoop1_spec arr target hs hn 0 (Nat.sqrt arr.length) 0
        (by omega) hn (Or.inl rfl)).1 comps hJ
      refine ⟨⟨none, -1, comps⟩, rfl, ?_, fun _ => ⟨rfl, rfl⟩⟩
      intro hmem
      exact absurd (hall target hmem) (by omega)
    | block prev step' comps =>
      dsimp only
      obtain ⟨hstep', hprev', hdisj', htop'⟩ :=
        (jumpLoop1_spec arr target hs hn 0 (Nat.sqrt arr.length) 0
          (by omega) hn (Or.inl rfl)).2 prev step' comps hJ
      have hsq : 1 ≤ Nat.sqrt arr.length := Nat.sqrt_pos.mpr hn
      have h2 := jumpLoop2_spec arr target hs (min step' arr.length)
        (by omega) (by omega) htop' prev comps (by omega)
        (by
          intro q hq
          rcases hdisj' with h0 | ⟨hp, hlt⟩
          · omega
          · exact lt_of_le_of_lt
              (adjOK_getD_mono arr hs (show q ≤ prev - 1 by omega)
                (by omega)) hlt)
      exact ⟨_, rfl, h2.1, h2.2⟩

theorem sliceJS_getD (arr : List Int) (a b k : Nat) (h1 : k < b - a)
    (h2 : a + k < arr.length) :
    (Searching.sliceJS arr a b).getD k 0 = arr.getD (a + k) 0 := by
  rw [Searching.sliceJS, List.getD_eq_getElem?_getD, List.getElem?_take,
    if_pos h1, List.getElem?_drop, List.getElem?_eq_getElem h2,
    List.getD_eq_getElem arr 0 h2]
  rfl

theorem sliceJS_length (arr : List Int) (a b : Nat) :
    (Searching.sliceJS arr a b).length = min (b - a) (arr.length - a) := by
  rw [Searching.sliceJS, List.length_take, List.length_drop]

theorem sliceJS_mem (arr : List Int) (a b : Nat) (x : Int)
    (hx : x ∈ Searching.sliceJS arr a b) : x ∈ arr :=
  List.mem_of_mem_drop (List.mem_of_mem_take hx)

theorem sliceJS_adjOK (arr : List Int)
    (hs : Searching.adjOK icmp arr = true) (a b : Nat) :
    Searching.adjOK icmp (Searching.sliceJS arr a b) = true := by
  rw [adjOK_eq_isSorted, isSorted_iff_chain] at hs ⊢
  exact (hs.drop a).take (b - a)

/-- The doubling loop: its result is a power of two whose probe fails the
continuation test, and (unless the loop never ran) whose half passed it. -/
theorem expLoop_spec (arr : List Int) (target : Int) :
    ∀ (k comps : Nat),
    (∃ K, (Searching.expLoop icmp arr target k comps).1 = 2 ^ K ∧ k ≤ K)
    ∧ ¬((Searching.expLoop icmp arr target k comps).1 < arr.length
        ∧ icmp (arr.getD (Searching.expLoop icmp arr target k comps).1 0)
            target ≤ 0)
    ∧ ((Searching.expLoop icmp arr target k comps).1 = 2 ^ k
      ∨ ((Searching.expLoop icmp arr target k comps).1 / 2 < arr.length
        ∧ icmp (arr.getD
            ((Searching.expLoop icmp arr target k comps).1 / 2) 0)
            target ≤ 0)) := by
  intro k comps
  rw [Searching.expLoop]
  split
  · rename_i h
    obtain ⟨⟨K, hK1, hK2⟩, hstop, hdisj⟩ :=
      expLoop_spec arr target (k + 1) (comps + 1)
    refine ⟨⟨K, hK1, by omega⟩, hstop, ?_⟩
    rcases hdisj with he | hr
    · right
      rw [he]
      have e2 : 2 ^ (k + 1) / 2 = 2 ^ k := by
        rw [Nat.pow_succ, Nat.mul_div_cancel]
        omega
      rw [e2]
      exact h
    · right
      exact hr
  · rename_i h
    exact ⟨⟨k, rfl, le_refl k⟩, h, Or.inl rfl⟩
termination_by k _ => arr.length - 2 ^ k
decreasing_by
  have : 2 ^ k < 2 ^ (k + 1) := Nat.pow_lt_pow_succ (by omega)
  omega

theorem exponentialSearch_correct (arr : List Int) (target : Int)
    (hs : Searching.adjOK icmp arr = true) :
    ∃ r, Searching.exponentialSearch arr target icmp = Except.ok r
      ∧ (target ∈ arr → FoundOK arr target r)
      ∧ (target ∉ arr → AbsentOK r) := by
  rw [Searching.exponentialSearch]
  by_cases hz : arr.length = 0
  · rw [if_pos hz]
    have hnil : arr = [] := List.length_eq_zero.mp hz
    subst hnil
    exact ⟨⟨none, -1, 0⟩, rfl,
      fun h => absurd h (List.not_mem_nil target), fun _ => ⟨rfl, rfl⟩⟩
  · rw [if_neg hz]
    by_cases h0 : icmp (arr.getD 0 0) target = 0
    · rw [if_pos h0]
      have h0' : arr.getD 0 0 = target := by
        simp only [icmp] at h0
        omega
      refine ⟨⟨some (arr.getD 0 0), 0, 1⟩, rfl, ?_, ?_⟩
      · intro _
        exact ⟨0, rfl, by omega, h0', by
          show some (arr.getD 0 0) = some target
          rw [h0']⟩
      · intro habs
        exact absurd (h0' ▸ getD_mem_self arr 0 (by omega)) habs
    · rw [if_neg h0]
      dsimp only
      obtain ⟨⟨K, hK1, _⟩, hstop, hdisj⟩ := expLoop_spec arr target 0 1
      set i := (Searching.expLoop icmp arr target 0 1).1 with hidef
      obtain ⟨r, hbin, hpres, habs⟩ := binarySearch_correct
        (Searching.sliceJS arr (i / 2) (min i arr.length)) target
        (sliceJS_adjOK arr hs _ _)
      rw [hbin]
      dsimp only
      have hslen : (Searching.sliceJS arr (i / 2) (min i arr.length)).length
          = min (min i arr.length - i / 2) (arr.length - i / 2) :=
        sliceJS_length arr _ _
      refine ⟨_, rfl, ?_, ?_⟩
      · intro hmem
        have h0' : arr.getD 0 0 ≠ target := by
          simp only [icmp] at h0
          omega
        obtain ⟨q0, hq0, hval0⟩ := mem_getD_index arr target hmem
        have hine : i ≠ 1 := by
          intro he1
          rw [he1] at hstop
          simp only [icmp] at hstop
          rcases Nat.lt_or_ge 1 arr.length with hgt | hle
          · have harr1 : target < arr.getD 1 0 := by omega
            rcases Nat.eq_zero_or_pos q0 with hq00 | hq0p
            · rw [hq00] at hval0
              exact h0' hval0
            · have := adjOK_getD_mono arr hs
                (show 1 ≤ q0 by omega) hq0
              omega
          · have hq00 : q0 = 0 := by omega
            rw [hq00] at hval0
            exact h0' hval0
        have hKpos : 1 ≤ K := by
          by_contra hcon
          push_neg at hcon
          have : K = 0 := by omega
          rw [this] at hK1
          exact hine (by rw [hK1]; rfl)
        have hige : 2 ≤ i := by
          rw [hK1]
          calc 2 = 2 ^ 1 := rfl
          _ ≤ 2 ^ K := Nat.pow_le_pow_right (by omega) hKpos
        have hhist : i / 2 < arr.length
            ∧ icmp (arr.getD (i / 2) 0) target ≤ 0 := by
          rcases hdisj with he | hr
          · exact absurd (by rw [he]; rfl) hine
          · exact hr
        have hhalf : arr.getD (i / 2) 0 ≤ target := by
          have := hhist.2
          simp only [icmp] at this
          omega
        -- an occurrence inside the slice window [i/2, min i n)
        have hwin : ∃ q : Nat, i / 2 ≤ q ∧ q < min i arr.length
            ∧ arr.getD q 0 = target := by
          rcases Nat.lt_or_ge q0 (i / 2) with hlt | hge
          · refine ⟨i / 2, le_refl _, ?_, ?_⟩
            · have : i / 2 < i := by omega
              omega
            · have h1 := adjOK_getD_mono arr hs (show q0 ≤ i / 2 by omega)
                hhist.1
              omega
          · refine ⟨q0, hge, ?_, hval0⟩
            rcases Nat.lt_or_ge q0 i with hlt2 | hge2
            · omega
            · exfalso
              have hilen : i < arr.length := by omega
              have hstop2 : target < arr.getD i 0 := by
                simp only [icmp] at hstop
                omega
              have := adjOK_getD_mono arr hs (show i ≤ q0 by omega) hq0
              omega
        obtain ⟨q, hq1, hq2, hq3⟩ := hwin
        have hqlen : q < arr.length := by omega
        have hmemslice : target ∈ Searching.sliceJS arr (i / 2)
            (min i arr.length) := by
          have hidx : q - i / 2 <
              (Searching.sliceJS arr (i / 2) (min i arr.length)).length := by
            rw [hslen]
            omega
          have := getD_mem_self _ _ hidx
          rw [sliceJS_getD arr (i / 2) (min i arr.length) (q - i / 2)
            (by omega) (by omega)] at this
          rw [show i / 2 + (q - i / 2) = q by omega] at this
          rw [hq3] at this
          exact this
        obtain ⟨ridx, hridx, hrlen, hrval, hrelem⟩ := hpres hmemslice
        rw [hrelem]
        refine ⟨i / 2 + ridx, ?_, ?_, ?_, rfl⟩
        · show (if (some target).isSome = true
              then ((i / 2 : Nat) : Int) + r.index else -1)
            = ((i / 2 + ridx : Nat) : Int)
          rw [if_pos (show (some target).isSome = true from rfl), hridx]
          omega
        · rw [hslen] at hrlen
          omega
        · rw [← sliceJS_getD arr (i / 2) (min i arr.length) ridx
            (by rw [hslen] at hrlen; omega) (by rw [hslen] at hrlen; omega)]
          exact hrval
      · intro hnm
        have hnoslice : target ∉ Searching.sliceJS arr (i / 2)
            (min i arr.length) :=
          fun hc => hnm (sliceJS_mem arr _ _ target hc)
        obtain ⟨hridx, hrel⟩ := habs hnoslice
        rw [hrel]
        exact ⟨by rw [if_neg (by simp)], rfl⟩

theorem chainLt_getD_lt (arr : List Int)
    (hst : arr.Chain' (fun x y : Int => x < y)) {i j : Nat}
    (hij : i < j) (hj : j < arr.length) : arr.getD i 0 < arr.getD j 0 := by
  have hp : arr.Pairwise (fun x y : Int => x < y) :=
    (@List.chain'_iff_pairwise Int (fun x y => x < y)
      ⟨fun a b c h1 h2 => lt_trans h1 h2⟩ arr).mp hst
  have := (List.pairwise_iff_getElem.mp hp) i j (by omega) hj hij
  rw [List.getD_eq_getElem arr 0 (by omega), List.getD_eq_getElem arr 0 hj]
  exact this

theorem chainLt_getD_le (arr : List Int)
    (hst : arr.Chain' (fun x y : Int => x < y)) {i j : Nat}
    (hij : i ≤ j) (hj : j < arr.length) : arr.getD i 0 ≤ arr.getD j 0 := by
  rcases Nat.lt_or_ge i j with hlt | hge
  · exact le_of_lt (chainLt_getD_lt arr hst hlt hj)
  · have he : i = j := by omega
    rw [he]

theorem interp_pos_bounds (low high a b target : Int)
    (hlh : low < high) (hab : a < b) (ha : a ≤ target) (hb : target ≤ b) :
    low ≤ low + Int.fdiv ((high - low) * (target - a)) (b - a)
    ∧ low + Int.fdiv ((high - low) * (target - a)) (b - a) ≤ high := by
  constructor
  · have := Int.fdiv_nonneg
      (mul_nonneg (show (0:Int) ≤ high - low by omega)
        (show (0:Int) ≤ target - a by omega))
      (show (0:Int) ≤ b - a by omega)
    omega
  · have h1 : (high - low) * (target - a) ≤ (high - low) * (b - a) :=
      mul_le_mul_of_nonneg_left (by omega) (by omega)
    have h2 : Int.fdiv ((high - low) * (target - a)) (b - a)
        ≤ high - low := by
      rw [Int.fdiv_eq_ediv _ (by omega)]
      calc (high - low) * (target - a) / (b - a)
          ≤ (high - low) * (b - a) / (b - a) :=
            Int.ediv_le_ediv (by omega) h1
        _ = high - low := Int.mul_ediv_cancel _ (by omega)
    omega

/-- Absent target, (non-strictly) sorted array: the interpolation loop
terminates within its fuel and reports not-found. -/
theorem interLoop_absent (arr : List Int) (target : Int)
    (hs : Searching.adjOK icmp arr = true) (habs : target ∉ arr) :
    ∀ (fuel : Nat) (low high : Int) (comps : Nat),
    1 ≤ fuel → (high - low + 2 : Int) ≤ (fuel : Int) →
    ∃ r, Searching.interLoop arr target low high comps fuel = some r
      ∧ AbsentOK r := by
  intro fuel
  induction fuel with
  | zero => intro low high comps h1 _; omega
  | succ fuel ih =>
    intro low high comps h1 h2
    rw [Searching.interLoop]
    split
    · rename_i hcond
      obtain ⟨hlh, ⟨a, hra, ha⟩, ⟨b, hrb, hb⟩⟩ := hcond
      have hlow : 0 ≤ low ∧ low < (arr.length : Int) := by
        by_contra hcon
        rw [Searching.readZ, if_neg hcon] at hra
        exact Option.noConfusion hra
      have hhigh : 0 ≤ high ∧ high < (arr.length : Int) := by
        by_contra hcon
        rw [Searching.readZ, if_neg hcon] at hrb
        exact Option.noConfusion hrb
      have hav : a = arr.getD low.toNat 0 := by
        rw [Searching.readZ, if_pos (by omega)] at hra
        exact (Option.some.inj hra).symm
      have hbv : b = arr.getD high.toNat 0 := by
        rw [Searching.readZ, if_pos (by omega)] at hrb
        exact (Option.some.inj hrb).symm
      split
      · rename_i heq
        rw [if_neg (show ¬ Searching.readZ arr low = some target by
          rw [Searching.readZ, if_pos (by omega)]
          intro hc
          exact habs ((Option.some.inj hc) ▸
            getD_mem_self arr low.toNat (by omega)))]
        exact ⟨_, rfl, rfl, rfl⟩
      · rename_i hne
        dsimp only
        split
        · exact ⟨_, rfl, rfl, rfl⟩
        · rename_i hba
          have hab : arr.getD low.toNat 0 < arr.getD high.toNat 0 := by
            have := adjOK_getD_mono arr hs
              (show low.toNat ≤ high.toNat by omega) (by omega)
            rw [← hav, ← hbv] at this
            omega
          have hpos := interp_pos_bounds low high (arr.getD low.toNat 0)
            (arr.getD high.toNat 0) target (by omega)
            hab (by omega) (by omega)
          set pos := low + Int.fdiv ((high - low) * (target
            - arr.getD low.toNat 0)) (arr.getD high.toNat 0
            - arr.getD low.toNat 0) with hposdef
          have hread : Searching.readZ arr pos
              = some (arr.getD pos.toNat 0) := by
            rw [Searching.readZ, if_pos (by omega)]
          rw [hread]
          dsimp only
          have hvne : ¬ arr.getD pos.toNat 0 = target := by
            intro hc
            exact habs (hc ▸ getD_mem_self arr pos.toNat (by omega))
          rw [if_neg hvne]
          split
          · exact ih (pos + 1) high (comps + 1) (by omega) (by omega)
          · exact ih low (pos - 1) (comps + 1) (by omega) (by omega)
    · exact ⟨_, rfl, rfl, rfl⟩

/-- Present target, strictly sorted array: the interpolation loop finds it. -/
theorem interLoop_present (arr : List Int) (target : Int)
    (hst : arr.Chain' (fun x y : Int => x < y)) :
    ∀ (fuel : Nat) (low high : Int) (comps : Nat),
    1 ≤ fuel → (high - low + 2 : Int) ≤ (fuel : Int) →
    0 ≤ low → high < (arr.length : Int) →
    (∃ q : Nat, low ≤ (q : Int) ∧ (q : Int) ≤ high ∧ arr.getD q 0 = target) →
    ∃ r, Searching.interLoop arr target low high comps fuel = some r
      ∧ FoundOK arr target r := by
  intro fuel
  induction fuel with
  | zero => intro low high comps h1 _ _ _ _; omega
  | succ fuel ih =>
    intro low high comps h1 h2 hl hh hocc
    obtain ⟨q, hq1, hq2, hq3⟩ := hocc
    have hlh : low ≤ high := by omega
    have hreadl : Searching.readZ arr low = some (arr.getD low.toNat 0) := by
      rw [Searching.readZ, if_pos (by omega)]
    have hreadh : Searching.readZ arr high = some (arr.getD high.toNat 0) := by
      rw [Searching.readZ, if_pos (by omega)]
    have hla : arr.getD low.toNat 0 ≤ target := by
      rw [← hq3]
      exact chainLt_getD_le arr hst (show low.toNat ≤ q by omega) (by omega)
    have hhb : target ≤ arr.getD high.toNat 0 := by
      rw [← hq3]
      exact chainLt_getD_le arr hst (show q ≤ high.toNat by omega) (by omega)
    rw [Searching.interLoop]
    rw [if_pos ⟨hlh, ⟨arr.getD low.toNat 0, hreadl, hla⟩,
      ⟨arr.getD high.toNat 0, hreadh, hhb⟩⟩]
    by_cases heq : low = high
    · rw [if_pos heq]
      have hql : q = low.toNat := by omega
      have hrt : Searching.readZ arr low = some target := by
        rw [hreadl, ← hql, hq3]
      rw [if_pos hrt]
      refine ⟨_, rfl, low.toNat, ?_, by omega, by rw [← hql]; exact hq3, rfl⟩
      show low = ((low.toNat : Nat) : Int)
      omega
    · rw [if_neg heq]
      dsimp only
      have hab : arr.getD low.toNat 0 < arr.getD high.toNat 0 :=
        chainLt_getD_lt arr hst (show low.toNat < high.toNat by omega)
          (by omega)
      rw [if_neg (show ¬ arr.getD high.toNat 0 = arr.getD low.toNat 0
        by omega)]
      have hpos := interp_pos_bounds low high (arr.getD low.toNat 0)
        (arr.getD high.toNat 0) target (by omega) hab hla hhb
      set pos := low + Int.fdiv ((high - low) * (target
        - arr.getD low.toNat 0)) (arr.getD high.toNat 0
        - arr.getD low.toNat 0) with hposdef
      have hread : Searching.readZ arr pos
          = some (arr.getD pos.toNat 0) := by
        rw [Searching.readZ, if_pos (by omega)]
      rw [hread]
      dsimp only
      by_cases hvt : arr.getD pos.toNat 0 = target
      · rw [if_pos hvt]
        refine ⟨_, rfl, pos.toNat, ?_, by omega, hvt, by rw [hvt]⟩
        show pos = ((pos.toNat : Nat) : Int)
        omega
      · rw [if_neg hvt]
        by_cases hlt : arr.getD pos.toNat 0 < target
        · rw [if_pos hlt]
          apply ih (pos + 1) high (comps + 1) (by omega) (by omega)
            (by omega) hh
          refine ⟨q, ?_, hq2, hq3⟩
          by_contra hcon
          push_neg at hcon
          have : q ≤ pos.toNat := by omega
          have := chainLt_getD_le arr hst this (by omega)
          omega
        · rw [if_neg hlt]
          apply ih low (pos - 1) (comps + 1) (by omega) (by omega) hl
            (by omega)
          refine ⟨q, hq1, ?_, hq3⟩
          by_contra hcon
          push_neg at hcon
          have : pos.toNat ≤ q := by omega
          have := chainLt_getD_le arr hst this (by omega)
          omega

theorem interpolationSearch_absent (arr : List Int) (target : Int)
    (hs : Searching.adjOK icmp arr = true) (habs : target ∉ arr) :
    ∃ r, Searching.interpolationSearch arr target = some r ∧ AbsentOK r := by
  rw [Searching.interpolationSearch]
  exact interLoop_absent arr target hs habs (arr.length + 2) 0
    ((arr.length : Int) - 1) 0 (by omega) (by omega)

theorem interpolationSearch_present_strict (arr : List Int) (target : Int)
    (hst : arr.Chain' (fun x y : Int => x < y)) (hmem : target ∈ arr) :
    ∃ r, Searching.interpolationSearch arr target = some r
      ∧ FoundOK arr target r := by
  rw [Searching.interpolationSearch]
  obtain ⟨q, hq, hval⟩ := mem_getD_index arr target hmem
  exact interLoop_present arr target hst (arr.length + 2) 0
    ((arr.length : Int) - 1) 0 (by omega) (by omega) (by omega) (by omega)
    ⟨q, by omega, by omega, hval⟩

/-- Claim C3, counterexample: on the sorted array `[5,5]` the present target
`5` makes `interpolationSearch` hit the equal-endpoints (`NaN` position)
path and report not-found with index `-1` instead of a valid index. -/
theorem c3_counterexample_interpolation_plateau :
    (5 : Int) ∈ [(5 : Int), 5]
    ∧ Searching.adjOK icmp [(5 : Int), 5] = true
    ∧ Searching.interpolationSearch [(5 : Int), 5] 5
      = some ⟨none, -1, 1⟩ :=
  ⟨by decide, by decide, by decide⟩

/-- Claim C3, amended: on arrays sorted under the numeric comparator,
binarySearch, jumpSearch and exponentialSearch return a valid index of the
target when it is present and `index = -1` with an absent element otherwise;
interpolationSearch does so for present targets only on **strictly** sorted
arrays (on plateaus containing the target it can return not-found, see the
counterexample), while its absent-target behaviour is correct on every
sorted array.  The searches with a sortedness precondition are exercised
through their non-error branch, which the sortedness hypothesis selects. -/
theorem c3_search_algorithms_amended :
    (∀ (arr : List Int) (target : Int), Searching.adjOK icmp arr = true →
      ∃ r, Searching.binarySearch arr target icmp = Except.ok r
        ∧ (target ∈ arr → FoundOK arr target r)
        ∧ (target ∉ arr → AbsentOK r))
    ∧ (∀ (arr : List Int) (target : Int), Searching.adjOK icmp arr = true →
      ∃ r, Searching.jumpSearch arr target icmp = Except.ok r
        ∧ (target ∈ arr → FoundOK arr target r)
        ∧ (target ∉ arr → AbsentOK r))
    ∧ (∀ (arr : List Int) (target : Int), Searching.adjOK icmp arr = true →
      ∃ r, Searching.exponentialSearch arr target icmp = Except.ok r
        ∧ (target ∈ arr → FoundOK arr target r)
        ∧ (target ∉ arr → AbsentOK r))
    ∧ (∀ (arr : List Int) (target : Int), Searching.adjOK icmp arr = true →
      target ∉ arr →
      ∃ r, Searching.interpolationSearch arr target = some r ∧ AbsentOK r)
    ∧ (∀ (arr : List Int) (target : Int),
      arr.Chain' (fun x y : Int => x < y) → target ∈ arr →
      ∃ r, Searching.interpolationSearch arr target = some r
        ∧ FoundOK arr target r) :=
  ⟨binarySearch_correct, jumpSearch_correct, exponentialSearch_correct,
    interpolationSearch_absent, interpolationSearch_present_strict⟩

/-- C3 witness: the amended claim at concrete sorted inputs. -/
theorem c3_search_algorithms_amended_witness :
    (∃ r, Searching.binarySearch [1, 2, 3, 4, 5] 3 icmp = Except.ok r
      ∧ ((3 : Int) ∈ [(1 : Int), 2, 3, 4, 5] → FoundOK [1, 2, 3, 4, 5] 3 r)
      ∧ ((3 : Int) ∉ [(1 : Int), 2, 3, 4, 5] → AbsentOK r))
    ∧ (∃ r, Searching.jumpSearch [1, 2, 3, 4, 5] 3 icmp = Except.ok r
      ∧ ((3 : Int) ∈ [(1 : Int), 2, 3, 4, 5] → FoundOK [1, 2, 3, 4, 5] 3 r)
      ∧ ((3 : Int) ∉ [(1 : Int), 2, 3, 4, 5] → AbsentOK r))
    ∧ (∃ r, Searching.exponentialSearch [1, 2, 3, 4, 5] 3 icmp = Except.ok r
      ∧ ((3 : Int) ∈ [(1 : Int), 2, 3, 4, 5] → FoundOK [1, 2, 3, 4, 5] 3 r)
      ∧ ((3 : Int) ∉ [(1 : Int), 2, 3, 4, 5] → AbsentOK r))
    ∧ (∃ r, Searching.interpolationSearch [1, 2, 4] 3 = some r ∧ AbsentOK r)
    ∧ (∃ r, Searching.interpolationSearch [1, 3, 5] 3 = some r
      ∧ FoundOK [1, 3, 5] 3 r) :=
  ⟨c3_search_algorithms_amended.1 [1, 2, 3, 4, 5] 3 (by decide),
    c3_search_algorithms_amended.2.1 [1, 2, 3, 4, 5] 3 (by decide),
    c3_search_algorithms_amended.2.2.1 [1, 2, 3, 4, 5] 3 (by decide),
    c3_search_algorithms_amended.2.2.2.1 [1, 2, 4] 3 (by decide) (by decide),
    c3_search_algorithms_amended.2.2.2.2 [1, 3, 5] 3
      (by norm_num [List.chain'_cons, List.chain'_singleton]) (by decide)⟩

/-! ## Comparison counts (claim C7) -/

/-- Each probe at least halves the window, so a window below `2^k - 1`
costs at most `k` counted comparisons. -/
theorem binLoop_comparisons (c : Int → Int → Int) (arr : List Int)
    (target : Int) :
    ∀ (k : Nat) (left right : Int) (comps : Nat),
    (right + 1 - left : Int) ≤ 2 ^ k - 1 →
    ((Searching.binLoop c arr target left right comps).comparisons : Int)
      ≤ comps + k := by
  intro k
  induction k with
  | zero =>
    intro left right comps hw
    rw [Searching.binLoop, dif_neg (by
      simp only [Int.pow_zero] at hw
      omega)]
    simp
  | succ k ih =>
    intro left right comps hw
    have h2k : (2 : Int) ^ (k + 1) = 2 * 2 ^ k := by
      rw [pow_succ]
      ring
    rw [Searching.binLoop]
    split
    · rename_i hle
      dsimp only
      split
      · rename_i v hv
        split
        · show ((comps + 1 : Nat) : Int) ≤ comps + (k + 1)
          push_cast
          omega
        · split
          · have := ih (left + (right - left) / 2 + 1) right (comps + 1)
              (by omega)
            push_cast at this ⊢
            omega
          · have := ih left (left + (right - left) / 2 - 1) (comps + 1)
              (by omega)
            push_cast at this ⊢
            omega
      · rename_i hv
        have := ih left (left + (right - left) / 2 - 1) (comps + 1)
          (by omega)
        push_cast at this ⊢
        omega
    · show ((comps : Nat) : Int) ≤ comps + (k + 1)
      push_cast
      omega

theorem linLoop_comparisons (c : Int → Int → Int) (target : Int) :
    ∀ (l : List Int) (i comps k : Nat), k < l.length →
    c (l.getD k 0) target = 0 →
    (∀ j, j < k → c (l.getD j 0) target ≠ 0) →
    (Searching.linLoop c target l i comps).comparisons = comps + k + 1
  | [], i, comps, k => fun hk _ _ => absurd hk (by simp)
  | a :: rest, i, comps, k => fun hk hmatch hfirst => by
    rw [Searching.linLoop]
    by_cases ha : c a target = 0
    · rw [if_pos ha]
      have hk0 : k = 0 := by
        by_contra hcon
        exact hfirst 0 (by omega) (by rw [List.getD_cons_zero]; exact ha)
      rw [hk0]
    · rw [if_neg ha]
      have hk0 : k ≠ 0 := by
        intro he
        rw [he, List.getD_cons_zero] at hmatch
        exact ha hmatch
      have hrec := linLoop_comparisons c target rest (i + 1) (comps + 1)
        (k - 1) (by simp at hk; omega)
        (by
          have e : (a :: rest).getD k 0 = rest.getD (k - 1) 0 := by
            rw [show k = (k - 1) + 1 by omega, List.getD_cons_succ]
            rfl
          rw [← e]
          exact hmatch)
        (by
          intro j hj
          have := hfirst (j + 1) (by omega)
          rw [List.getD_cons_succ] at this
          exact this)
      rw [hrec]
      omega

/-- Claim C7: on a sorted array the probe count of `binarySearch` (the
validation scan is not counted: the loop starts from `comparisons = 0`
after it) is at most `ceil(log2(n+1))`, and `linearSearch` whose first
match is at index `k` makes exactly `k + 1` comparisons. -/
theorem c7_comparison_counts :
    (∀ (arr : List Int) (target : Int), Searching.adjOK icmp arr = true →
      ∃ r, Searching.binarySearch arr target icmp = Except.ok r
        ∧ r.comparisons ≤ Nat.clog 2 (arr.length + 1))
    ∧ (∀ (arr : List Int) (target : Int) (k : Nat), k < arr.length →
      icmp (arr.getD k 0) target = 0 →
      (∀ j, j < k → icmp (arr.getD j 0) target ≠ 0) →
      (Searching.linearSearch arr target icmp).comparisons = k + 1) := by
  constructor
  · intro arr target hs
    rw [Searching.binarySearch, if_pos hs]
    refine ⟨_, rfl, ?_⟩
    have hclog : arr.length + 1 ≤ 2 ^ Nat.clog 2 (arr.length + 1) :=
      Nat.le_pow_clog (by omega) _
    have hcast : ((2 ^ Nat.clog 2 (arr.length + 1) : Nat) : Int)
        = (2 : Int) ^ Nat.clog 2 (arr.length + 1) := by
      push_cast
      ring
    have hb := binLoop_comparisons icmp arr target
      (Nat.clog 2 (arr.length + 1)) 0 ((arr.length : Int) - 1) 0 (by omega)
    omega
  · intro arr target k hk hmatch hfirst
    have := linLoop_comparisons icmp target arr 0 0 k hk hmatch hfirst
    rw [Searching.linearSearch]
    omega

/-- C7 witness: `binarySearch([1,2,3,4,5], 3)` stays within
`ceil(log2(6)) = 3` comparisons; `linearSearch([4,2,7,1,9], 7)` first
matches at index 2 and makes exactly 3 comparisons. -/
theorem c7_comparison_counts_witness :
    (∃ r, Searching.binarySearch [1, 2, 3, 4, 5] 3 icmp = Except.ok r
      ∧ r.comparisons ≤ Nat.clog 2 ([(1 : Int), 2, 3, 4, 5].length + 1))
    ∧ (Searching.linearSearch [4, 2, 7, 1, 9] 7 icmp).comparisons = 2 + 1 :=
  ⟨c7_comparison_counts.1 [1, 2, 3, 4, 5] 3 (by decide),
    c7_comparison_counts.2 [4, 2, 7, 1, 9] 7 2 (by decide) (by decide)
      (by decide)⟩

/-! ## The adaptive dispatcher (claim C10) -/

/-- On arrays the routing scan found sorted, the interpolation loop always
terminates within its fuel (every exit either returns or shrinks the
window), regardless of whether the target is present. -/
theorem interLoop_total (arr : List Int) (target : Int)
    (hs : Searching.adjOK icmp arr = true) :
    ∀ (fuel : Nat) (low high : Int) (comps : Nat),
    1 ≤ fuel → (high - low + 2 : Int) ≤ (fuel : Int) →
    ∃ r, Searching.interLoop arr target low high comps fuel = some r := by
  intro fuel
  induction fuel with
  | zero => intro low high comps h1 _; omega
  | succ fuel ih =>
    intro low high comps h1 h2
    rw [Searching.interLoop]
    split
    · rename_i hcond
      obtain ⟨hlh, ⟨a, hra, ha⟩, ⟨b, hrb, hb⟩⟩ := hcond
      have hlow : 0 ≤ low ∧ low < (arr.length : Int) := by
        by_contra hcon
        rw [Searching.readZ, if_neg hcon] at hra
        exact Option.noConfusion hra
      have hhigh : 0 ≤ high ∧ high < (arr.length : Int) := by
        by_contra hcon
        rw [Searching.readZ, if_neg hcon] at hrb
        exact Option.noConfusion hrb
      have hav : a = arr.getD low.toNat 0 := by
        rw [Searching.readZ, if_pos (by omega)] at hra
        exact (Option.some.inj hra).symm
      have hbv : b = arr.getD high.toNat 0 := by
        rw [Searching.readZ, if_pos (by omega)] at hrb
        exact (Option.some.inj hrb).symm
      split
      · split
        · exact ⟨_, rfl⟩
        · exact ⟨_, rfl⟩
      · rename_i hne
        dsimp only
        split
        · exact ⟨_, rfl⟩
        · rename_i hba
          have hab : arr.getD low.toNat 0 < arr.getD high.toNat 0 := by
            have := adjOK_getD_mono arr hs
              (show low.toNat ≤ high.toNat by omega) (by omega)
            rw [← hav, ← hbv] at this
            omega
          have hpos := interp_pos_bounds low high (arr.getD low.toNat 0)
            (arr.getD high.toNat 0) target (by omega)
            hab (by omega) (by omega)
          set pos := low + Int.fdiv ((high - low) * (target
            - arr.getD low.toNat 0)) (arr.getD high.toNat 0
            - arr.getD low.toNat 0) with hposdef
          have hread : Searching.readZ arr pos
              = some (arr.getD pos.toNat 0) := by
            rw [Searching.readZ, if_pos (by omega)]
          rw [hread]
          dsimp only
          split
          · exact ⟨_, rfl⟩
          · split
            · exact ih (pos + 1) high (comps + 1) (by omega) (by omega)
            · exact ih low (pos - 1) (comps + 1) (by omega) (by omega)
    · exact ⟨_, rfl⟩

/-- Claim C10: the adaptive dispatcher never surfaces the sortedness
precondition error.  Inputs of length at most 10 and inputs the routing
scan finds unsorted go to `linearSearch`; the remaining inputs are sorted
under the active comparator, so the delegated `binarySearch`'s
`"Array must be sorted"` branch cannot fire, and the delegated
`interpolationSearch` (a comparator-free numeric algorithm, modelled with
fuel) yields `none` at worst, never an error. -/
theorem c10_search_no_sortedness_error (arr : List Int) (target : Int)
    (c : Int → Int → Int) :
    (∃ r, Searching.search arr target c = some (Except.ok r))
    ∨ Searching.search arr target c = none := by
  rw [Searching.search]
  by_cases h1 : arr.length ≤ 10
  · rw [if_pos h1]
    exact Or.inl ⟨_, rfl⟩
  · rw [if_neg h1]
    by_cases h2 : Searching.adjOK c arr = true
    · rw [if_neg (by rw [h2]; exact fun hc => hc rfl)]
      by_cases h3 : Searching.isUniformlyDistributed arr = true
      · rw [if_pos h3]
        cases hI : Searching.interpolationSearch arr target with
        | none => right; rfl
        | some r => left; exact ⟨r, rfl⟩
      · rw [if_neg h3]
        left
        rw [Searching.binarySearch, if_pos h2]
        exact ⟨_, rfl⟩
    · rw [if_pos (by
        rw [Bool.not_eq_true] at h2
        rw [h2]
        exact fun hc => Bool.noConfusion hc)]
      exact Or.inl ⟨_, rfl⟩
